import Mathlib

/-!
# Topological sorting with Kahn's algorithm (serial and POSIX-threads version)

A shallow embedding of `topology_shorting.c` and `topology_shorting_parallel.c`.

* C `int` values are `Int`; array indices and `nodes_count` are `Nat`.
* The arrays `matrix`, `dependencies_matrix` and `topology_matrix` are total maps from
  indices to `Int`; a write past the end of `topology_matrix` is reported as a fault.
* The linked queue is kept with its pointers: every queue owns a region of node cells
  (`cells`), `malloc` hands out the next unused address and fails when the region is
  exhausted, `free` clears a cell. `none` is the `NULL` pointer.
* `while` loops whose trip count is not known in advance take a fuel argument.
* A run of the parallel program is a schedule: a list of actions of the threads. An
  action is one critical section of a thread together with the unlocked work on its own
  local queue next to it, which no other thread can observe. The unlocked test
  `topology_matrix_index != nodes_count` of the second phase is not part of an action: a
  schedule may let a thread iterate at any time.
-/

namespace TopologyShorting

/-! ## Memory helpers -/

/-- Array or memory write: the map `f` with index `i` replaced by `v`. -/
def store {α : Type} (f : Nat → α) (i : Nat) (v : α) : Nat → α :=
  fun k => if k = i then v else f k

/-- Queue node structure (`typedef struct node`). -/
structure node where
  val : Int
  next : Option Nat
deriving DecidableEq

/-- A linked queue: the `head` and `tail` pointers together with the node cells they
point into. `brk` is the next address `malloc` returns, `limit` the first address that is
not available any more. -/
structure Queue where
  cells : Nat → Option node
  brk : Nat
  limit : Nat
  head : Option Nat
  tail : Option Nat

/-- The result of `malloc(sizeof(node))`: a fresh address, or `none` (NULL). -/
def malloc (q : Queue) : Option Nat :=
  if q.brk < q.limit then some q.brk else none

/-- Reading through a pointer. Reading a cell that is not allocated is undefined in C and
is never reached from a well-formed queue; here it yields a zeroed node. -/
def deref (cells : Nat → Option node) (p : Nat) : node :=
  (cells p).getD ⟨0, none⟩

/-- The assignment `p->next = nx` (no effect through a NULL pointer). -/
def set_next (cells : Nat → Option node) (p : Option Nat) (nx : Option Nat) :
    Nat → Option node :=
  match p with
  | none => cells
  | some t => store cells t (some { deref cells t with next := nx })

/-- The empty queue: `head = NULL; tail = NULL;` over an unused region of `limit` cells. -/
def empty_queue (limit : Nat) : Queue :=
  { cells := fun _ => none, brk := 0, limit := limit, head := none, tail := none }

/-- `push_value`: inserts `val` at the end of the queue. Returns `0`, or `-1` when the
node could not be allocated. -/
def push_value (q : Queue) (val : Int) : Int × Queue :=
  match malloc q with
  | none => (-1, q)
  | some new_node =>
    let cells1 := store q.cells new_node (some ⟨val, none⟩)
    match q.head with
    | none =>
      (0, { q with cells := cells1, brk := q.brk + 1,
                   head := some new_node, tail := some new_node })
    | some _ =>
      (0, { q with cells := set_next cells1 q.tail (some new_node), brk := q.brk + 1,
                   tail := some new_node })

/-- `pop_value`: returns the head value of the queue and moves the head to the next
node; returns `-1` when the queue is empty. -/
def pop_value (q : Queue) : Int × Queue :=
  match q.head with
  | none => (-1, q)
  | some h =>
    let retval := (deref q.cells h).val
    let new_head := (deref q.cells h).next
    let cells1 := store q.cells h none
    match new_head with
    | none => (retval, { q with cells := cells1, head := none, tail := none })
    | some nh => (retval, { q with cells := cells1, head := some nh })

/-! ## Serial program state -/

/-- Ways in which a run stops without reaching the end of the function. -/
inductive Fault where
  /-- `push_value` returned `-1`: the program prints a message and calls `exit(0)`. -/
  | alloc_exit
  /-- A write to `topology_matrix` at an index that is not below `nodes_count`. -/
  | out_of_bounds
  /-- The fuel given to a `while` loop was used up. -/
  | out_of_fuel
  /-- A scheduled action of a thread that is not possible in the current state. -/
  | not_enabled
deriving DecidableEq

/-- The global variables of the program. `push_log` is a history variable that is not
in the source: it records the argument of every successful `push_value` call on the
global queue made by the serial sorter. -/
structure State where
  q : Queue
  nodes_count : Nat
  matrix : Nat → Nat → Int
  dependencies_matrix : Nat → Int
  topology_matrix : Nat → Int
  topology_matrix_index : Nat
  push_log : List Int

/-- One input record `i j w`: an edge from `i` to `j`; the weight is read and ignored. -/
structure edge_record where
  i : Nat
  j : Nat
  w : Rat

/-- The body of the reading loop of `initialize`:
`matrix[i][j] = 1; dependencies_matrix[j]++;`. -/
def read_record (s : State) (e : edge_record) : State :=
  { s with
    matrix := store s.matrix e.i (store (s.matrix e.i) e.j 1)
    dependencies_matrix := store s.dependencies_matrix e.j (s.dependencies_matrix e.j + 1) }

/-- The function `initialize` of the source (the same in both programs): clears the
queue, zeroes the arrays and reads the records up to the sentinel `-1`. The input is given
as the list of its records. `arrays_allocated` tells whether the three array allocations
succeeded; the function returns `1` on success and `0` otherwise. `queue_limit` is the
number of queue nodes the allocator can provide. -/
def initialize_graph (arrays_allocated : Bool) (queue_limit : Nat) (nodes_count : Nat)
    (records : List edge_record) : Int × State :=
  let s0 : State :=
    { q := empty_queue queue_limit
      nodes_count := nodes_count
      matrix := fun _ _ => 0
      dependencies_matrix := fun _ => 0
      topology_matrix := fun _ => 0
      topology_matrix_index := 0
      push_log := [] }
  if arrays_allocated then (1, records.foldl read_record s0) else (0, s0)

/-- The loop `for (i = ...; ...; i++) body` over the given index values, stopping at the
first fault. -/
def for_loop {σ : Type} (body : σ → Nat → Except Fault σ) : List Nat → σ → Except Fault σ
  | [], s => Except.ok s
  | i :: is, s =>
    match body s i with
    | Except.error f => Except.error f
    | Except.ok s1 => for_loop body is s1

/-- The call `push_value(i)` of the sorter followed by its check: on `-1` the program
exits, otherwise the queue is updated. -/
def push_or_exit (s : State) (i : Nat) : Except Fault State :=
  match push_value s.q (i : Int) with
  | (r, q1) =>
    if r = -1 then Except.error Fault.alloc_exit
    else Except.ok { s with q := q1, push_log := s.push_log ++ [(i : Int)] }

/-- Body of the first loop of `calculate_topology`: push node `i` when it has no
dependencies. -/
def seed_body (s : State) (i : Nat) : Except Fault State :=
  if s.dependencies_matrix i ≠ 0 then Except.ok s
  else push_or_exit s i

/-- Body of the inner `for` loop of `calculate_topology` for the node
`current_node_index`. -/
def drain_body (current_node_index : Int) (s : State) (i : Nat) : Except Fault State :=
  if s.matrix current_node_index.toNat i ≠ 1 then Except.ok s
  else
    let s1 : State :=
      { s with dependencies_matrix :=
          store s.dependencies_matrix i (s.dependencies_matrix i - 1) }
    if s1.dependencies_matrix i ≠ 0 then Except.ok s1
    else push_or_exit s1 i

/-- The `while (current_node_index != -1)` loop of `calculate_topology`; `fuel` bounds
the number of iterations. -/
def drain : Nat → State → Int → Except Fault State
  | 0, s, current_node_index =>
    if current_node_index = -1 then Except.ok s else Except.error Fault.out_of_fuel
  | fuel + 1, s, current_node_index =>
    if current_node_index = -1 then Except.ok s
    else
      match for_loop (drain_body current_node_index) (List.range s.nodes_count) s with
      | Except.error f => Except.error f
      | Except.ok s1 =>
        if s1.topology_matrix_index < s1.nodes_count then
          let s2 : State :=
            { s1 with
              topology_matrix :=
                store s1.topology_matrix s1.topology_matrix_index current_node_index
              topology_matrix_index := s1.topology_matrix_index + 1 }
          match pop_value s2.q with
          | (next_node_index, q1) => drain fuel { s2 with q := q1 } next_node_index
        else Except.error Fault.out_of_bounds

/-- `calculate_topology` of the serial program (the final `free` calls of the two graph
arrays are left out, so that the arrays can still be inspected). -/
def calculate_topology (fuel : Nat) (s : State) : Except Fault State :=
  match for_loop seed_body (List.range s.nodes_count) { s with topology_matrix_index := 0 } with
  | Except.error f => Except.error f
  | Except.ok s1 =>
    match pop_value s1.q with
    | (current_node_index, q1) => drain fuel { s1 with q := q1 } current_node_index

/-- The result sequence: the entries of `topology_matrix` below `topology_matrix_index`. -/
def result (s : State) : List Int :=
  (List.range s.topology_matrix_index).map s.topology_matrix

/-! ## Graph vocabulary -/

/-- There is an edge `i → j`: both are nodes and `matrix[i][j]` is `1`. -/
def Edge (s : State) (i j : Nat) : Prop :=
  i < s.nodes_count ∧ j < s.nodes_count ∧ s.matrix i j = 1

/-- The static in-degree of `j`: the number of nodes `i` with `matrix[i][j] = 1`. -/
def in_degree (s : State) (j : Nat) : Nat :=
  ((List.range s.nodes_count).filter (fun i => decide (s.matrix i j = 1))).length

/-- The dependency counters equal the static in-degree of the adjacency matrix. -/
def Consistent (s : State) : Prop :=
  ∀ j, j < s.nodes_count → s.dependencies_matrix j = (in_degree s j : Int)

/-- The graph has no directed cycle (a self-loop is a cycle). -/
def Acyclic (s : State) : Prop :=
  ∀ i, ¬ Relation.TransGen (Edge s) i i

/-- The node `i` lies on a directed cycle. -/
def OnCycle (s : State) (i : Nat) : Prop :=
  Relation.TransGen (Edge s) i i

/-- The state in which `calculate_topology` is entered: the queue is empty, there is
room for one queue node per graph node, and nothing has been pushed yet. -/
def Ready (s : State) : Prop :=
  s.q.head = none ∧ s.q.tail = none ∧ s.q.brk + s.nodes_count ≤ s.q.limit ∧ s.push_log = []

/-- The number of nodes `i < N` with `m i j = 1` that are not in the list `r`. -/
def open_deps (N : Nat) (m : Nat → Nat → Int) (r : List Nat) (j : Nat) : Nat :=
  ((List.range N).filter (fun i => decide (m i j = 1 ∧ i ∉ r))).length

/-- The invariant of Kahn's algorithm between two iterations of the drain loop, for the
emitted nodes `r` and the pending nodes `P` (the node just popped followed by the queue):
no node is repeated, the counter of `j` is the number of its predecessors that are not
emitted, exactly the nodes with counter zero have been pushed, and every emitted node
comes after all its predecessors. -/
structure Kahn (N : Nat) (m : Nat → Nat → Int) (dep : Nat → Int) (r P : List Nat) : Prop where
  nodup : (r ++ P).Nodup
  bound : ∀ x ∈ r ++ P, x < N
  count : ∀ j, j < N → dep j = (open_deps N m r j : Int)
  zero : ∀ j, j < N → (dep j = 0 ↔ j ∈ r ++ P)
  order : ∀ a j b, r = a ++ j :: b → ∀ i, i < N → m i j = 1 → i ∈ a

/-- The counters after the inner loop for node `c` has run over the indices `is`: the
counter of every successor of `c` among them is one less. -/
def dec_deps (m : Nat → Nat → Int) (dep : Nat → Int) (c : Nat) (is : List Nat) : Nat → Int :=
  fun j => if j ∈ is ∧ m c j = 1 then dep j - 1 else dep j

/-- The indices among `is` that the inner loop for node `c` pushes: the successors of
`c` whose counter drops to zero. -/
def released (m : Nat → Nat → Int) (dep : Nat → Int) (c : Nat) (is : List Nat) : List Nat :=
  is.filter (fun j => decide (m c j = 1 ∧ dep j - 1 = 0))

/-- Calls `push_value` for each value of the list in turn; returns the return codes
and the queue after the last call. -/
def push_all (q : Queue) : List Int → List Int × Queue
  | [] => ([], q)
  | v :: vs => ((push_value q v).1 :: (push_all (push_value q v).2 vs).1,
                (push_all (push_value q v).2 vs).2)

/-- Calls `pop_value` the given number of times; returns the values returned and the
queue after the last call. -/
def pop_times (q : Queue) : Nat → List Int × Queue
  | 0 => ([], q)
  | n + 1 => ((pop_value q).1 :: (pop_times (pop_value q).2 n).1,
              (pop_times (pop_value q).2 n).2)

/-- The result sequence of a run, when the run ended without fault. -/
def result_of (r : Except Fault State) : Option (List Int) :=
  match r with
  | Except.ok s => some (result s)
  | Except.error _ => none

/-- The position of a node in a sequence: the index of its first occurrence (the length
of the sequence when it does not occur). -/
def position (l : List Int) (v : Nat) : Nat :=
  l.indexOf (v : Int)

/-- The order-respecting property of a sequence `l` for the graph of `s`: for every edge
`i → j`, both nodes occur in `l` and the position of `i` is smaller than that of `j`. -/
def order_respecting (s : State) (l : List Int) : Prop :=
  ∀ i, i < s.nodes_count → ∀ j, j < s.nodes_count → s.matrix i j = 1 →
    position l i < position l j ∧ position l j < l.length

instance (s : State) (l : List Int) : Decidable (order_respecting s l) := by
  unfold order_respecting
  infer_instance

/-- The graph with 4 nodes and the edges 0→1, 0→2, 1→3, 2→3, as loaded from its input
file, with room for 4 queue nodes. -/
def diamond : State :=
  (initialize_graph true 4 4 [⟨0, 1, 1⟩, ⟨0, 2, 1⟩, ⟨1, 3, 1⟩, ⟨2, 3, 1⟩]).2

/-- The graph with 3 nodes and the edges 0→1, 1→0, 1→2: a cycle through 0 and 1 and a
node 2 behind it. -/
def lasso : State :=
  (initialize_graph true 3 3 [⟨0, 1, 1⟩, ⟨1, 0, 1⟩, ⟨1, 2, 1⟩]).2

/-- An input with 2 nodes in which the record of the edge 0→1 occurs twice. -/
def doubled_records : List edge_record := [⟨0, 1, 1⟩, ⟨0, 1, 1⟩]

/-- The state loaded from `doubled_records`. -/
def doubled : State := (initialize_graph true 2 2 doubled_records).2

/-! ## The queue as a list -/

/-- Following `next` pointers from `p` visits exactly the cells listed in `cs` (address
and value of each) and then reaches NULL. -/
def Chain (cells : Nat → Option node) : Option Nat → List (Nat × Int) → Prop
  | p, [] => p = none
  | p, c :: cs => p = some c.1 ∧ ∃ nx, cells c.1 = some ⟨c.2, nx⟩ ∧ Chain cells nx cs

/-- Address of the last cell of a chain. -/
def last_addr : List (Nat × Int) → Option Nat
  | [] => none
  | [c] => some c.1
  | _ :: c :: cs => last_addr (c :: cs)

/-- The queue `q` holds the values `vs`, oldest first: its cells form a chain from `head`
with these values, the cells are distinct and allocated, and `tail` points to the last
cell when there is one. -/
def Rep (q : Queue) (vs : List Int) : Prop :=
  ∃ cs : List (Nat × Int), Chain q.cells q.head cs ∧ cs.map Prod.snd = vs ∧
    (cs.map Prod.fst).Nodup ∧ (∀ c ∈ cs, c.1 < q.brk) ∧ (cs ≠ [] → q.tail = last_addr cs)

/-- The program state at the test of the `while` loop of `calculate_topology`, with
`current_node_index = cur`: `r` is the result so far and `P` the pending nodes, that is the
node just popped (if any) followed by the content of the queue. -/
structure AtLoop (s : State) (cur : Int) (r P : List Nat) : Prop where
  index : s.topology_matrix_index = r.length
  res : result s = r.map Int.ofNat
  log : s.push_log = (r ++ P).map Int.ofNat
  room : s.q.brk + s.nodes_count ≤ s.q.limit + (r ++ P).length
  cur : cur = (P.head?.map Int.ofNat).getD (-1)
  queue : Rep s.q (P.tail.map Int.ofNat)
  kahn : Kahn s.nodes_count s.matrix s.dependencies_matrix r P

/-! ## The parallel program -/

/-- The global variables of the parallel program (those of the serial program and
`threads_count`) together with the state of the threads: `thread_queue id` is the local
queue (`thread_head`, `thread_tail`) of thread `id`, `pc id` its progress in
`initialize_queue` (0: not started, 1: nodes scanned, 2: returned), `draining` tells
whether the threads of the second phase have been created, and `thread_limit` is the
number of nodes the allocator can provide for one local queue. -/
structure ParState extends State where
  threads_count : Nat
  thread_queue : Nat → Queue
  pc : Nat → Nat
  draining : Bool
  thread_limit : Nat

/-- A call `push_value(&thread_head, &thread_tail, i)` followed by its check. -/
def push_local_or_exit (lq : Queue) (i : Nat) : Except Fault Queue :=
  match push_value lq (i : Int) with
  | (r, lq1) => if r = -1 then Except.error Fault.alloc_exit else Except.ok lq1

/-- Body of the scanning loop of `initialize_queue`: node `i` goes to the local queue
when it has no dependencies. -/
def scan_body (s : ParState) (lq : Queue) (i : Nat) : Except Fault Queue :=
  if s.dependencies_matrix i ≠ 0 then Except.ok lq
  else push_local_or_exit lq i

/-- The first part of `initialize_queue` for thread `id`, up to the test of
`thread_head == NULL`: the local queue after the assigned block and the remaining node
have been scanned. -/
def scan_assigned (s : ParState) (id : Nat) : Except Fault Queue :=
  let interval := s.nodes_count / s.threads_count
  let remainder := s.nodes_count % s.threads_count
  let start := id * interval
  match for_loop (scan_body s) (List.range' start interval) (empty_queue s.thread_limit) with
  | Except.error f => Except.error f
  | Except.ok lq =>
    if id < remainder then
      if s.dependencies_matrix (s.nodes_count - id - 1) = 0 then
        push_local_or_exit lq (s.nodes_count - id - 1)
      else Except.ok lq
    else Except.ok lq

/-- The locked loop of `initialize_queue`: every node of the local queue is pushed to the
global queue and its cell freed. Returns the global and the local queue. -/
def move_to_global : Nat → Queue → Queue → Except Fault (Queue × Queue)
  | 0, g, lq =>
    match lq.head with
    | none => Except.ok (g, lq)
    | some _ => Except.error Fault.out_of_fuel
  | fuel + 1, g, lq =>
    match lq.head with
    | none => Except.ok (g, lq)
    | some h =>
      match push_value g (deref lq.cells h).val with
      | (r, g1) =>
        if r = -1 then Except.error Fault.alloc_exit
        else move_to_global fuel g1
          { lq with cells := store lq.cells h none, head := (deref lq.cells h).next }

/-- The locked loop of `thread_topology_calculation` over the local queue: the counter
of every node in it is decremented, and the node is pushed to the global queue when the
counter is zero. Returns the global state and the local queue. -/
def flush_pending : Nat → ParState → Queue → Except Fault (ParState × Queue)
  | 0, s, lq =>
    match lq.head with
    | none => Except.ok (s, lq)
    | some _ => Except.error Fault.out_of_fuel
  | fuel + 1, s, lq =>
    match lq.head with
    | none => Except.ok (s, lq)
    | some h =>
      let v := (deref lq.cells h).val
      let s1 : ParState :=
        { s with dependencies_matrix :=
            store s.dependencies_matrix v.toNat (s.dependencies_matrix v.toNat - 1) }
      let lq1 : Queue :=
        { lq with cells := store lq.cells h none, head := (deref lq.cells h).next }
      if s1.dependencies_matrix v.toNat = 0 then
        match push_value s1.q v with
        | (r, g1) =>
          if r = -1 then Except.error Fault.alloc_exit
          else flush_pending fuel { s1 with q := g1 } lq1
      else flush_pending fuel s1 lq1

/-- Body of the last loop of `thread_topology_calculation`: every successor of
`current_node_index` goes to the local queue. -/
def expand_body (s : ParState) (current_node_index : Int) (lq : Queue) (i : Nat) :
    Except Fault Queue :=
  if s.matrix current_node_index.toNat i ≠ 1 then Except.ok lq
  else push_local_or_exit lq i

/-- One iteration of the `while` loop of `thread_topology_calculation` by thread `id`:
the critical section (flush the local queue, pop the global queue, append the popped
node to the result) followed by the scan of the popped node's row into the local queue.
`fuel` bounds the iterations of the inner `while` loop. -/
def thread_iteration (fuel : Nat) (id : Nat) (s : ParState) : Except Fault ParState :=
  match flush_pending fuel s (s.thread_queue id) with
  | Except.error f => Except.error f
  | Except.ok (s1, lq1) =>
    match pop_value s1.q with
    | (current_node_index, g1) =>
      if current_node_index ≠ -1 then
        if s1.topology_matrix_index < s1.nodes_count then
          let s2 : ParState :=
            { s1 with
              q := g1
              topology_matrix :=
                store s1.topology_matrix s1.topology_matrix_index current_node_index
              topology_matrix_index := s1.topology_matrix_index + 1 }
          match for_loop (expand_body s2 current_node_index) (List.range s2.nodes_count) lq1 with
          | Except.error f => Except.error f
          | Except.ok lq2 =>
            Except.ok { s2 with thread_queue := store s2.thread_queue id lq2 }
        else Except.error Fault.out_of_bounds
      else Except.ok { s1 with q := g1, thread_queue := store s1.thread_queue id lq1 }

/-- What the scheduler can let happen next: thread `id` of the first phase scans its
nodes, or runs its locked loop and returns; the main thread, having joined all threads of
the first phase, resets `topology_matrix_index` and creates the threads of the second
phase; thread `id` of the second phase runs one iteration of its loop. -/
inductive Action where
  | scan (id : Nat)
  | publish (id : Nat)
  | start_draining
  | iterate (id : Nat)

/-- The effect of one scheduled action. -/
def par_step (fuel : Nat) (s : ParState) (a : Action) : Except Fault ParState :=
  match a with
  | Action.scan id =>
    if id < s.threads_count ∧ s.draining = false ∧ s.pc id = 0 then
      match scan_assigned s id with
      | Except.error f => Except.error f
      | Except.ok lq =>
        Except.ok { s with thread_queue := store s.thread_queue id lq, pc := store s.pc id 1 }
    else Except.error Fault.not_enabled
  | Action.publish id =>
    if id < s.threads_count ∧ s.draining = false ∧ s.pc id = 1 then
      match move_to_global fuel s.q (s.thread_queue id) with
      | Except.error f => Except.error f
      | Except.ok (g1, lq1) =>
        Except.ok { s with
          q := g1, thread_queue := store s.thread_queue id lq1, pc := store s.pc id 2 }
    else Except.error Fault.not_enabled
  | Action.start_draining =>
    if s.draining = false ∧ ∀ id, id < s.threads_count → s.pc id = 2 then
      Except.ok { s with
        topology_matrix_index := 0
        thread_queue := fun _ => empty_queue s.thread_limit
        draining := true }
    else Except.error Fault.not_enabled
  | Action.iterate id =>
    if id < s.threads_count ∧ s.draining = true then thread_iteration fuel id s
    else Except.error Fault.not_enabled

/-- A run of the parallel sorter under the given schedule. -/
def par_run (fuel : Nat) : List Action → ParState → Except Fault ParState
  | [], s => Except.ok s
  | a :: schedule, s =>
    match par_step fuel s a with
    | Except.error f => Except.error f
    | Except.ok s1 => par_run fuel schedule s1

/-- The state of the parallel program after `initialize`, before any thread is
created. -/
def par_initial (s : State) (threads_count thread_limit : Nat) : ParState :=
  { s with
    threads_count := threads_count
    thread_queue := fun _ => empty_queue thread_limit
    pc := fun _ => 0
    draining := false
    thread_limit := thread_limit }

/-- The values stored in a chain of cells, read from pointer `p` for at most `fuel`
cells. -/
def chain_values (cells : Nat → Option node) : Nat → Option Nat → List Int
  | 0, _ => []
  | _ + 1, none => []
  | fuel + 1, some a => (deref cells a).val :: chain_values cells fuel (deref cells a).next

/-- The content of a queue, oldest value first. -/
def contents (q : Queue) : List Int :=
  chain_values q.cells q.brk q.head

/-- The number of occurrences of node `j` in the local queues `B` of the threads
`0 .. W - 1`. -/
def pending (W : Nat) (B : Nat → List Nat) (j : Nat) : Nat :=
  ((List.range W).map (fun w => (B w).count j)).sum

/-- The successors of node `c`, in index order. -/
def successors (N : Nat) (m : Nat → Nat → Int) (c : Nat) : List Nat :=
  (List.range N).filter (fun i => decide (m c i = 1))

/-- The invariant of the second phase of the parallel sorter, for the emitted nodes `r`,
the content `S` of the global queue and the contents `B` of the local queues: emitted and
queued nodes are distinct, the counter of `j` is the number of its predecessors that are
not emitted plus the number of times `j` waits in a local queue, emitted and queued nodes
have counter zero, and every emitted node comes after all its predecessors. -/
structure ParInv (N W : Nat) (m : Nat → Nat → Int) (dep : Nat → Int) (r S : List Nat)
    (B : Nat → List Nat) : Prop where
  nodup : (r ++ S).Nodup
  bound : ∀ x ∈ r ++ S, x < N
  count : ∀ j, j < N → dep j = (open_deps N m r j : Int) + (pending W B j : Int)
  zero : ∀ j ∈ r ++ S, dep j = 0
  order : ∀ a j b, r = a ++ j :: b → ∀ i, i < N → m i j = 1 → i ∈ a
  local_bound : ∀ w x, x ∈ B w → x < N
  local_nodup : ∀ w, (B w).Nodup
  local_idle : ∀ w, W ≤ w → B w = []

/-- The state `s` of the second phase, with local queues `tq`, stores the result `r`, the
global queue `S` and the local queues `B`, and these satisfy the invariant. -/
structure ParLink (s : ParState) (tq : Nat → Queue) (r S : List Nat) (B : Nat → List Nat) :
    Prop where
  index : s.topology_matrix_index = r.length
  res : result s.toState = r.map Int.ofNat
  shared : Rep s.q (S.map Int.ofNat)
  locals : ∀ w, Rep (tq w) ((B w).map Int.ofNat)
  inv : ParInv s.nodes_count s.threads_count s.matrix s.dependencies_matrix r S B

/-- The parts of the parallel state that the locked loops leave alone. -/
structure Frame (s s1 : ParState) : Prop where
  nodes_count : s1.nodes_count = s.nodes_count
  matrix : s1.matrix = s.matrix
  threads_count : s1.threads_count = s.threads_count
  draining : s1.draining = s.draining
  thread_queue : s1.thread_queue = s.thread_queue
  thread_limit : s1.thread_limit = s.thread_limit
  topology_matrix : s1.topology_matrix = s.topology_matrix
  topology_matrix_index : s1.topology_matrix_index = s.topology_matrix_index

/-- The node indices that thread `id` scans in `initialize_queue`: its block, then its
remaining node if it has one. -/
def assigned (N W id : Nat) : List Nat :=
  List.range' (id * (N / W)) (N / W) ++ (if id < N % W then [N - id - 1] else [])

/-- The thread in whose scan the node index `x` lies. -/
def owner (N W x : Nat) : Nat :=
  if x < W * (N / W) then x / (N / W) else N - 1 - x

/-- The invariant of the first phase of the parallel sorter, for the content `S` of the
global queue and the contents `L` of the local queues: the counters are the static
in-degrees, the global queue holds distinct nodes with counter zero scanned by threads
that have returned, and the local queue of a thread holds distinct nodes with counter
zero of its own scan, and only between its scan and its locked loop. -/
structure SeedInv (s : ParState) (S : List Nat) (L : Nat → List Nat) : Prop where
  consistent : Consistent s.toState
  shared : Rep s.q (S.map Int.ofNat)
  locals : ∀ w, Rep (s.thread_queue w) ((L w).map Int.ofNat)
  nodup : S.Nodup
  shared_done : ∀ x ∈ S, x < s.nodes_count ∧ s.dependencies_matrix x = 0 ∧
    s.pc (owner s.nodes_count s.threads_count x) = 2
  local_nodup : ∀ w, (L w).Nodup
  local_own : ∀ w, ∀ x ∈ L w, x < s.nodes_count ∧ s.dependencies_matrix x = 0 ∧
    owner s.nodes_count s.threads_count x = w ∧ s.pc w = 1

/-- The invariant of a run of the parallel sorter started in `s0`: the graph and the
number of threads are those of `s0`, a run started in the second phase stays there, and
the invariant of the current phase holds. -/
def ParGood (s0 s : ParState) : Prop :=
  s.nodes_count = s0.nodes_count ∧ s.matrix = s0.matrix ∧
  s.threads_count = s0.threads_count ∧ (s0.draining = true → s.draining = true) ∧
  ((s.draining = false ∧ ∃ S L, SeedInv s S L) ∨
    (s.draining = true ∧ ∃ r S B, ParLink s s.thread_queue r S B))

/-- The start of the second phase as C3 describes it: the threads of the second phase
have just been created, the result is empty, the counters are the static in-degrees, the
local queues are empty and the global queue holds exactly the nodes with counter zero,
each once. -/
def Seeded (s : ParState) : Prop :=
  s.draining = true ∧ s.topology_matrix_index = 0 ∧ Consistent s.toState ∧
  (∀ w, (s.thread_queue w).head = none) ∧
  ∃ S : List Nat, Rep s.q (S.map Int.ofNat) ∧ S.Nodup ∧
    ∀ j, j ∈ S ↔ (j < s.nodes_count ∧ s.dependencies_matrix j = 0)

/-- What can be seen of the outcome of a run with two threads: the result sequence, the
content of the global queue and the contents of the local queues of threads 0 and 1. -/
def observe (r : Except Fault ParState) : Option (List Int × List Int × List Int × List Int) :=
  match r with
  | Except.ok s =>
    some (result s.toState, contents s.q, contents (s.thread_queue 0),
      contents (s.thread_queue 1))
  | Except.error _ => none

/-- The diamond graph at the start of the second phase with two threads: the global
queue holds node 0. -/
def diamond_seeded : ParState :=
  { par_initial diamond 2 4 with q := (push_value (empty_queue 4) 0).2, draining := true }

/-- A schedule of the whole parallel run with two threads, up to the point where each
thread has popped one of the nodes 1 and 2. -/
def two_thread_schedule : List Action :=
  [Action.scan 0, Action.scan 1, Action.publish 1, Action.publish 0, Action.start_draining,
    Action.iterate 0, Action.iterate 0, Action.iterate 1]

/-- A schedule of the second phase with two threads that emits all four nodes of the
diamond graph. -/
def drain_schedule : List Action :=
  [Action.iterate 0, Action.iterate 0, Action.iterate 1, Action.iterate 0, Action.iterate 1]

/-! ## Further observations and example graphs -/

/-- What can be seen of the outcome of a serial run or of a part of it: the result
sequence, `topology_matrix_index`, the values pushed so far and the content of the
queue. -/
def summary_of (r : Except Fault State) : Option (List Int × Nat × List Int × List Int) :=
  match r with
  | Except.ok s => some (result s, s.topology_matrix_index, s.push_log, contents s.q)
  | Except.error _ => none

/-- The graph with the single node 0 and no edge, as loaded from its input file. -/
def singleton_graph : State := (initialize_graph true 1 1 []).2

/-- The graph with 3 nodes and the edges 0→1, 1→2, 2→0, as loaded from its input file. -/
def triangle : State :=
  (initialize_graph true 3 3 [⟨0, 1, 1⟩, ⟨1, 2, 1⟩, ⟨2, 0, 1⟩]).2

/-! ## The drain loop, iteration by iteration -/

/-- One run of the body of the `while` loop of `calculate_topology` for the popped node
`current_node_index`; returns the state and the node popped next. -/
def drain_step (s : State) (current_node_index : Int) : Except Fault (State × Int) :=
  match for_loop (drain_body current_node_index) (List.range s.nodes_count) s with
  | Except.error f => Except.error f
  | Except.ok s1 =>
    if s1.topology_matrix_index < s1.nodes_count then
      let s2 : State :=
        { s1 with
          topology_matrix :=
            store s1.topology_matrix s1.topology_matrix_index current_node_index
          topology_matrix_index := s1.topology_matrix_index + 1 }
      match pop_value s2.q with
      | (next_node_index, q1) => Except.ok ({ s2 with q := q1 }, next_node_index)
    else Except.error Fault.out_of_bounds

/-- The part of `calculate_topology` before its `while` loop: the seeding loop and the
first `pop_value`; returns the state and the popped node. -/
def drain_entry (s : State) : Except Fault (State × Int) :=
  match for_loop seed_body (List.range s.nodes_count) { s with topology_matrix_index := 0 } with
  | Except.error f => Except.error f
  | Except.ok s1 =>
    match pop_value s1.q with
    | (current_node_index, q1) => Except.ok ({ s1 with q := q1 }, current_node_index)

/-- The state at the test of the `while` loop after at most `n` iterations (fewer when
the queue ran empty before). -/
def loop_states : Nat → State → Int → Except Fault (State × Int)
  | 0, s, current_node_index => Except.ok (s, current_node_index)
  | n + 1, s, current_node_index =>
    if current_node_index = -1 then Except.ok (s, current_node_index)
    else
      match drain_step s current_node_index with
      | Except.error f => Except.error f
      | Except.ok (s1, next_node_index) => loop_states n s1 next_node_index

/-- The state at the test of the `while` loop of `calculate_topology` after at most `n`
iterations, from the entry of the function. -/
def loop_state_after (n : Nat) (s : State) : Except Fault (State × Int) :=
  match drain_entry s with
  | Except.error f => Except.error f
  | Except.ok (s1, current_node_index) => loop_states n s1 current_node_index

/-- The lists behind a state of the drain loop: the counters, the emitted nodes `r` and
the pending nodes `P` (the node just popped followed by the content of the queue). -/
structure KState where
  dep : Nat → Int
  r : List Nat
  P : List Nat

/-- One iteration of the drain loop on the lists. -/
def kahn_step (N : Nat) (m : Nat → Nat → Int) (k : KState) : KState :=
  match k.P with
  | [] => k
  | c :: Q =>
    { dep := dec_deps m k.dep c (List.range N)
      r := k.r ++ [c]
      P := Q ++ released m k.dep c (List.range N) }

/-- At most `n` iterations of the drain loop on the lists. -/
def kahn_iter (N : Nat) (m : Nat → Nat → Int) : Nat → KState → KState
  | 0, k => k
  | n + 1, k => kahn_iter N m n (kahn_step N m k)

/-- The lists after the seeding loop. -/
def kahn_init (N : Nat) (dep : Nat → Int) : KState :=
  { dep := dep, r := [], P := (List.range N).filter (fun i => decide (dep i = 0)) }

/-- An invariant of the drain loop that needs no assumption on the counters: no node is
pushed twice, a pushed node has a counter of at most zero, and a node that was not pushed
has a counter different from zero. -/
structure Once (N : Nat) (k : KState) : Prop where
  nodup : (k.r ++ k.P).Nodup
  bound : ∀ x ∈ k.r ++ k.P, x < N
  pushed : ∀ j ∈ k.r ++ k.P, k.dep j ≤ 0
  unpushed : ∀ j, j < N → j ∉ k.r ++ k.P → k.dep j ≠ 0

/-- The state `s` at the test of the `while` loop, with `current_node_index = cur`,
stores the lists `k`; `tm0` is `topology_matrix` at the entry of the function. -/
structure Link (tm0 : Nat → Int) (s : State) (cur : Int) (k : KState) : Prop where
  dep : s.dependencies_matrix = k.dep
  index : s.topology_matrix_index = k.r.length
  res : result s = k.r.map Int.ofNat
  rest : ∀ i, k.r.length ≤ i → s.topology_matrix i = tm0 i
  log : s.push_log = (k.r ++ k.P).map Int.ofNat
  room : s.q.brk + s.nodes_count ≤ s.q.limit + (k.r ++ k.P).length
  cur : cur = (k.P.head?.map Int.ofNat).getD (-1)
  queue : Rep s.q (k.P.tail.map Int.ofNat)
  empty : k.P = [] → s.q.head = none

/-! ## The output file -/

/-- `write_topology_to_file`: the text written to the output file, that is the nodes
count, the first `nodes_count` entries of `topology_matrix`, one per line, and `-1`. -/
def write_topology_to_file (s : State) : String :=
  toString s.nodes_count ++ "\n" ++
    String.join ((List.range s.nodes_count).map
      (fun i => toString (s.topology_matrix i) ++ "\n")) ++ "-1"

/-- The text of an output file with first line `N`, one line for each entry of `entries`
and the last line `-1` without a newline. -/
def output_text (N : Nat) (entries : List Int) : String :=
  toString N ++ "\n" ++ String.join (entries.map (fun v => toString v ++ "\n")) ++ "-1"

/-- The text that is written after a run, when the run ended without fault. -/
def text_of (r : Except Fault State) : Option String :=
  match r with
  | Except.ok s => some (write_topology_to_file s)
  | Except.error _ => none

/-! ## The main functions -/

/-- The functions of the program that `main` calls after the nodes count is read. -/
inductive Call where
  | initialize_graph
  | calculate_topology
  | write_topology_to_file
deriving DecidableEq

/-- What a run of the program leaves behind: the exit code, the text written to the
output file and the calls made, in order. -/
structure Report where
  exit_code : Int
  file_text : String
  calls : List Call
deriving DecidableEq

/-- `main` of the serial program. `parameters_read` is the result of `read_parameters`,
`fscanf_result` and `nodes_count` are the result of the first `fscanf` and the value of
`nodes_count` after it; the other arguments are those of `initialize` and of the sort.
An allocation failure during the sort ends the process through `exit(0)` before anything
is written. -/
def main (parameters_read : Bool) (fscanf_result : Int) (nodes_count : Nat)
    (arrays_allocated : Bool) (queue_limit : Nat) (records : List edge_record)
    (fuel : Nat) : Except Fault Report :=
  if parameters_read = false then Except.ok ⟨-1, "", []⟩
  else if fscanf_result = 1 ∧ nodes_count = 0 then Except.ok ⟨0, "", []⟩
  else
    match initialize_graph arrays_allocated queue_limit nodes_count records with
    | (r, s) =>
      if r = 0 then Except.ok ⟨-1, "", [Call.initialize_graph]⟩
      else
        match calculate_topology fuel s with
        | Except.error Fault.alloc_exit =>
          Except.ok ⟨0, "", [Call.initialize_graph, Call.calculate_topology]⟩
        | Except.error f => Except.error f
        | Except.ok s1 =>
          Except.ok ⟨0, write_topology_to_file s1,
            [Call.initialize_graph, Call.calculate_topology, Call.write_topology_to_file]⟩

/-- `main` of the parallel program; `calculate_topology` runs the threads under the
given schedule, which has to run both phases to the end (otherwise the fuel fault is
reported). -/
def par_main (parameters_read : Bool) (threads_count : Nat) (fscanf_result : Int)
    (nodes_count : Nat) (arrays_allocated : Bool) (queue_limit thread_limit : Nat)
    (records : List edge_record) (fuel : Nat) (schedule : List Action) :
    Except Fault Report :=
  if parameters_read = false then Except.ok ⟨-1, "", []⟩
  else if fscanf_result = 1 ∧ nodes_count = 0 then Except.ok ⟨0, "", []⟩
  else
    match initialize_graph arrays_allocated queue_limit nodes_count records with
    | (r, s) =>
      if r = 0 then Except.ok ⟨-1, "", [Call.initialize_graph]⟩
      else
        match par_run fuel schedule (par_initial s threads_count thread_limit) with
        | Except.error Fault.alloc_exit =>
          Except.ok ⟨0, "", [Call.initialize_graph, Call.calculate_topology]⟩
        | Except.error f => Except.error f
        | Except.ok s1 =>
          if s1.draining = true ∧ s1.topology_matrix_index = s1.nodes_count then
            Except.ok ⟨0, write_topology_to_file s1.toState,
              [Call.initialize_graph, Call.calculate_topology, Call.write_topology_to_file]⟩
          else Except.error Fault.out_of_fuel

/-! ## Events of the threads -/

/-- What a thread does, as far as the mutex and the shared variables are concerned:
taking and releasing the mutex, reading `topology_matrix_index` (the test of the `while`
loop), reading a counter, reading a matrix entry, working on its local queue,
decrementing (and then testing) a counter, pushing to and popping from the global queue,
and writing a result entry together with the increment of `topology_matrix_index`. Reads
of `nodes_count` and `threads_count`, which no thread writes, are not recorded. -/
inductive Event where
  | lock
  | unlock
  | read_index
  | read_dependencies (i : Nat)
  | read_matrix (i j : Nat)
  | local_queue
  | decrement (i : Nat)
  | push_global (v : Int)
  | pop_global
  | write_topology (i : Nat) (v : Int)
deriving DecidableEq

/-- The events that change shared data: a decrement of a counter, a push or pop on the
global queue, a write of the result. -/
def Event.shared_update : Event → Bool
  | Event.decrement _ => true
  | Event.push_global _ => true
  | Event.pop_global => true
  | Event.write_topology _ _ => true
  | _ => false

/-- The events that take or release the mutex. -/
def Event.is_sync : Event → Bool
  | Event.lock => true
  | Event.unlock => true
  | _ => false

/-- The events that C15 allows outside the mutex: reading a matrix entry and working on
the local queue. -/
def Event.row_or_local : Event → Bool
  | Event.read_matrix _ _ => true
  | Event.local_queue => true
  | _ => false

/-- The events that do occur outside the mutex: the two above and the reads of a
counter and of `topology_matrix_index`. -/
def Event.read_or_local : Event → Bool
  | Event.read_matrix _ _ => true
  | Event.local_queue => true
  | Event.read_index => true
  | Event.read_dependencies _ => true
  | _ => false

/-- Events of a scanning loop of `initialize_queue` over the given indices: the counter
is read, and the index is pushed to the local queue when the counter is zero. -/
def scan_events (s : ParState) : List Nat → List Event
  | [] => []
  | i :: is =>
    Event.read_dependencies i ::
      ((if s.dependencies_matrix i = 0 then [Event.local_queue] else []) ++ scan_events s is)

/-- Events of the locked loop of `initialize_queue` over the values of the local queue:
the head value is read, pushed to the global queue, and the head cell is freed. -/
def move_events : List Int → List Event
  | [] => []
  | v :: vs => Event.local_queue :: Event.push_global v :: Event.local_queue :: move_events vs

/-- Events of one call of `initialize_queue` by thread `id`: the scan of the block and of
the remaining node, the test of the local queue, and, when it is not empty, the locked
loop between `pthread_mutex_lock` and `pthread_mutex_unlock`. -/
def initialize_queue_events (s : ParState) (id : Nat) : List Event :=
  scan_events s (List.range' (id * (s.nodes_count / s.threads_count))
      (s.nodes_count / s.threads_count)) ++
    ((if id < s.nodes_count % s.threads_count then
        scan_events s [s.nodes_count - id - 1] else []) ++
      Event.local_queue ::
        match scan_assigned s id with
        | Except.error _ => []
        | Except.ok lq =>
          if lq.head = none then []
          else Event.lock :: (move_events (contents lq) ++ [Event.unlock]))

/-- Events of the locked loop of `thread_topology_calculation` over the values of the
local queue, for the counters `dep` at its start: the head value is read, its counter is
decremented and tested, the value is pushed to the global queue when the counter is zero,
and the head cell is freed. -/
def flush_events : (Nat → Int) → List Int → List Event
  | _, [] => []
  | dep, v :: vs =>
    Event.local_queue :: Event.decrement v.toNat ::
      ((if dep v.toNat - 1 = 0 then [Event.push_global v] else []) ++
        Event.local_queue :: flush_events (store dep v.toNat (dep v.toNat - 1)) vs)

/-- Events of the last loop of `thread_topology_calculation` for the popped node: every
entry of its matrix row is read, and the column index is pushed to the local queue when
the entry is 1. -/
def expand_events (s : ParState) (current_node_index : Int) : List Nat → List Event
  | [] => []
  | i :: is =>
    Event.read_matrix current_node_index.toNat i ::
      ((if s.matrix current_node_index.toNat i = 1 then [Event.local_queue] else []) ++
        expand_events s current_node_index is)

/-- Events of one iteration of the `while` loop of `thread_topology_calculation` by
thread `id`, from the test of the loop to the end of the body. -/
def iteration_events (fuel id : Nat) (s : ParState) : List Event :=
  Event.read_index :: Event.lock :: Event.local_queue ::
    (flush_events s.dependencies_matrix (contents (s.thread_queue id)) ++
      match flush_pending fuel s (s.thread_queue id) with
      | Except.error _ => []
      | Except.ok (s1, _) =>
        match pop_value s1.q with
        | (current_node_index, _) =>
          Event.pop_global ::
            ((if current_node_index ≠ -1 then
                [Event.write_topology s1.topology_matrix_index current_node_index]
              else []) ++
              Event.unlock ::
                (if current_node_index ≠ -1 then
                  expand_events s1 current_node_index (List.range s1.nodes_count)
                else [])))

/-- The locking discipline of a sequence of events, for a thread that holds the mutex
or not at its start: the mutex is taken only when free and released only when held, and
every event that changes shared data happens while the mutex is held. -/
def disciplined : Bool → List Event → Bool
  | _, [] => true
  | held, Event.lock :: es => !held && disciplined true es
  | held, Event.unlock :: es => held && disciplined false es
  | held, e :: es => (held || !e.shared_update) && disciplined held es

/-- The events of a sequence that happen while the thread does not hold the mutex. -/
def outside : Bool → List Event → List Event
  | _, [] => []
  | _, Event.lock :: es => outside true es
  | _, Event.unlock :: es => outside false es
  | held, e :: es => if held then outside held es else e :: outside held es

/-! ## The in-degree invariants -/

/-- The number of nodes `i` with `matrix[i][j] = 1` that are not in the result sequence
of the state `s`. -/
def unemitted_preds (s : State) (j : Nat) : Nat :=
  ((List.range s.nodes_count).filter
    (fun i => decide (s.matrix i j = 1 ∧ Int.ofNat i ∉ result s))).length

/-- The counters of the state at the loop test, when the run got there without fault,
next to the numbers of unemitted predecessors, for the nodes `0 .. nodes_count - 1`. -/
def counters_of (r : Except Fault (State × Int)) : Option (List Int × List Int) :=
  match r with
  | Except.ok (s, _) =>
    some ((List.range s.nodes_count).map s.dependencies_matrix,
      (List.range s.nodes_count).map (fun j => (unemitted_preds s j : Int)))
  | Except.error _ => none

/-- The number of occurrences of node `j` in the local queues of the threads of the
state `s`. -/
def waiting (s : ParState) (j : Nat) : Nat :=
  ((List.range s.threads_count).map
    (fun w => (contents (s.thread_queue w)).count (Int.ofNat j))).sum

/-- What can be seen of the counters after a parallel run: whether the second phase has
started, the result sequence and, for the nodes `0 .. nodes_count - 1`, the counters, the
numbers of unemitted predecessors and the numbers of occurrences in local queues. -/
def par_counters_of (r : Except Fault ParState) :
    Option (Bool × List Int × List Int × List Nat × List Nat) :=
  match r with
  | Except.ok s =>
    some (s.draining, result s.toState,
      (List.range s.nodes_count).map s.dependencies_matrix,
      (List.range s.nodes_count).map (unemitted_preds s.toState),
      (List.range s.nodes_count).map (waiting s))
  | Except.error _ => none

/-- A schedule of a parallel run with two threads up to the end of the first iteration
of thread 0 in the second phase. -/
def first_pop_schedule : List Action :=
  [Action.scan 0, Action.scan 1, Action.publish 0, Action.publish 1, Action.start_draining,
    Action.iterate 0]

/-! ## The first phase of the parallel sorter -/

/-- The node whose counter an event reads, if it is such a read. -/
def Event.scanned : Event → Option Nat
  | Event.read_dependencies i => some i
  | _ => none

/-- The nodes scanned in a sequence of events, in scanning order: the indices `i` of the
reads of `dependencies_matrix[i]`. -/
def scanned_nodes (es : List Event) : List Nat :=
  es.filterMap Event.scanned

/-- The remaining node of thread `id` in `initialize_queue`, if it has one: the test
`id < remainder` and the index `nodes_count - id - 1`. -/
def extra_node (N W id : Nat) : Option Nat :=
  if id < N % W then some (N - id - 1) else none

/-- The remaining node of thread `id` as C18 words it: one of the last `r` workers
(`id ≥ W - r`, with `r = N mod W`) gets the node `N - id - 1`. -/
def spec_extra_node (N W id : Nat) : Option Nat :=
  if W - N % W ≤ id then some (N - id - 1) else none

/-- The content of a local queue, when the scan ended without fault. -/
def local_contents_of (r : Except Fault Queue) : Option (List Int) :=
  match r with
  | Except.ok lq => some (contents lq)
  | Except.error _ => none

/-- The graph with 5 nodes and no edge, as loaded from its input file. -/
def edgeless : State := (initialize_graph true 5 5 []).2

/-! ## The run with a single thread -/

/-- The counters after the locked loop of `thread_topology_calculation` has run over a
local queue holding the distinct nodes `B`: the counter of each of them is one less. -/
def flush_dep (dep : Nat → Int) (B : List Nat) : Nat → Int :=
  fun j => if j ∈ B then dep j - 1 else dep j

/-- The nodes that this loop pushes to the global queue: those of `B` whose counter
drops to zero, in the order of `B`. -/
def flush_released (dep : Nat → Int) (B : List Nat) : List Nat :=
  B.filter (fun j => decide (dep j - 1 = 0))

/-- The state `s` of the second phase of a run with a single thread, seen between two
iterations of the loop of `thread_topology_calculation`, against the lists `k` of the
serial loop: the result is `k.r`, the global queue holds `S`, the local queue holds the
distinct nodes `B` whose decrement is still due, and once that decrement is done the
counters are `k.dep` and the global queue is `k.P`. -/
structure Single (s : ParState) (k : KState) (S B : List Nat) : Prop where
  threads : s.threads_count = 1
  draining : s.draining = true
  index : s.topology_matrix_index = k.r.length
  res : result s.toState = k.r.map Int.ofNat
  shared : Rep s.q (S.map Int.ofNat)
  own : Rep (s.thread_queue 0) (B.map Int.ofNat)
  nodup : B.Nodup
  short : B.length ≤ s.nodes_count
  dep : k.dep = flush_dep s.dependencies_matrix B
  pend : k.P = S ++ flush_released s.dependencies_matrix B
  room : s.q.brk + s.nodes_count ≤ s.q.limit + (k.r.length + S.length)
  own_room : (s.thread_queue 0).brk ≤ k.r.length * s.nodes_count
  own_limit : s.nodes_count * s.nodes_count ≤ (s.thread_queue 0).limit

/-- The schedule of a run with a single thread whose loop in
`thread_topology_calculation` makes `n` iterations: the thread of the first phase scans
and returns, then the thread of the second phase iterates. -/
def single_schedule (n : Nat) : List Action :=
  [Action.scan 0, Action.publish 0, Action.start_draining] ++
    List.replicate n (Action.iterate 0)

/-- What can be seen of a parallel run: the result sequence, `topology_matrix_index` and
the content of the global queue. -/
def par_summary_of (r : Except Fault ParState) : Option (List Int × Nat × List Int) :=
  match r with
  | Except.ok s => some (result s.toState, s.topology_matrix_index, contents s.q)
  | Except.error _ => none

/-- The nodes that thread `id` moves to the global queue in `initialize_queue`: the
nodes of its scan whose counter is zero, in scanning order. -/
def contribution (N W : Nat) (dep : Nat → Int) (id : Nat) : List Nat :=
  (assigned N W id).filter (fun i => decide (dep i = 0))

/-- The invariant of the first phase that keeps the order: for the graph size `N`, the
number of threads `W` and the counters `dep`, `done` lists the threads that have run
their locked loop, in the order in which they ran it; the global queue holds their
contributions in that order, and the local queue of a thread holds its contribution
between its scan and its locked loop and is empty otherwise. -/
structure SeedOrder (N W : Nat) (dep : Nat → Int) (s : ParState) (done : List Nat) :
    Prop where
  nodes : s.nodes_count = N
  threads : s.threads_count = W
  deps : s.dependencies_matrix = dep
  shared : Rep s.q ((done.flatMap (contribution N W dep)).map Int.ofNat)
  locals : ∀ w, Rep (s.thread_queue w)
    ((if s.pc w = 1 then contribution N W dep w else []).map Int.ofNat)
  nodup : done.Nodup
  done_iff : ∀ w, w ∈ done ↔ s.pc w = 2
  started : ∀ w, s.pc w ≠ 0 → w < W
  room : s.q.brk + N ≤ s.q.limit + (done.flatMap (contribution N W dep)).length
  local_room : N ≤ s.thread_limit

/-- The content of the global queue and the progress of the threads 0 and 1 in
`initialize_queue` after a run with two threads. -/
def seeds_of (r : Except Fault ParState) : Option (List Int × Nat × Nat × Bool) :=
  match r with
  | Except.ok s => some (contents s.q, s.pc 0, s.pc 1, s.draining)
  | Except.error _ => none

/-- A schedule of the first phase with two threads in which thread 1 runs its locked
loop before thread 0. -/
def seed_schedule : List Action :=
  [Action.scan 0, Action.scan 1, Action.publish 1, Action.publish 0]

/-! ## A cycle with a source beside it -/

/-- The graph with 4 nodes and the edges 0→1, 1→0, 1→2, 3→2, as loaded from its input
file: a cycle through 0 and 1, a node 2 behind it, and a source 3 that also leads
to 2. -/
def lasso_with_source : State :=
  (initialize_graph true 4 4 [⟨0, 1, 1⟩, ⟨1, 0, 1⟩, ⟨1, 2, 1⟩, ⟨3, 2, 1⟩]).2

/-! ## Room for the queues in the second phase -/

/-- Room left in the second phase, for the emitted nodes `r` and the content `S` of the
global queue: the allocator of the global queue has served one node for each node pushed
so far and has room for `nodes_count` in all, and the allocator of each local queue has
served at most `nodes_count` nodes for each emitted node and has room for
`nodes_count * nodes_count` in all. -/
structure ParRoom (s : ParState) (r S : List Nat) : Prop where
  shared : s.q.brk + s.nodes_count ≤ s.q.limit + (r.length + S.length)
  locals : ∀ w, (s.thread_queue w).brk ≤ r.length * s.nodes_count ∧
    s.nodes_count * s.nodes_count ≤ (s.thread_queue w).limit

/-- What a run with room keeps: before the second phase the limit of the local queues is
`tl`, and in the second phase the invariant holds together with the room for the
queues. -/
def RoomGood (tl : Nat) (s : ParState) : Prop :=
  (s.draining = false → s.thread_limit = tl) ∧
  (s.draining = true → ∃ r S B, ParLink s s.thread_queue r S B ∧ ParRoom s r S)

/-- A schedule of a run with two threads in which, in the second phase, thread 0 makes
three iterations and thread 1 one. -/
def spin_schedule : List Action :=
  [Action.scan 0, Action.scan 1, Action.publish 1, Action.publish 0, Action.start_draining,
    Action.iterate 0, Action.iterate 1, Action.iterate 0, Action.iterate 0]

/-- A schedule of a whole run with two threads that emits all four nodes of the diamond
graph. -/
def full_schedule : List Action :=
  [Action.scan 0, Action.scan 1, Action.publish 0, Action.publish 1, Action.start_draining,
    Action.iterate 0, Action.iterate 0, Action.iterate 1, Action.iterate 0, Action.iterate 1]

/-! ## The second phase, statement by statement outside the mutex -/

/-- The critical section of one iteration of the `while` loop of
`thread_topology_calculation` by thread `id`, from `pthread_mutex_lock` to
`pthread_mutex_unlock`: the local queue is flushed, the global queue is popped and the
popped node, if there is one, is appended to the result. Returns the state at the
unlock and `current_node_index`. -/
def critical_section (fuel id : Nat) (s : ParState) : Except Fault (ParState × Int) :=
  match flush_pending fuel s (s.thread_queue id) with
  | Except.error f => Except.error f
  | Except.ok (s1, lq1) =>
    match pop_value s1.q with
    | (current_node_index, g1) =>
      if current_node_index ≠ -1 then
        if s1.topology_matrix_index < s1.nodes_count then
          Except.ok ({ s1 with
            q := g1
            topology_matrix :=
              store s1.topology_matrix s1.topology_matrix_index current_node_index
            topology_matrix_index := s1.topology_matrix_index + 1
            thread_queue := store s1.thread_queue id lq1 }, current_node_index)
        else Except.error Fault.out_of_bounds
      else
        Except.ok ({ s1 with q := g1, thread_queue := store s1.thread_queue id lq1 },
          current_node_index)

/-- The state of the parallel program together with the local variables of the threads
of the second phase that matter outside the mutex: `current_node_index id` is the node
that thread `id` popped in its last critical section (`-1` when it popped none or has
not entered yet) and `column id` is the variable `i` of its last `for` loop. Thread `id`
is inside that loop when `current_node_index id ≠ -1` and `column id < nodes_count`, and
at the test of its `while` loop otherwise. -/
structure FineState extends ParState where
  current_node_index : Nat → Int
  column : Nat → Nat

/-- What the scheduler can let happen next when the statements outside the mutex are
scheduled one by one: the three actions of the first phase and of the main thread, a
thread of the second phase that stands at the test of its `while` loop runs its critical
section (`enter`), or a thread inside its last `for` loop runs the body once for its
current `i` and increments `i` (`column`). -/
inductive FineAction where
  | scan (id : Nat)
  | publish (id : Nat)
  | start_draining
  | enter (id : Nat)
  | column (id : Nat)

/-- The effect of a scheduled action of the first phase or of the main thread on the
state with the local variables. -/
def fine_first (fuel : Nat) (s : FineState) (a : Action) : Except Fault FineState :=
  match par_step fuel s.toParState a with
  | Except.error f => Except.error f
  | Except.ok s1 =>
    Except.ok
      { toParState := s1, current_node_index := s.current_node_index, column := s.column }

/-- The effect of one scheduled action, statement by statement outside the mutex. As in
`par_step` the test `topology_matrix_index != nodes_count` of the `while` loop is left to
the schedule, which adds runs and removes none. -/
def fine_step (fuel : Nat) (s : FineState) (a : FineAction) : Except Fault FineState :=
  match a with
  | FineAction.scan id => fine_first fuel s (Action.scan id)
  | FineAction.publish id => fine_first fuel s (Action.publish id)
  | FineAction.start_draining => fine_first fuel s Action.start_draining
  | FineAction.enter id =>
    if id < s.threads_count ∧ s.draining = true ∧
        (s.current_node_index id = -1 ∨ s.nodes_count ≤ s.column id) then
      match critical_section fuel id s.toParState with
      | Except.error f => Except.error f
      | Except.ok (s1, current_node_index) =>
        Except.ok
          { toParState := s1
            current_node_index := store s.current_node_index id current_node_index
            column := store s.column id 0 }
    else Except.error Fault.not_enabled
  | FineAction.column id =>
    if id < s.threads_count ∧ s.draining = true ∧ s.current_node_index id ≠ -1 ∧
        s.column id < s.nodes_count then
      match expand_body s.toParState (s.current_node_index id) (s.thread_queue id)
          (s.column id) with
      | Except.error f => Except.error f
      | Except.ok lq =>
        Except.ok
          { s with
            thread_queue := store s.thread_queue id lq
            column := store s.column id (s.column id + 1) }
    else Except.error Fault.not_enabled

/-- A run of the parallel sorter under the given schedule, statement by statement
outside the mutex. -/
def fine_run (fuel : Nat) : List FineAction → FineState → Except Fault FineState
  | [], s => Except.ok s
  | a :: schedule, s =>
    match fine_step fuel s a with
    | Except.error f => Except.error f
    | Except.ok s1 => fine_run fuel schedule s1

/-- The state after `initialize`, before any thread is created. -/
def fine_initial (s : State) (threads_count thread_limit : Nat) : FineState :=
  { toParState := par_initial s threads_count thread_limit
    current_node_index := fun _ => -1
    column := fun _ => 0 }

/-- The number of threads that have popped a node `i` with `matrix[i][j] = 1` and whose
last `for` loop has not yet reached the column `j`. -/
def in_flight (s : FineState) (j : Nat) : Nat :=
  ((List.range s.threads_count).filter (fun w =>
    decide (s.current_node_index w ≠ -1 ∧ s.column w ≤ j ∧ j < s.nodes_count ∧
      s.matrix (s.current_node_index w).toNat j = 1))).length

/-- The successors of the node popped by thread `w` that its last `for` loop has still to
push to its local queue. -/
def rest_of_row (s : FineState) (w : Nat) : List Nat :=
  if s.current_node_index w ≠ -1 then
    (List.range' (s.column w) (s.nodes_count - s.column w)).filter
      (fun i => decide (s.matrix (s.current_node_index w).toNat i = 1))
  else []

/-- The state `s` of the second phase stores the result `r`, the global queue `S` and the
local queues `B`, and the invariant of the second phase holds for the local queues
completed by what the running `for` loops have still to push. -/
structure FineLink (s : FineState) (r S : List Nat) (B : Nat → List Nat) : Prop where
  index : s.topology_matrix_index = r.length
  res : result s.toState = r.map Int.ofNat
  shared : Rep s.q (S.map Int.ofNat)
  locals : ∀ w, Rep (s.thread_queue w) ((B w).map Int.ofNat)
  inv : ParInv s.nodes_count s.threads_count s.matrix s.dependencies_matrix r S
    (fun w => B w ++ rest_of_row s w)

/-- The invariant of a run, statement by statement: before the second phase no thread
has popped a node and the invariant of the first phase holds; in the second phase the
state stores lists that satisfy the invariant of the second phase. -/
def FineGood (s : FineState) : Prop :=
  (s.draining = false ∧ (∀ w, s.current_node_index w = -1) ∧
    ∃ S L, SeedInv s.toParState S L) ∨
  (s.draining = true ∧ ∃ r S B, FineLink s r S B)

/-- What can be seen of the counters after a run, statement by statement: whether the
second phase has started, the result sequence and, for the nodes `0 .. nodes_count - 1`,
the counters, the numbers of unemitted predecessors, the numbers of occurrences in local
queues and the numbers of `for` loops that have still to reach the node. -/
def fine_counters_of (r : Except Fault FineState) :
    Option (Bool × List Int × List Int × List Nat × List Nat × List Nat) :=
  match r with
  | Except.ok s =>
    some (s.draining, result s.toState,
      (List.range s.nodes_count).map s.dependencies_matrix,
      (List.range s.nodes_count).map (unemitted_preds s.toState),
      (List.range s.nodes_count).map (waiting s.toParState),
      (List.range s.nodes_count).map (in_flight s))
  | Except.error _ => none

/-- A schedule with two threads up to the middle of the first `for` loop of thread 0 in
the second phase: thread 0 has popped node 0 and has run the loop body for the columns
0 and 1. -/
def mid_scan_schedule : List FineAction :=
  [FineAction.scan 0, FineAction.scan 1, FineAction.publish 0, FineAction.publish 1,
    FineAction.start_draining, FineAction.enter 0, FineAction.column 0, FineAction.column 0]

/-- The same schedule up to the unlock of the first critical section of thread 0. -/
def unlock_schedule : List FineAction :=
  [FineAction.scan 0, FineAction.scan 1, FineAction.publish 0, FineAction.publish 1,
    FineAction.start_draining, FineAction.enter 0]

/-! ## Queue lemmas -/

theorem store_same {α : Type} (f : Nat → α) (i : Nat) (v : α) : store f i v i = v := by
  simp [store]

theorem store_other {α : Type} (f : Nat → α) (i k : Nat) (v : α) (h : k ≠ i) :
    store f i v k = f k := by
  simp [store, h]

theorem Chain.frame {cells : Nat → Option node} {a : Nat} (x : Option node) :
    ∀ {cs : List (Nat × Int)} {p : Option Nat}, a ∉ cs.map Prod.fst →
      Chain cells p cs → Chain (store cells a x) p cs
  | [], _, _, h => h
  | c :: cs, p, ha, h => by
    obtain ⟨hp, nx, hc, hrest⟩ := h
    simp only [List.map_cons, List.mem_cons, not_or] at ha
    refine ⟨hp, nx, ?_, Chain.frame x ha.2 hrest⟩
    rw [store_other _ _ _ _ (Ne.symm ha.1)]
    exact hc

theorem last_addr_mem : ∀ {cs : List (Nat × Int)} {t : Nat},
    last_addr cs = some t → t ∈ cs.map Prod.fst
  | [c], t, h => by simp [last_addr] at h; simp [h]
  | _ :: c :: cs, t, h => by
    have := @last_addr_mem (c :: cs) t (by simpa [last_addr] using h)
    exact List.mem_cons_of_mem _ this

theorem last_addr_append (cs : List (Nat × Int)) (c : Nat × Int) :
    last_addr (cs ++ [c]) = some c.1 := by
  induction cs with
  | nil => rfl
  | cons d ds ih =>
    cases ds with
    | nil => rfl
    | cons e es => simpa [last_addr] using ih

/-- Linking a fresh cell behind the last cell of a chain extends the chain. -/
theorem Chain.snoc {cells : Nat → Option node} {a : Nat} {v : Int} :
    ∀ {cs : List (Nat × Int)} {p : Option Nat} {t : Nat},
      Chain cells p cs → last_addr cs = some t → (cs.map Prod.fst).Nodup →
      a ∉ cs.map Prod.fst →
      Chain (set_next (store cells a (some ⟨v, none⟩)) (some t) (some a)) p (cs ++ [(a, v)])
  | [c], p, t, h, ht, _, ha => by
    obtain ⟨hp, nx, hc, hrest⟩ := h
    simp only [last_addr, Option.some.injEq] at ht
    simp only [List.map_cons, List.map_nil, List.mem_singleton] at ha
    have hnx : nx = none := hrest
    subst ht hnx
    refine ⟨hp, some a, ?_, rfl, none, ?_, rfl⟩
    · simp [set_next, store, deref, ha, hc, Ne.symm ha]
    · simp [set_next, store, ha]
  | c :: d :: cs, p, t, h, ht, hnd, ha => by
    obtain ⟨hp, nx, hc, hrest⟩ := h
    have ht2 : last_addr (d :: cs) = some t := by simpa [last_addr] using ht
    have hnd2 : ((d :: cs).map Prod.fst).Nodup := (List.nodup_cons.mp hnd).2
    have hc1 : c.1 ∉ (d :: cs).map Prod.fst := (List.nodup_cons.mp hnd).1
    have ha2 : a ∉ (d :: cs).map Prod.fst := fun hm => ha (List.mem_cons_of_mem _ hm)
    have hac : a ≠ c.1 := fun e => ha (by simp [e])
    have htc : t ≠ c.1 := fun e => hc1 (e ▸ last_addr_mem ht2)
    refine ⟨hp, nx, ?_, Chain.snoc hrest ht2 hnd2 ha2⟩
    simp [set_next, store, Ne.symm htc, Ne.symm hac, hc]

theorem push_value_full (q : Queue) (v : Int) (h : ¬ q.brk < q.limit) :
    push_value q v = (-1, q) := by
  simp [push_value, malloc, h]

/-- A push with room left returns `0` and appends the value. -/
theorem push_value_rep {q : Queue} {vs : List Int} (v : Int) (hr : Rep q vs)
    (h : q.brk < q.limit) :
    (push_value q v).1 = 0 ∧ Rep (push_value q v).2 (vs ++ [v]) ∧
      (push_value q v).2.brk = q.brk + 1 ∧ (push_value q v).2.limit = q.limit := by
  obtain ⟨cs, hch, hvs, hnd, hlt, htl⟩ := hr
  have hfresh : q.brk ∉ cs.map Prod.fst := by
    intro hm
    obtain ⟨c, hc, hce⟩ := List.mem_map.mp hm
    have := hlt c hc
    omega
  cases cs with
  | nil =>
    have hh : q.head = none := hch
    simp only [List.map_nil] at hvs
    subst hvs
    refine ⟨by simp [push_value, malloc, h, hh], ?_, by simp [push_value, malloc, h, hh],
      by simp [push_value, malloc, h, hh]⟩
    refine ⟨[(q.brk, v)], ?_, rfl, by simp, by simp [push_value, malloc, h, hh], ?_⟩
    · simp [push_value, malloc, h, hh, Chain, store]
    · intro _
      simp [push_value, malloc, h, hh, last_addr]
  | cons c cs =>
    have hh : q.head = some c.1 := hch.1
    have ht := htl (by simp)
    obtain ⟨t, hte⟩ : ∃ t, last_addr (c :: cs) = some t := by
      have := last_addr_append (c :: cs).dropLast ((c :: cs).getLast (by simp))
      rw [List.dropLast_append_getLast] at this
      exact ⟨_, this⟩
    rw [hte] at ht
    refine ⟨by simp [push_value, malloc, h, hh], ?_, by simp [push_value, malloc, h, hh],
      by simp [push_value, malloc, h, hh]⟩
    refine ⟨(c :: cs) ++ [(q.brk, v)], ?_, by simp [← hvs], ?_, ?_, ?_⟩
    · have := Chain.snoc (a := q.brk) (v := v) hch hte hnd hfresh
      simpa [push_value, malloc, h, hh, ht] using this
    · rw [List.map_append, List.nodup_append]
      refine ⟨hnd, by simp, ?_⟩
      intro a ha hb
      simp only [List.map_cons, List.map_nil, List.mem_singleton] at hb
      exact hfresh (hb ▸ ha)
    · intro d hd
      rcases List.mem_append.mp hd with hd | hd
      · have := hlt d hd
        simp [push_value, malloc, h, hh]
        omega
      · simp only [List.mem_singleton] at hd
        subst hd
        simp [push_value, malloc, h, hh]
    · intro _
      rw [last_addr_append]
      simp [push_value, malloc, h, hh]

theorem pop_value_nil {q : Queue} (hr : Rep q []) : pop_value q = (-1, q) := by
  obtain ⟨cs, hch, hvs, _⟩ := hr
  have : cs = [] := by simpa using hvs
  subst this
  have hh : q.head = none := hch
  simp [pop_value, hh]

/-- A pop from a queue holding `v :: vs` returns `v` and leaves `vs`; when `vs` is empty
both pointers are NULL afterwards. -/
theorem pop_value_cons {q : Queue} {v : Int} {vs : List Int} (hr : Rep q (v :: vs)) :
    (pop_value q).1 = v ∧ Rep (pop_value q).2 vs ∧
      (pop_value q).2.brk = q.brk ∧ (pop_value q).2.limit = q.limit ∧
      (vs = [] → (pop_value q).2.head = none ∧ (pop_value q).2.tail = none) := by
  obtain ⟨cs, hch, hvs, hnd, hlt, htl⟩ := hr
  cases cs with
  | nil => simp at hvs
  | cons c cs =>
    obtain ⟨hh, nx, hc, hrest⟩ := hch
    simp only [List.map_cons, List.cons.injEq] at hvs
    obtain ⟨hv, hvs⟩ := hvs
    have hc1 : c.1 ∉ cs.map Prod.fst := (List.nodup_cons.mp hnd).1
    have hnd2 : (cs.map Prod.fst).Nodup := (List.nodup_cons.mp hnd).2
    have hrest2 := Chain.frame (a := c.1) none hc1 hrest
    cases cs with
    | nil =>
      have hnx : nx = none := hrest
      subst hnx
      simp only [List.map_nil] at hvs
      subst hvs
      refine ⟨by simp [pop_value, hh, deref, hc, hv], ?_, by simp [pop_value, hh, deref, hc],
        by simp [pop_value, hh, deref, hc], fun _ => by simp [pop_value, hh, deref, hc]⟩
      exact ⟨[], by simp [pop_value, hh, deref, hc, Chain], rfl, by simp, by simp, by simp⟩
    | cons d ds =>
      have hnx : nx = some d.1 := hrest.1
      subst hnx
      refine ⟨by simp [pop_value, hh, deref, hc, hv], ?_, by simp [pop_value, hh, deref, hc],
        by simp [pop_value, hh, deref, hc], fun e => by simp [← hvs] at e⟩
      refine ⟨d :: ds, ?_, hvs, hnd2, ?_, ?_⟩
      · simpa [pop_value, hh, deref, hc] using hrest2
      · intro e he
        have := hlt e (List.mem_cons_of_mem _ he)
        simpa [pop_value, hh, deref, hc] using this
      · intro _
        have := htl (by simp)
        simpa [pop_value, hh, deref, hc, last_addr] using this

theorem rep_empty_queue (limit : Nat) : Rep (empty_queue limit) [] :=
  ⟨[], rfl, rfl, by simp, by simp, by simp⟩

theorem push_all_rep : ∀ (vs : List Int) {q : Queue} {ws : List Int}, Rep q ws →
    (∀ r ∈ (push_all q vs).1, r = 0) → Rep (push_all q vs).2 (ws ++ vs)
  | [], q, ws, hr, _ => by simpa [push_all] using hr
  | v :: vs, q, ws, hr, h0 => by
    have hroom : q.brk < q.limit := by
      by_contra hn
      have := h0 (push_value q v).1 (by simp [push_all])
      rw [push_value_full q v hn] at this
      simp at this
    have h1 := (push_value_rep v hr hroom).2.1
    have := push_all_rep vs h1 (fun r hr1 => h0 r (by simp [push_all, hr1]))
    simpa [push_all] using this

theorem pop_times_rep : ∀ (vs : List Int) {q : Queue} {ws : List Int}, Rep q (vs ++ ws) →
    (pop_times q vs.length).1 = vs ∧ Rep (pop_times q vs.length).2 ws ∧
      (vs ≠ [] → ws = [] →
        (pop_times q vs.length).2.head = none ∧ (pop_times q vs.length).2.tail = none)
  | [], q, ws, hr => by simpa [pop_times] using hr
  | v :: vs, q, ws, hr => by
    obtain ⟨h1, h2, -, -, h5⟩ := @pop_value_cons q v (vs ++ ws) hr
    obtain ⟨i1, i2, i3⟩ := pop_times_rep vs h2
    refine ⟨by simp [pop_times, h1, i1], by simpa [pop_times] using i2, ?_⟩
    intro _ hws
    by_cases hvs : vs = []
    · subst hvs
      simpa [pop_times] using h5 (by simp [hws])
    · simpa [pop_times] using i3 hvs hws

theorem pop_times_empty (q : Queue) (hh : q.head = none) :
    ∀ k : Nat, pop_times q k = (List.replicate k (-1), q)
  | 0 => rfl
  | k + 1 => by
    have h1 : pop_value q = (-1, q) := by simp [pop_value, hh]
    simp [pop_times, h1, pop_times_empty q hh k, List.replicate_succ]

/-- C4. FrontierQueue is FIFO: when the values `vs` are pushed on an empty queue (`head`
and `tail` NULL) and every `push_value` returns `0`, the next `vs.length` calls of
`pop_value` return exactly `vs` in the order pushed (so none of them is the marker `-1`
when the values are non-negative), and every later `pop_value` returns `-1` and leaves
`head` and `tail` NULL. -/
theorem queue_fifo (q : Queue) (vs : List Int) (hhead : q.head = none)
    (htail : q.tail = none) (hpush : ∀ r ∈ (push_all q vs).1, r = 0) :
    (pop_times (push_all q vs).2 vs.length).1 = vs ∧
    ((∀ v ∈ vs, 0 ≤ v) → ∀ v ∈ (pop_times (push_all q vs).2 vs.length).1, v ≠ -1) ∧
    ∀ k : Nat,
      (pop_times (pop_times (push_all q vs).2 vs.length).2 k).1 = List.replicate k (-1) ∧
      (pop_times (pop_times (push_all q vs).2 vs.length).2 k).2.head = none ∧
      (pop_times (pop_times (push_all q vs).2 vs.length).2 k).2.tail = none := by
  have hq : Rep q [] := ⟨[], hhead, rfl, by simp, by simp, by simp⟩
  have h1 : Rep (push_all q vs).2 (vs ++ []) := by
    simpa using push_all_rep vs hq hpush
  obtain ⟨p1, p2, p3⟩ := pop_times_rep vs h1
  have hfin : (pop_times (push_all q vs).2 vs.length).2.head = none ∧
      (pop_times (push_all q vs).2 vs.length).2.tail = none := by
    by_cases hvs : vs = []
    · subst hvs
      simp [push_all, pop_times, hhead, htail]
    · exact p3 hvs rfl
  refine ⟨p1, ?_, ?_⟩
  · intro hnn v hv
    rw [p1] at hv
    have := hnn v hv
    omega
  · intro k
    rw [pop_times_empty _ hfin.1 k]
    exact ⟨rfl, hfin.1, hfin.2⟩

/-- Witness for C4: the values 5, 7, 9 pushed on the empty queue with room for three
nodes. -/
theorem queue_fifo_witness :
    (empty_queue 3).head = none ∧ (empty_queue 3).tail = none ∧
    (∀ r ∈ (push_all (empty_queue 3) [5, 7, 9]).1, r = 0) ∧
    (pop_times (push_all (empty_queue 3) [5, 7, 9]).2 3).1 = [5, 7, 9] ∧
    (pop_times (pop_times (push_all (empty_queue 3) [5, 7, 9]).2 3).2 2).1 = [-1, -1] :=
  ⟨rfl, rfl, by decide,
    (queue_fifo (empty_queue 3) [5, 7, 9] rfl rfl (by decide)).1,
    ((queue_fifo (empty_queue 3) [5, 7, 9] rfl rfl (by decide)).2.2 2).1⟩

/-! ## The two `for` loops of `calculate_topology` in closed form -/

theorem push_or_exit_spec {s : State} {ws : List Int} (i : Nat) (hr : Rep s.q ws)
    (h : s.q.brk < s.q.limit) :
    ∃ q1, push_or_exit s i = Except.ok { s with q := q1, push_log := s.push_log ++ [(i : Int)] } ∧
      Rep q1 (ws ++ [(i : Int)]) ∧ q1.brk = s.q.brk + 1 ∧ q1.limit = s.q.limit := by
  obtain ⟨h1, h2, h3, h4⟩ := push_value_rep (i : Int) hr h
  refine ⟨(push_value s.q i).2, ?_, h2, h3, h4⟩
  unfold push_or_exit
  generalize push_value s.q (i : Int) = pr at h1
  obtain ⟨r, q1⟩ := pr
  simp only at h1
  subst h1
  simp

/-- The seeding loop pushes, in index order, the indices whose counter is zero and
changes nothing else. -/
theorem seed_loop_spec : ∀ (is : List Nat) (s : State) (ws : List Int), Rep s.q ws →
    s.q.brk + (is.filter (fun i => decide (s.dependencies_matrix i = 0))).length ≤ s.q.limit →
    ∃ q1, for_loop seed_body is s = Except.ok { s with
        q := q1
        push_log := s.push_log ++
          (is.filter (fun i => decide (s.dependencies_matrix i = 0))).map Int.ofNat } ∧
      Rep q1 (ws ++ (is.filter (fun i => decide (s.dependencies_matrix i = 0))).map Int.ofNat) ∧
      q1.brk = s.q.brk + (is.filter (fun i => decide (s.dependencies_matrix i = 0))).length ∧
      q1.limit = s.q.limit
  | [], s, ws, hr, _ => ⟨s.q, by simp [for_loop], by simpa using hr, by simp, rfl⟩
  | i :: is, s, ws, hr, hroom => by
    by_cases hd : s.dependencies_matrix i = 0
    · simp only [List.filter_cons, hd, decide_True, if_true, List.length_cons] at hroom ⊢
      obtain ⟨q1, e1, r1, b1, l1⟩ := push_or_exit_spec i hr (by omega)
      have := seed_loop_spec is { s with q := q1, push_log := s.push_log ++ [(i : Int)] }
        (ws ++ [(i : Int)]) r1 (by simp only [b1, l1]; omega)
      obtain ⟨q2, e2, r2, b2, l2⟩ := this
      refine ⟨q2, ?_, by simpa using r2, by simp only [b2, b1]; omega, by simp only [l2, l1]⟩
      simp only [for_loop, seed_body, hd, ne_eq, not_true_eq_false, if_false, e1, e2]
      simp
    · simp only [List.filter_cons, hd, decide_False, Bool.false_eq_true, if_false] at hroom ⊢
      obtain ⟨q2, e2, r2, b2, l2⟩ := seed_loop_spec is s ws hr hroom
      refine ⟨q2, ?_, r2, b2, l2⟩
      simp only [for_loop, seed_body, hd, ne_eq, not_false_eq_true, if_true, e2]

theorem dec_deps_skip (m : Nat → Nat → Int) (dep : Nat → Int) (c i : Nat) (is : List Nat)
    (h : m c i ≠ 1) : dec_deps m dep c (i :: is) = dec_deps m dep c is := by
  funext j
  by_cases hj : j = i
  · subst hj
    simp [dec_deps, h]
  · simp [dec_deps, hj]

theorem dec_deps_store (m : Nat → Nat → Int) (dep : Nat → Int) (c i : Nat) (is : List Nat)
    (h : m c i = 1) (hi : i ∉ is) :
    dec_deps m (store dep i (dep i - 1)) c is = dec_deps m dep c (i :: is) := by
  funext j
  by_cases hj : j = i
  · subst hj
    simp [dec_deps, h, hi, store]
  · simp [dec_deps, hj, store]

theorem released_store (m : Nat → Nat → Int) (dep : Nat → Int) (c i : Nat) (is : List Nat)
    (v : Int) (hi : i ∉ is) :
    released m (store dep i v) c is = released m dep c is := by
  unfold released
  apply List.filter_congr
  intro j hj
  have : j ≠ i := fun e => hi (e ▸ hj)
  simp [store, this]

/-- The inner loop for the popped node `c` decrements the counter of every successor of
`c` and pushes, in index order, those whose counter reaches zero. -/
theorem drain_loop_spec (c : Nat) : ∀ (is : List Nat) (s : State) (ws : List Int),
    is.Nodup → Rep s.q ws →
    s.q.brk + (released s.matrix s.dependencies_matrix c is).length ≤ s.q.limit →
    ∃ q1, for_loop (drain_body (c : Int)) is s = Except.ok { s with
        q := q1
        dependencies_matrix := dec_deps s.matrix s.dependencies_matrix c is
        push_log := s.push_log ++
          (released s.matrix s.dependencies_matrix c is).map Int.ofNat } ∧
      Rep q1 (ws ++ (released s.matrix s.dependencies_matrix c is).map Int.ofNat) ∧
      q1.brk = s.q.brk + (released s.matrix s.dependencies_matrix c is).length ∧
      q1.limit = s.q.limit
  | [], s, ws, _, hr, _ => by
    refine ⟨s.q, ?_, by simpa [released] using hr, by simp [released], rfl⟩
    have : dec_deps s.matrix s.dependencies_matrix c [] = s.dependencies_matrix := by
      funext j
      simp [dec_deps]
    simp [for_loop, released, this]
  | i :: is, s, ws, hnd, hr, hroom => by
    have hi : i ∉ is := (List.nodup_cons.mp hnd).1
    have hnd2 : is.Nodup := (List.nodup_cons.mp hnd).2
    by_cases hm : s.matrix c i = 1
    · by_cases hd : s.dependencies_matrix i - 1 = 0
      · have hrel : released s.matrix s.dependencies_matrix c (i :: is) =
            i :: released s.matrix s.dependencies_matrix c is := by
          simp [released, hm, hd]
        rw [hrel] at hroom ⊢
        simp only [List.length_cons] at hroom
        obtain ⟨q1, e1, r1, b1, l1⟩ := @push_or_exit_spec
          { s with dependencies_matrix := store s.dependencies_matrix i (s.dependencies_matrix i - 1) }
          ws i hr (by simp only; omega)
        have := drain_loop_spec c is { s with
            q := q1
            dependencies_matrix := store s.dependencies_matrix i (s.dependencies_matrix i - 1)
            push_log := s.push_log ++ [(i : Int)] } (ws ++ [(i : Int)]) hnd2 r1
          (by simp only [released_store _ _ _ _ _ _ hi, b1, l1]; omega)
        obtain ⟨q2, e2, r2, b2, l2⟩ := this
        simp only [released_store _ _ _ _ _ _ hi, dec_deps_store _ _ _ _ _ hm hi] at e2 r2 b2
        refine ⟨q2, ?_, by simpa using r2, by simp only [b2, b1, List.length_cons]; omega,
          by simp only [l2, l1]⟩
        simp only [hd] at e1 e2
        simp only [for_loop, drain_body, Int.toNat_ofNat, hm, ne_eq, not_true_eq_false,
          if_false, store_same, hd, e1, e2]
        simp
      · have hrel : released s.matrix s.dependencies_matrix c (i :: is) =
            released s.matrix s.dependencies_matrix c is := by
          simp [released, hd]
        rw [hrel] at hroom ⊢
        have := drain_loop_spec c is { s with
            dependencies_matrix := store s.dependencies_matrix i (s.dependencies_matrix i - 1) }
          ws hnd2 hr (by simp only [released_store _ _ _ _ _ _ hi]; omega)
        obtain ⟨q2, e2, r2, b2, l2⟩ := this
        simp only [released_store _ _ _ _ _ _ hi, dec_deps_store _ _ _ _ _ hm hi] at e2 r2 b2
        refine ⟨q2, ?_, r2, b2, l2⟩
        simp only [for_loop, drain_body, Int.toNat_ofNat, hm, ne_eq, not_true_eq_false,
          if_false, store_same, hd, not_false_eq_true, if_true, e2]
    · have hrel : released s.matrix s.dependencies_matrix c (i :: is) =
          released s.matrix s.dependencies_matrix c is := by
        simp [released, hm]
      rw [hrel] at hroom
      rw [hrel, dec_deps_skip _ _ _ _ _ hm]
      obtain ⟨q2, e2, r2, b2, l2⟩ := drain_loop_spec c is s ws hnd2 hr hroom
      refine ⟨q2, ?_, r2, b2, l2⟩
      simp only [for_loop, drain_body, Int.toNat_ofNat, hm, ne_eq, not_false_eq_true,
        if_true, e2]

/-! ## The invariant of Kahn's algorithm -/

theorem filter_len_snoc (m : Nat → Nat → Int) (r : List Nat) (c j : Nat) (hc : c ∉ r) :
    ∀ l : List Nat, l.Nodup →
      (l.filter (fun i => decide (m i j = 1 ∧ i ∉ r))).length =
        (l.filter (fun i => decide (m i j = 1 ∧ i ∉ r ++ [c]))).length +
          (if c ∈ l ∧ m c j = 1 then 1 else 0)
  | [], _ => by simp
  | i :: l, hnd => by
    have hi : i ∉ l := (List.nodup_cons.mp hnd).1
    have ih := filter_len_snoc m r c j hc l (List.nodup_cons.mp hnd).2
    by_cases hic : i = c
    · subst hic
      by_cases hm : m i j = 1
      · simp [List.filter_cons, hm, hc, hi] at ih ⊢
        omega
      · simp [List.filter_cons, hm, hi] at ih ⊢
        omega
    · have hci : ¬ c = i := fun e => hic e.symm
      by_cases hm : m i j = 1 <;> by_cases hir : i ∈ r <;>
        simp [List.filter_cons, hm, hir, hic, hci] at ih ⊢ <;> omega

theorem open_deps_snoc (N : Nat) (m : Nat → Nat → Int) (r : List Nat) (c j : Nat)
    (hc : c ∉ r) (hN : c < N) :
    open_deps N m r j = open_deps N m (r ++ [c]) j + (if m c j = 1 then 1 else 0) := by
  have := filter_len_snoc m r c j hc (List.range N) (List.nodup_range N)
  simpa [open_deps, hN] using this

theorem open_deps_eq_zero {N : Nat} {m : Nat → Nat → Int} {r : List Nat} {j : Nat}
    (h : open_deps N m r j = 0) (i : Nat) (hi : i < N) (hm : m i j = 1) : i ∈ r := by
  by_contra hn
  have : i ∈ (List.range N).filter (fun i => decide (m i j = 1 ∧ i ∉ r)) := by
    simp [List.mem_filter, hi, hm, hn]
  have hpos := List.length_pos_of_mem this
  simp only [open_deps] at h
  omega

theorem open_deps_pos {N : Nat} {m : Nat → Nat → Int} {r : List Nat} {j : Nat}
    (h : open_deps N m r j ≠ 0) : ∃ i, i < N ∧ m i j = 1 ∧ i ∉ r := by
  simp only [open_deps, ne_eq, List.length_eq_zero] at h
  obtain ⟨i, hi⟩ := List.exists_mem_of_ne_nil _ h
  simp only [List.mem_filter, List.mem_range, decide_eq_true_eq] at hi
  exact ⟨i, hi.1, hi.2.1, hi.2.2⟩

theorem Kahn.init {N : Nat} {m : Nat → Nat → Int} {dep : Nat → Int}
    (h : ∀ j, j < N → dep j = (open_deps N m [] j : Int)) :
    Kahn N m dep [] ((List.range N).filter (fun i => decide (dep i = 0))) where
  nodup := by simpa using (List.nodup_range N).filter _
  bound := by
    intro x hx
    simp only [List.nil_append, List.mem_filter, List.mem_range] at hx
    exact hx.1
  count := h
  zero := by
    intro j hj
    simp [List.mem_filter, hj]
  order := by
    intro a j b hab
    simp at hab

/-- One iteration of the drain loop keeps the invariant. -/
theorem Kahn.step {N : Nat} {m : Nat → Nat → Int} {dep : Nat → Int} {r P : List Nat}
    {c : Nat} (h : Kahn N m dep r (c :: P)) :
    Kahn N m (dec_deps m dep c (List.range N)) (r ++ [c])
      (P ++ released m dep c (List.range N)) := by
  have hcN : c < N := h.bound c (by simp)
  have hcr : c ∉ r := by
    have := h.nodup
    rw [List.nodup_append] at this
    exact fun hm => this.2.2 hm (List.mem_cons_self _ _)
  have hdec : ∀ j, j < N →
      dec_deps m dep c (List.range N) j = dep j - (if m c j = 1 then 1 else 0) := by
    intro j hj
    by_cases hm : m c j = 1 <;> simp [dec_deps, hj, hm]
  have hcount : ∀ j, j < N →
      dep j = (open_deps N m (r ++ [c]) j : Int) + (if m c j = 1 then 1 else 0) := by
    intro j hj
    rw [h.count j hj, open_deps_snoc N m r c j hcr hcN]
    split <;> simp
  have hrel : ∀ j, j ∈ released m dep c (List.range N) ↔ j < N ∧ m c j = 1 ∧ dep j = 1 := by
    intro j
    simp only [released, List.mem_filter, List.mem_range, decide_eq_true_eq]
    constructor
    · rintro ⟨a, b, d⟩
      exact ⟨a, b, by omega⟩
    · rintro ⟨a, b, d⟩
      exact ⟨a, b, by omega⟩
  have hnew : ∀ j, j ∈ released m dep c (List.range N) → j ∉ r ++ c :: P := by
    intro j hj hmem
    obtain ⟨a, -, d⟩ := (hrel j).mp hj
    have := (h.zero j a).mpr hmem
    omega
  refine ⟨?_, ?_, ?_, ?_, ?_⟩
  · have h1 : (r ++ c :: P).Nodup := h.nodup
    have h2 : (released m dep c (List.range N)).Nodup := (List.nodup_range N).filter _
    have h3 : ((r ++ c :: P) ++ released m dep c (List.range N)).Nodup := by
      rw [List.nodup_append]
      exact ⟨h1, h2, fun x hx hy => hnew x hy hx⟩
    simpa using h3
  · intro x hx
    have : x ∈ r ++ c :: P ∨ x ∈ released m dep c (List.range N) := by
      simp only [List.mem_append, List.mem_cons, List.mem_singleton, List.not_mem_nil,
        or_false] at hx ⊢
      tauto
    rcases this with hx | hx
    · exact h.bound x hx
    · exact ((hrel x).mp hx).1
  · intro j hj
    rw [hdec j hj, hcount j hj]
    omega
  · intro j hj
    rw [hdec j hj]
    have hmem : j ∈ r ++ [c] ++ (P ++ released m dep c (List.range N)) ↔
        j ∈ r ++ c :: P ∨ j ∈ released m dep c (List.range N) := by
      simp only [List.mem_append, List.mem_cons, List.mem_singleton, List.not_mem_nil,
        or_false]
      tauto
    rw [hmem]
    constructor
    · intro hz
      by_cases hm : m c j = 1
      · right
        rw [hrel]
        simp only [hm, if_true] at hz
        exact ⟨hj, hm, by omega⟩
      · left
        simp only [hm, if_false] at hz
        exact (h.zero j hj).mp (by omega)
    · rintro (hz | hz)
      · have hd := (h.zero j hj).mpr hz
        have hc := hcount j hj
        by_cases hm : m c j = 1
        · simp only [hm, if_true] at hc
          omega
        · simp only [hm, if_false]
          omega
      · obtain ⟨-, b, d⟩ := (hrel j).mp hz
        simp only [b, if_true]
        omega
  · intro a j b hab i hi hm
    rcases List.eq_nil_or_concat b with hb | ⟨b1, x, hb⟩
    · subst hb
      have := List.append_inj' hab rfl
      obtain ⟨e1, e2⟩ := this
      simp only [List.cons.injEq, and_true] at e2
      subst e1 e2
      have hd := (h.zero c hcN).mpr (by simp)
      have hc := h.count c hcN
      exact open_deps_eq_zero (by omega) i hi hm
    · subst hb
      have : r ++ [c] = (a ++ j :: b1) ++ [x] := by simpa using hab
      have := List.append_inj' this rfl
      exact h.order a j b1 this.1 i hi hm

/-! ## The drain loop -/

theorem length_le_of_nodup_bound {l : List Nat} {N : Nat} (hnd : l.Nodup)
    (hb : ∀ x ∈ l, x < N) : l.length ≤ N := by
  have hsub : l ⊆ List.range N := fun x hx => List.mem_range.mpr (hb x hx)
  simpa using (List.subperm_of_subset hnd hsub).length_le

theorem pop_value_link {q : Queue} (P : List Nat) (hr : Rep q (P.map Int.ofNat)) :
    (pop_value q).1 = (P.head?.map Int.ofNat).getD (-1) ∧
      Rep (pop_value q).2 (P.tail.map Int.ofNat) ∧
      (pop_value q).2.brk = q.brk ∧ (pop_value q).2.limit = q.limit := by
  cases P with
  | nil =>
    rw [pop_value_nil hr]
    exact ⟨rfl, hr, rfl, rfl⟩
  | cons c P =>
    obtain ⟨h1, h2, h3, h4, -⟩ := @pop_value_cons q (Int.ofNat c) (P.map Int.ofNat) hr
    exact ⟨by simpa using h1, h2, h3, h4⟩

theorem result_snoc (s : State) (v : Int) :
    result { s with
      topology_matrix := store s.topology_matrix s.topology_matrix_index v
      topology_matrix_index := s.topology_matrix_index + 1 } = result s ++ [v] := by
  simp only [result, List.range_succ, List.map_append, List.map_cons, List.map_nil, store_same]
  congr 1
  apply List.map_congr_left
  intro k hk
  have : k ≠ s.topology_matrix_index := by
    have := List.mem_range.mp hk
    omega
  simp [store, this]

/-- The drain loop, entered in a state that satisfies the invariant with enough fuel for
the nodes not yet emitted, ends without fault in a state that satisfies the invariant
with nothing pending. -/
theorem drain_spec : ∀ (fuel : Nat) (s : State) (cur : Int) (r P : List Nat),
    AtLoop s cur r P → s.nodes_count ≤ fuel + r.length →
    ∃ s1 r1, drain fuel s cur = Except.ok s1 ∧ s1.nodes_count = s.nodes_count ∧
      s1.matrix = s.matrix ∧ AtLoop s1 (-1) r1 []
  | fuel, s, cur, r, [], h, _ => by
    have hc : cur = -1 := by simpa using h.cur
    subst hc
    refine ⟨s, r, ?_, rfl, rfl, h⟩
    cases fuel <;> simp [drain]
  | fuel, s, cur, r, c :: P, h, hfuel => by
    have hc : cur = (c : Int) := by simpa using h.cur
    have hne : (c : Int) ≠ -1 := by omega
    have hk := h.kahn
    have hlen := length_le_of_nodup_bound hk.nodup hk.bound
    have hk2 := hk.step
    have hlen2 := length_le_of_nodup_bound hk2.nodup hk2.bound
    simp only [List.length_append, List.length_cons, List.length_nil] at hlen hlen2
    have hroom := h.room
    simp only [List.length_append, List.length_cons] at hroom
    cases fuel with
    | zero => omega
    | succ fuel =>
      obtain ⟨q1, e1, r1, b1, l1⟩ := drain_loop_spec c (List.range s.nodes_count) s
        (P.map Int.ofNat) (List.nodup_range _) (by simpa using h.queue) (by omega)
      obtain ⟨p1, p2, p3, p4⟩ := pop_value_link (q := q1)
        (P ++ released s.matrix s.dependencies_matrix c (List.range s.nodes_count))
        (by simpa using r1)
      have hidx : s.topology_matrix_index < s.nodes_count := by
        rw [h.index]
        omega
      have hrec := drain_spec fuel
        { s with
          q := (pop_value q1).2
          dependencies_matrix :=
            dec_deps s.matrix s.dependencies_matrix c (List.range s.nodes_count)
          topology_matrix := store s.topology_matrix s.topology_matrix_index (c : Int)
          topology_matrix_index := s.topology_matrix_index + 1
          push_log := s.push_log ++
            (released s.matrix s.dependencies_matrix c (List.range s.nodes_count)).map
              Int.ofNat }
        (pop_value q1).1 (r ++ [c])
        (P ++ released s.matrix s.dependencies_matrix c (List.range s.nodes_count))
        { index := by simp [h.index]
          res := by
            have := result_snoc s (c : Int)
            simp only [result] at this ⊢
            rw [this]
            have hres := h.res
            simp only [result] at hres
            rw [hres]
            simp
          log := by simp [h.log]
          room := by
            simp only [p3, p4, b1, l1, List.length_append, List.length_cons, List.length_nil]
            omega
          cur := p1
          queue := p2
          kahn := hk2 }
        (by simp only [List.length_append, List.length_cons, List.length_nil]; omega)
      obtain ⟨s1, r2, e2, n2, m2, a2⟩ := hrec
      refine ⟨s1, r2, ?_, n2, m2, a2⟩
      subst hc
      simp only [drain, hne, if_false, e1, hidx, if_true]
      exact e2

theorem open_deps_nil (s : State) (j : Nat) :
    open_deps s.nodes_count s.matrix [] j = in_degree s j := by
  simp [open_deps, in_degree]

/-- The whole of `calculate_topology`: from a ready state with consistent counters and
fuel for `nodes_count` iterations it ends without fault, the graph is unchanged, and the
final state satisfies the invariant with an empty queue. -/
theorem calculate_topology_spec (fuel : Nat) (s : State) (hready : Ready s)
    (hcons : Consistent s) (hfuel : s.nodes_count ≤ fuel) :
    ∃ s1 r, calculate_topology fuel s = Except.ok s1 ∧ s1.nodes_count = s.nodes_count ∧
      s1.matrix = s.matrix ∧ AtLoop s1 (-1) r [] := by
  obtain ⟨hhead, htail, hroom, hlog⟩ := hready
  have hrep : Rep s.q [] := ⟨[], hhead, rfl, by simp, by simp, by simp⟩
  have hfl := List.length_filter_le (fun i => decide (s.dependencies_matrix i = 0))
    (List.range s.nodes_count)
  rw [List.length_range] at hfl
  obtain ⟨q1, e1, r1, b1, l1⟩ := seed_loop_spec (List.range s.nodes_count)
    { s with topology_matrix_index := 0 } [] hrep (by simp only; omega)
  simp only [List.nil_append] at r1
  obtain ⟨p1, p2, p3, p4⟩ := pop_value_link (q := q1) _ r1
  have hk : Kahn s.nodes_count s.matrix s.dependencies_matrix []
      ((List.range s.nodes_count).filter (fun i => decide (s.dependencies_matrix i = 0))) :=
    Kahn.init (fun j hj => by rw [open_deps_nil]; exact hcons j hj)
  have hrec := drain_spec fuel
    { s with
      q := (pop_value q1).2
      topology_matrix_index := 0
      push_log := s.push_log ++
        ((List.range s.nodes_count).filter
          (fun i => decide (s.dependencies_matrix i = 0))).map Int.ofNat }
    (pop_value q1).1 []
    ((List.range s.nodes_count).filter (fun i => decide (s.dependencies_matrix i = 0)))
    { index := rfl
      res := by simp [result]
      log := by simp [hlog]
      room := by
        simp only [p3, p4, b1, l1, List.nil_append]
        omega
      cur := p1
      queue := p2
      kahn := hk }
    (by simpa using hfuel)
  obtain ⟨s1, r2, e2, n2, m2, a2⟩ := hrec
  refine ⟨s1, r2, ?_, n2, m2, a2⟩
  simp only [calculate_topology, e1]
  exact e2

/-! ## Paths and cycles in a finite graph -/

/-- In a graph on the nodes below `N`, when every node of a set `S` has a predecessor in
`S`, every node of `S` can be reached from a node of `S` that lies on a cycle. -/
theorem exists_cycle_of_pred_closed (N : Nat) (R : Nat → Nat → Prop) (S : Nat → Prop)
    (hS : ∀ x, S x → x < N) (hpred : ∀ x, S x → ∃ y, S y ∧ R y x) (x0 : Nat) (h0 : S x0) :
    ∃ c, S c ∧ Relation.TransGen R c c ∧ Relation.ReflTransGen R c x0 := by
  by_contra hno
  have hno2 : ∀ c, S c → Relation.ReflTransGen R c x0 → ¬ Relation.TransGen R c c :=
    fun c hc hr ht => hno ⟨c, hc, ht, hr⟩
  let Q : Fin N → Fin N → Prop := fun a b =>
    (S a.val ∧ Relation.ReflTransGen R a.val x0) ∧ Relation.TransGen R a.val b.val
  haveI : IsTrans (Fin N) Q := ⟨fun a b c hab hbc => ⟨hab.1, hab.2.trans hbc.2⟩⟩
  haveI : IsIrrefl (Fin N) Q := ⟨fun a ha => hno2 a.val ha.1.1 ha.1.2 ha.2⟩
  have hwf : WellFounded Q := Finite.wellFounded_of_trans_of_irrefl Q
  let T : Set (Fin N) := {a | S a.val ∧ Relation.ReflTransGen R a.val x0}
  have hT : T.Nonempty := ⟨⟨x0, hS x0 h0⟩, h0, Relation.ReflTransGen.refl⟩
  obtain ⟨mn, hmn, hmin⟩ := hwf.has_min T hT
  obtain ⟨y, hy, hR⟩ := hpred mn.val hmn.1
  have hyT : (⟨y, hS y hy⟩ : Fin N) ∈ T := ⟨hy, Relation.ReflTransGen.head hR hmn.2⟩
  exact hmin ⟨y, hS y hy⟩ hyT ⟨hyT, Relation.TransGen.single hR⟩

/-- Under the invariant every node from which an emitted node can be reached has been
emitted before it. -/
theorem Kahn.before {N : Nat} {m : Nat → Nat → Int} {dep : Nat → Int} {r P : List Nat}
    (h : Kahn N m dep r P) {i j : Nat}
    (hp : Relation.TransGen (fun a b => a < N ∧ b < N ∧ m a b = 1) i j) :
    ∀ a b, r = a ++ j :: b → i ∈ a := by
  induction hp with
  | single he => exact fun a b hab => h.order a _ b hab i he.1 he.2.2
  | @tail k l _ he ih =>
    intro a b hab
    have hk := h.order a l b hab k he.1 he.2.2
    obtain ⟨a1, a2, ha⟩ := List.append_of_mem hk
    have := ih a1 (a2 ++ l :: b) (by rw [hab, ha]; simp)
    rw [ha]
    exact List.mem_append_left _ this

/-- Under the invariant no emitted node lies on a cycle. -/
theorem Kahn.not_on_cycle {N : Nat} {m : Nat → Nat → Int} {dep : Nat → Int} {r P : List Nat}
    (h : Kahn N m dep r P) {c : Nat}
    (hp : Relation.TransGen (fun a b => a < N ∧ b < N ∧ m a b = 1) c c) : c ∉ r := by
  intro hc
  obtain ⟨a, b, hab⟩ := List.append_of_mem hc
  have hca := h.before hp a b hab
  have hnd : r.Nodup := (List.nodup_append.mp h.nodup).1
  rw [hab, List.nodup_append] at hnd
  exact hnd.2.2 hca (List.mem_cons_self _ _)

/-- Under the invariant with nothing pending, every node that was not emitted has a
predecessor that was not emitted. -/
theorem Kahn.missing_pred {N : Nat} {m : Nat → Nat → Int} {dep : Nat → Int} {r : List Nat}
    (h : Kahn N m dep r []) {j : Nat} (hj : j < N) (hr : j ∉ r) :
    ∃ i, (i < N ∧ i ∉ r) ∧ (i < N ∧ j < N ∧ m i j = 1) := by
  have hz : dep j ≠ 0 := fun e => hr (by simpa using (h.zero j hj).mp e)
  have hc := h.count j hj
  obtain ⟨i, hi, hm, hir⟩ := open_deps_pos (N := N) (m := m) (r := r) (j := j) (by omega)
  exact ⟨i, ⟨hi, hir⟩, hi, hj, hm⟩

/-- Under the invariant with nothing pending, every node that was not emitted can be
reached from a node on a cycle. -/
theorem Kahn.missing_from_cycle {N : Nat} {m : Nat → Nat → Int} {dep : Nat → Int}
    {r : List Nat} (h : Kahn N m dep r []) {j : Nat} (hj : j < N) (hr : j ∉ r) :
    ∃ c, (c < N ∧ c ∉ r) ∧
      Relation.TransGen (fun a b => a < N ∧ b < N ∧ m a b = 1) c c ∧
      Relation.ReflTransGen (fun a b => a < N ∧ b < N ∧ m a b = 1) c j :=
  exists_cycle_of_pred_closed N _ (fun x => x < N ∧ x ∉ r) (fun _ hx => hx.1)
    (fun _ hx => h.missing_pred hx.1 hx.2) j ⟨hj, hr⟩

/-! ## Facts about the example graphs -/

theorem acyclic_of_increasing (s : State)
    (h : ∀ i, i < s.nodes_count → ∀ j, j < s.nodes_count → s.matrix i j = 1 → i < j) :
    Acyclic s := by
  have key : ∀ i j, Relation.TransGen (Edge s) i j → i < j := by
    intro i j hp
    induction hp with
    | single he => exact h _ he.1 _ he.2.1 he.2.2
    | tail _ he ih => exact lt_trans ih (h _ he.1 _ he.2.1 he.2.2)
  exact fun i hp => lt_irrefl i (key i i hp)

theorem diamond_ready : Ready diamond := ⟨rfl, rfl, by decide, rfl⟩

theorem diamond_consistent : Consistent diamond := by
  unfold Consistent in_degree
  decide

theorem diamond_acyclic : Acyclic diamond :=
  acyclic_of_increasing diamond (by decide)

theorem lasso_ready : Ready lasso := ⟨rfl, rfl, by decide, rfl⟩

theorem lasso_consistent : Consistent lasso := by
  unfold Consistent in_degree
  decide

theorem lasso_cycle : OnCycle lasso 0 := by
  have e01 : Edge lasso 0 1 := ⟨by decide, by decide, by decide⟩
  have e10 : Edge lasso 1 0 := ⟨by decide, by decide, by decide⟩
  exact Relation.TransGen.tail (Relation.TransGen.single e01) e10

theorem lasso_two_not_on_cycle : ¬ OnCycle lasso 2 := by
  intro h
  obtain ⟨b, he, -⟩ := Relation.TransGen.head'_iff.mp h
  have hb : b < 3 := he.2.1
  have hm : lasso.matrix 2 b = 1 := he.2.2
  have : ∀ b, b < 3 → lasso.matrix 2 b ≠ 1 := by decide
  exact this b hb hm

/-! ## The serial sorter -/

/-- Summary of a serial run: it ends without fault, and for the list `r` of emitted nodes
the result and the log of pushes both equal `r` and the invariant holds with nothing
pending. -/
theorem serial_run (fuel : Nat) (s : State) (hready : Ready s) (hcons : Consistent s)
    (hfuel : s.nodes_count ≤ fuel) :
    ∃ s1 r, calculate_topology fuel s = Except.ok s1 ∧
      s1.topology_matrix_index = r.length ∧ result s1 = r.map Int.ofNat ∧
      s1.push_log = r.map Int.ofNat ∧
      Kahn s.nodes_count s.matrix s1.dependencies_matrix r [] := by
  obtain ⟨s1, r, e, hn, hm, h⟩ := calculate_topology_spec fuel s hready hcons hfuel
  refine ⟨s1, r, e, h.index, h.res, by simpa using h.log, ?_⟩
  have := h.kahn
  rwa [hn, hm] at this

theorem Kahn.all_emitted {s : State} {dep : Nat → Int} {r : List Nat}
    (h : Kahn s.nodes_count s.matrix dep r []) (hacyc : Acyclic s) (j : Nat)
    (hj : j < s.nodes_count) : j ∈ r := by
  by_contra hr
  obtain ⟨c, -, hc, -⟩ := h.missing_from_cycle hj hr
  exact hacyc c hc

theorem Kahn.perm_range {s : State} {dep : Nat → Int} {r : List Nat}
    (h : Kahn s.nodes_count s.matrix dep r []) (hacyc : Acyclic s) :
    r.Perm (List.range s.nodes_count) := by
  rw [List.perm_ext_iff_of_nodup (by simpa using h.nodup) (List.nodup_range _)]
  intro a
  constructor
  · intro ha
    exact List.mem_range.mpr (h.bound a (by simpa using ha))
  · intro ha
    exact h.all_emitted hacyc a (List.mem_range.mp ha)

theorem mem_map_ofNat {a : List Nat} {j : Nat} : Int.ofNat j ∈ a.map Int.ofNat ↔ j ∈ a := by
  constructor
  · intro h
    obtain ⟨x, hx, e⟩ := List.mem_map.mp h
    have : x = j := Int.ofNat.inj e
    exact this ▸ hx
  · exact fun h => List.mem_map_of_mem _ h

/-- C1. Serial sorter, permutation: for an acyclic graph with consistent counters (entered
with an empty queue and room for `nodes_count` queue nodes), `calculate_topology` ends
without fault for every fuel of at least `nodes_count`, with
`topology_matrix_index = nodes_count`, and the result sequence is a permutation of the
node indices `0 .. nodes_count - 1`. -/
theorem serial_permutation (fuel : Nat) (s : State) (hready : Ready s)
    (hcons : Consistent s) (hacyc : Acyclic s) (hfuel : s.nodes_count ≤ fuel) :
    ∃ s1, calculate_topology fuel s = Except.ok s1 ∧
      s1.topology_matrix_index = s.nodes_count ∧
      (result s1).Perm ((List.range s.nodes_count).map Int.ofNat) := by
  obtain ⟨s1, r, e, hidx, hres, -, hk⟩ := serial_run fuel s hready hcons hfuel
  have hp := hk.perm_range hacyc
  refine ⟨s1, e, ?_, ?_⟩
  · rw [hidx, hp.length_eq, List.length_range]
  · rw [hres]
    exact hp.map _

/-- Witness for C1: the diamond graph. -/
theorem serial_permutation_witness :
    Ready diamond ∧ Consistent diamond ∧ Acyclic diamond ∧ diamond.nodes_count ≤ 4 ∧
    ∃ s1, calculate_topology 4 diamond = Except.ok s1 ∧
      s1.topology_matrix_index = diamond.nodes_count ∧
      (result s1).Perm ((List.range diamond.nodes_count).map Int.ofNat) :=
  ⟨diamond_ready, diamond_consistent, diamond_acyclic, by decide,
    serial_permutation 4 diamond diamond_ready diamond_consistent diamond_acyclic (by decide)⟩

/-- C2. Serial sorter, order-respecting: for an acyclic graph with consistent counters,
the result sequence of `calculate_topology` contains both ends of every edge `i → j`, and
the position of `i` is strictly smaller than the position of `j`. -/
theorem serial_order_respecting (fuel : Nat) (s : State) (hready : Ready s)
    (hcons : Consistent s) (hacyc : Acyclic s) (hfuel : s.nodes_count ≤ fuel) :
    ∃ s1, calculate_topology fuel s = Except.ok s1 ∧ order_respecting s (result s1) := by
  obtain ⟨s1, r, e, -, hres, -, hk⟩ := serial_run fuel s hready hcons hfuel
  refine ⟨s1, e, ?_⟩
  intro i hi j hj hm
  obtain ⟨a, b, hab⟩ := List.append_of_mem (hk.all_emitted hacyc j hj)
  have hia : i ∈ a := hk.order a j b hab i hi hm
  have hja : j ∉ a := by
    have hnd : r.Nodup := by simpa using hk.nodup
    rw [hab, List.nodup_append] at hnd
    exact fun hm => hnd.2.2 hm (List.mem_cons_self _ _)
  have hl : result s1 = a.map Int.ofNat ++ Int.ofNat j :: b.map Int.ofNat := by
    rw [hres, hab]
    simp
  have h1 : position (result s1) i < a.length := by
    show List.indexOf (Int.ofNat i) (result s1) < a.length
    rw [hl, List.indexOf_append_of_mem (mem_map_ofNat.mpr hia)]
    simpa using List.indexOf_lt_length.mpr (mem_map_ofNat.mpr hia)
  have h2 : position (result s1) j = a.length := by
    show List.indexOf (Int.ofNat j) (result s1) = a.length
    rw [hl, List.indexOf_append_of_not_mem (fun h => hja (mem_map_ofNat.mp h)),
      List.indexOf_cons_self]
    simp
  refine ⟨by omega, ?_⟩
  rw [h2, hl]
  simp

/-- Witness for C2: the diamond graph. -/
theorem serial_order_respecting_witness :
    Ready diamond ∧ Consistent diamond ∧ Acyclic diamond ∧ diamond.nodes_count ≤ 4 ∧
    ∃ s1, calculate_topology 4 diamond = Except.ok s1 ∧
      order_respecting diamond (result s1) :=
  ⟨diamond_ready, diamond_consistent, diamond_acyclic, by decide,
    serial_order_respecting 4 diamond diamond_ready diamond_consistent diamond_acyclic
      (by decide)⟩

/-- C6. Serial sorter on cyclic input: for a graph with consistent counters that has a
node on a directed cycle (a self-loop counts), `calculate_topology` ends without fault
for every fuel of at least `nodes_count`, and its result length `topology_matrix_index`
is strictly less than `nodes_count`. -/
theorem serial_cyclic_truncated (fuel : Nat) (s : State) (hready : Ready s)
    (hcons : Consistent s) (c : Nat) (hcyc : OnCycle s c) (hfuel : s.nodes_count ≤ fuel) :
    ∃ s1, calculate_topology fuel s = Except.ok s1 ∧
      s1.topology_matrix_index < s.nodes_count := by
  obtain ⟨s1, r, e, hidx, -, -, hk⟩ := serial_run fuel s hready hcons hfuel
  refine ⟨s1, e, ?_⟩
  have hcN : c < s.nodes_count := by
    obtain ⟨b, he, -⟩ := Relation.TransGen.head'_iff.mp hcyc
    exact he.1
  have hcr : c ∉ r := hk.not_on_cycle hcyc
  have hsub : r ⊆ (List.range s.nodes_count).erase c := by
    intro x hx
    have hxc : x ≠ c := fun e => hcr (e ▸ hx)
    rw [List.mem_erase_of_ne hxc]
    exact List.mem_range.mpr (hk.bound x (by simpa using hx))
  have hle := (List.subperm_of_subset (by simpa using hk.nodup) hsub).length_le
  rw [List.length_erase_of_mem (List.mem_range.mpr hcN), List.length_range] at hle
  rw [hidx]
  omega

/-- Witness for C6: the lasso graph, with node 0 on a cycle. -/
theorem serial_cyclic_truncated_witness :
    Ready lasso ∧ Consistent lasso ∧ OnCycle lasso 0 ∧ lasso.nodes_count ≤ 3 ∧
    ∃ s1, calculate_topology 3 lasso = Except.ok s1 ∧
      s1.topology_matrix_index < lasso.nodes_count :=
  ⟨lasso_ready, lasso_consistent, lasso_cycle, by decide,
    serial_cyclic_truncated 3 lasso lasso_ready lasso_consistent 0 lasso_cycle (by decide)⟩

/-- C7, as stated, fails on the lasso graph (edges 0→1, 1→0, 1→2): the run ends with a
result shorter than `nodes_count`, node 2 is missing from the result, and node 2 lies on
no directed cycle. -/
theorem serial_missing_on_cycle_counterexample :
    ∃ s1, calculate_topology 3 lasso = Except.ok s1 ∧
      s1.topology_matrix_index < lasso.nodes_count ∧
      ¬ (∀ j, j < lasso.nodes_count → Int.ofNat j ∉ result s1 → OnCycle lasso j) := by
  obtain ⟨s1, r, e, hidx, hres, -, -⟩ :=
    serial_run 3 lasso lasso_ready lasso_consistent (by decide)
  have hval : result_of (calculate_topology 3 lasso) = some [] := by decide
  rw [e] at hval
  have hnil : result s1 = [] := by simpa [result_of] using hval
  have hr : r = [] := by simpa [hnil] using hres.symm
  refine ⟨s1, e, ?_, ?_⟩
  · rw [hidx, hr]
    decide
  · intro h
    exact lasso_two_not_on_cycle (h 2 (by decide) (by simp [hnil]))

/-- C7, amended. Serial sorter, Done state, for a graph whose counters equal the
in-degrees (`Consistent`), entered with an empty queue and room for `nodes_count` queue
nodes: the run ends without fault for every fuel of at least `nodes_count`, the result is
exactly the sequence of pushed (and then dequeued) nodes, so its length is the number of
nodes dequeued; and every node index missing from the result can be reached from a node
that lies on a directed cycle and is missing as well (the missing node itself need not
lie on a cycle). Without consistent counters (a graph loaded from an input that repeats
an edge record) a node can be missing with no cycle in the graph. -/
theorem serial_done_state (fuel : Nat) (s : State) (hready : Ready s)
    (hcons : Consistent s) (hfuel : s.nodes_count ≤ fuel) :
    ∃ s1, calculate_topology fuel s = Except.ok s1 ∧
      result s1 = s1.push_log ∧ s1.topology_matrix_index = s1.push_log.length ∧
      ∀ j, j < s.nodes_count → Int.ofNat j ∉ result s1 →
        ∃ c, c < s.nodes_count ∧ Int.ofNat c ∉ result s1 ∧ OnCycle s c ∧
          Relation.ReflTransGen (Edge s) c j := by
  obtain ⟨s1, r, e, hidx, hres, hlog, hk⟩ := serial_run fuel s hready hcons hfuel
  refine ⟨s1, e, by rw [hres, hlog], by simp [hidx, hlog], ?_⟩
  intro j hj hjr
  rw [hres, mem_map_ofNat] at hjr
  obtain ⟨c, ⟨hc, hcr⟩, hcyc, hreach⟩ := hk.missing_from_cycle hj hjr
  refine ⟨c, hc, ?_, hcyc, hreach⟩
  rw [hres, mem_map_ofNat]
  exact hcr

/-- C8. Serial sorter, enqueue at most once: for every graph with consistent counters,
acyclic or not, the run ends without fault (in particular without a write to
`topology_matrix` at an index outside `0 .. nodes_count - 1`), no node index was passed
to `push_value` twice, every pushed value is a node index, the result has no repeated
node and its length is at most `nodes_count`. -/
theorem serial_enqueue_once (fuel : Nat) (s : State) (hready : Ready s)
    (hcons : Consistent s) (hfuel : s.nodes_count ≤ fuel) :
    ∃ s1, calculate_topology fuel s = Except.ok s1 ∧
      calculate_topology fuel s ≠ Except.error Fault.out_of_bounds ∧
      s1.push_log.Nodup ∧ (∀ v ∈ s1.push_log, ∃ i, i < s.nodes_count ∧ v = Int.ofNat i) ∧
      (result s1).Nodup ∧ s1.topology_matrix_index ≤ s.nodes_count := by
  obtain ⟨s1, r, e, hidx, hres, hlog, hk⟩ := serial_run fuel s hready hcons hfuel
  have hnd : r.Nodup := by simpa using hk.nodup
  have hmap : (r.map Int.ofNat).Nodup := hnd.map (fun a b h => Int.ofNat.inj h)
  refine ⟨s1, e, by simp [e], by rwa [hlog], ?_, by rwa [hres], ?_⟩
  · intro v hv
    rw [hlog] at hv
    obtain ⟨i, hi, rfl⟩ := List.mem_map.mp hv
    exact ⟨i, hk.bound i (by simpa using hi), rfl⟩
  · rw [hidx]
    exact length_le_of_nodup_bound hnd (fun x hx => hk.bound x (by simpa using hx))

/-- C10. Concrete scenario: for the graph with 4 nodes and the edges 0→1, 0→2, 1→3, 2→3
the serial sorter produces `[0, 1, 2, 3]`, one of the two acceptable outputs; both
acceptable outputs are order-respecting, the produced one places 0 before 1, 0 before 2,
1 before 3 and 2 before 3, and `[1, 0, 2, 3]` is not order-respecting. -/
theorem diamond_scenario :
    result_of (calculate_topology 4 diamond) = some [0, 1, 2, 3] ∧
    (result_of (calculate_topology 4 diamond) = some [0, 1, 2, 3] ∨
      result_of (calculate_topology 4 diamond) = some [0, 2, 1, 3]) ∧
    (position [0, 1, 2, 3] 0 < position [0, 1, 2, 3] 1 ∧
      position [0, 1, 2, 3] 0 < position [0, 1, 2, 3] 2 ∧
      position [0, 1, 2, 3] 1 < position [0, 1, 2, 3] 3 ∧
      position [0, 1, 2, 3] 2 < position [0, 1, 2, 3] 3) ∧
    order_respecting diamond [0, 1, 2, 3] ∧ order_respecting diamond [0, 2, 1, 3] ∧
    ¬ order_respecting diamond [1, 0, 2, 3] := by
  have h : result_of (calculate_topology 4 diamond) = some [0, 1, 2, 3] := by decide
  exact ⟨h, Or.inl h, by decide, by decide, by decide, by decide⟩

/-! ## The loader -/

theorem filter_len_insert (p : Nat → Prop) [DecidablePred p] (x : Nat) (hx : ¬ p x) :
    ∀ l : List Nat, l.Nodup → x ∈ l →
      (l.filter (fun i => decide (i = x ∨ p i))).length =
        (l.filter (fun i => decide (p i))).length + 1
  | [], _, h => by simp at h
  | i :: l, hnd, h => by
    have hi : i ∉ l := (List.nodup_cons.mp hnd).1
    by_cases hix : i = x
    · subst hix
      have hsame : l.filter (fun k => decide (k = i ∨ p k)) =
          l.filter (fun k => decide (p k)) := by
        apply List.filter_congr
        intro k hk
        have : k ≠ i := fun e => hi (e ▸ hk)
        simp [this]
      have hlen := congrArg List.length hsame
      simp [List.filter_cons, hx] at hlen ⊢
      omega
    · have hxl : x ∈ l := by
        rcases List.mem_cons.mp h with e | e
        · exact absurd e.symm hix
        · exact e
      have ih := filter_len_insert p x hx l (List.nodup_cons.mp hnd).2 hxl
      by_cases hp : p i <;> simp [List.filter_cons, hix, hp] at ih ⊢ <;> omega

theorem in_degree_read_record (s : State) (e : edge_record) (hi : e.i < s.nodes_count)
    (hnew : s.matrix e.i e.j ≠ 1) (j : Nat) :
    in_degree (read_record s e) j = in_degree s j + (if j = e.j then 1 else 0) := by
  by_cases hj : j = e.j
  · subst hj
    have h := filter_len_insert (fun i => s.matrix i e.j = 1) e.i hnew
      (List.range s.nodes_count) (List.nodup_range _) (List.mem_range.mpr hi)
    simp only [in_degree, read_record, if_true]
    rw [← h]
    congr 1
    apply List.filter_congr
    intro k _
    by_cases hk : k = e.i <;> simp [store, hk]
  · simp only [in_degree, read_record, hj, if_false, Nat.add_zero]
    congr 1
    apply List.filter_congr
    intro k _
    by_cases hk : k = e.i <;> simp [store, hk, hj]

theorem consistent_read_record (s : State) (e : edge_record) (hc : Consistent s)
    (hi : e.i < s.nodes_count) (hnew : s.matrix e.i e.j ≠ 1) :
    Consistent (read_record s e) := by
  intro j hj
  rw [in_degree_read_record s e hi hnew j]
  have := hc j hj
  by_cases hje : j = e.j
  · subst hje
    simp [read_record, store, this]
  · simp [read_record, store, hje, this]

theorem consistent_foldl_read_record : ∀ (records : List edge_record) (s : State),
    Consistent s → (∀ e ∈ records, e.i < s.nodes_count ∧ s.matrix e.i e.j ≠ 1) →
    (records.map (fun e => (e.i, e.j))).Nodup → Consistent (records.foldl read_record s)
  | [], _, hc, _, _ => hc
  | e :: records, s, hc, hin, hnd => by
    have he := hin e (List.mem_cons_self _ _)
    simp only [List.map_cons, List.nodup_cons] at hnd
    refine consistent_foldl_read_record records (read_record s e)
      (consistent_read_record s e hc he.1 he.2) ?_ hnd.2
    intro e1 h1
    have h2 := hin e1 (List.mem_cons_of_mem _ h1)
    refine ⟨h2.1, ?_⟩
    have hne : (e1.i, e1.j) ≠ (e.i, e.j) := by
      intro heq
      exact hnd.1 (heq ▸ List.mem_map_of_mem (fun e => (e.i, e.j)) h1)
    by_cases hi : e1.i = e.i
    · have hj : e1.j ≠ e.j := fun hj => hne (by rw [hi, hj])
      simpa [read_record, store, hi, hj] using hi ▸ h2.2
    · simpa [read_record, store, hi] using h2.2

/-- The loader is consistent on record lists that name every edge once: the counters
equal the static in-degree of the matrix. -/
theorem loader_consistent_of_distinct (queue_limit nodes_count : Nat)
    (records : List edge_record) (hrange : ∀ e ∈ records, e.i < nodes_count ∧ e.j < nodes_count)
    (hnd : (records.map (fun e => (e.i, e.j))).Nodup) :
    (initialize_graph true queue_limit nodes_count records).1 = 1 ∧
      Consistent (initialize_graph true queue_limit nodes_count records).2 := by
  refine ⟨rfl, ?_⟩
  simp only [initialize_graph, if_true]
  apply consistent_foldl_read_record
  · intro j _
    simp [in_degree]
  · intro e he
    exact ⟨(hrange e he).1, by simp⟩
  · exact hnd

/-- C5. Loader consistency fails when a record is repeated: for 2 nodes and the record
list `0 1 w, 0 1 w` the loader returns `1`, the matrix has the single entry
`matrix[0][1] = 1`, so node 1 has in-degree 1, but `dependencies_matrix[1]` is 2; the
counters are not consistent, and the serial sorter then emits node 0 only. -/
theorem loader_repeated_record :
    (initialize_graph true 2 2 doubled_records).1 = 1 ∧
    doubled.dependencies_matrix 1 = 2 ∧ in_degree doubled 1 = 1 ∧ ¬ Consistent doubled ∧
    result_of (calculate_topology 2 doubled) = some [0] := by
  refine ⟨rfl, by decide, by decide, ?_, by decide⟩
  intro h
  have := h 1 (by decide)
  revert this
  decide

/-! ## Queue lemmas for the parallel program -/

/-- Walking a local queue by hand (`temp = head->next; free(head); head = temp`): the
head cell holds the first value, and the rest of the queue is left. -/
theorem Rep.advance {q : Queue} {v : Int} {vs : List Int} (hr : Rep q (v :: vs)) :
    ∃ h, q.head = some h ∧ (deref q.cells h).val = v ∧
      Rep { q with cells := store q.cells h none, head := (deref q.cells h).next } vs := by
  obtain ⟨cs, hch, hvs, hnd, hlt, htl⟩ := hr
  cases cs with
  | nil => simp at hvs
  | cons c cs =>
    obtain ⟨hh, nx, hc, hrest⟩ := hch
    simp only [List.map_cons, List.cons.injEq] at hvs
    have hc1 : c.1 ∉ cs.map Prod.fst := (List.nodup_cons.mp hnd).1
    have hnd2 : (cs.map Prod.fst).Nodup := (List.nodup_cons.mp hnd).2
    refine ⟨c.1, hh, by simp [deref, hc, hvs.1], cs, ?_, hvs.2, hnd2,
      fun e he => hlt e (List.mem_cons_of_mem _ he), ?_⟩
    · have := Chain.frame (a := c.1) none hc1 hrest
      simpa [deref, hc] using this
    · intro hne
      have := htl (by simp)
      cases cs with
      | nil => exact absurd rfl hne
      | cons d ds => simpa [last_addr] using this

theorem Rep.head_none {q : Queue} (hr : Rep q []) : q.head = none := by
  obtain ⟨cs, hch, hvs, -⟩ := hr
  have : cs = [] := by simpa using hvs
  subst this
  exact hch

theorem rep_of_head_none {q : Queue} (h : q.head = none) : Rep q [] :=
  ⟨[], h, rfl, by simp, by simp, by simp⟩

theorem chain_values_of_chain (cells : Nat → Option node) :
    ∀ (cs : List (Nat × Int)) (p : Option Nat) (fuel : Nat), Chain cells p cs →
      cs.length ≤ fuel → chain_values cells fuel p = cs.map Prod.snd
  | [], p, fuel, h, _ => by
    have hp : p = none := h
    subst hp
    cases fuel <;> rfl
  | c :: cs, p, fuel, h, hf => by
    obtain ⟨hp, nx, hc, hrest⟩ := h
    subst hp
    cases fuel with
    | zero => simp at hf
    | succ fuel =>
      have ih := chain_values_of_chain cells cs nx fuel hrest (by simpa using hf)
      simp [chain_values, deref, hc, ih]

/-- The content of a well-formed queue is the list it represents. -/
theorem Rep.contents_eq {q : Queue} {vs : List Int} (hr : Rep q vs) : contents q = vs := by
  obtain ⟨cs, hch, hvs, hnd, hlt, -⟩ := hr
  have hlen : (cs.map Prod.fst).length ≤ q.brk :=
    length_le_of_nodup_bound hnd (by
      intro x hx
      obtain ⟨c, hc, rfl⟩ := List.mem_map.mp hx
      exact hlt c hc)
  rw [← hvs]
  exact chain_values_of_chain q.cells cs q.head q.brk hch (by simpa using hlen)

theorem push_local_or_exit_rep {lq lq1 : Queue} {ws : List Int} (i : Nat)
    (hr : Rep lq ws) (h : push_local_or_exit lq i = Except.ok lq1) :
    Rep lq1 (ws ++ [Int.ofNat i]) := by
  by_cases hroom : lq.brk < lq.limit
  · have h2 := (push_value_rep (Int.ofNat i) hr hroom).2.1
    have h1 := (push_value_rep (Int.ofNat i) hr hroom).1
    unfold push_local_or_exit at h
    have e : ((i : Nat) : Int) = Int.ofNat i := rfl
    rw [e] at h
    generalize push_value lq (Int.ofNat i) = pr at h h1 h2
    obtain ⟨r, q1⟩ := pr
    simp only at h1 h2
    subst h1
    simp only [Int.reduceNeg, zero_eq_neg, one_ne_zero, if_false, Except.ok.injEq] at h
    exact h ▸ h2
  · unfold push_local_or_exit at h
    rw [push_value_full lq _ hroom] at h
    simp at h

/-- A loop that pushes the selected indices to a local queue appends them in order. -/
theorem local_loop_rep (sel : Nat → Prop) [DecidablePred sel]
    (body : Queue → Nat → Except Fault Queue)
    (hbody : ∀ lq i, body lq i = if sel i then push_local_or_exit lq i else Except.ok lq) :
    ∀ (is : List Nat) (lq lq1 : Queue) (ws : List Int), Rep lq ws →
      for_loop body is lq = Except.ok lq1 →
      Rep lq1 (ws ++ (is.filter (fun i => decide (sel i))).map Int.ofNat)
  | [], lq, lq1, ws, hr, h => by
    simp only [for_loop, Except.ok.injEq] at h
    subst h
    simpa using hr
  | i :: is, lq, lq1, ws, hr, h => by
    simp only [for_loop, hbody] at h
    by_cases hs : sel i
    · simp only [hs, if_true] at h
      cases hp : push_local_or_exit lq i with
      | error f => simp [hp] at h
      | ok lq2 =>
        simp only [hp] at h
        have := local_loop_rep sel body hbody is lq2 lq1 _ (push_local_or_exit_rep i hr hp) h
        simpa [List.filter_cons, hs] using this
    · simp only [hs, if_false] at h
      have := local_loop_rep sel body hbody is lq lq1 ws hr h
      simpa [List.filter_cons, hs] using this

/-! ## The invariant of the second phase -/

theorem sum_map_store (f : Nat → Nat) (w c : Nat) : ∀ l : List Nat, l.Nodup → w ∈ l →
    (l.map (store f w c)).sum + f w = (l.map f).sum + c
  | [], _, h => by simp at h
  | k :: l, hnd, h => by
    have hk : k ∉ l := (List.nodup_cons.mp hnd).1
    by_cases hkw : k = w
    · subst hkw
      have hsame : l.map (store f k c) = l.map f := by
        apply List.map_congr_left
        intro x hx
        have : x ≠ k := fun e => hk (e ▸ hx)
        simp [store, this]
      simp only [List.map_cons, List.sum_cons, store_same, hsame]
      omega
    · have hwl : w ∈ l := by
        rcases List.mem_cons.mp h with e | e
        · exact absurd e.symm hkw
        · exact e
      have ih := sum_map_store f w c l (List.nodup_cons.mp hnd).2 hwl
      simp only [List.map_cons, List.sum_cons, store_other _ _ _ _ hkw]
      omega

theorem pending_store (W : Nat) (B : Nat → List Nat) (w : Nat) (L : List Nat) (x : Nat)
    (hw : w < W) :
    pending W (store B w L) x + (B w).count x = pending W B x + L.count x := by
  have := sum_map_store (fun k => (B k).count x) w (L.count x) (List.range W)
    (List.nodup_range W) (List.mem_range.mpr hw)
  have hfun : (fun k => (store B w L k).count x) =
      store (fun k => (B k).count x) w (L.count x) := by
    funext k
    by_cases hk : k = w <;> simp [store, hk]
  simp only [pending, hfun]
  exact this

theorem count_successors (N : Nat) (m : Nat → Nat → Int) (c j : Nat) :
    (successors N m c).count j = if j < N ∧ m c j = 1 then 1 else 0 := by
  have hnd : (successors N m c).Nodup := (List.nodup_range N).filter _
  by_cases h : j < N ∧ m c j = 1
  · have hmem : j ∈ successors N m c := by
      simp [successors, List.mem_filter, h.1, h.2]
    rw [List.count_eq_one_of_mem hnd hmem]
    simp [h]
  · have hmem : j ∉ successors N m c := by
      simp only [successors, List.mem_filter, List.mem_range, decide_eq_true_eq]
      exact h
    rw [List.count_eq_zero_of_not_mem hmem]
    simp [h]

/-- Taking the first node `j` out of the local queue of thread `w`, decrementing its
counter and pushing it to the global queue when the counter is zero keeps the
invariant. -/
theorem ParInv.flush_one {N W : Nat} {m : Nat → Nat → Int} {dep : Nat → Int}
    {r S : List Nat} {B : Nat → List Nat} (h : ParInv N W m dep r S B) {w j : Nat}
    {rest : List Nat} (hw : w < W) (hB : B w = j :: rest) :
    ParInv N W m (store dep j (dep j - 1)) r (if dep j - 1 = 0 then S ++ [j] else S)
      (store B w rest) := by
  have hjN : j < N := h.local_bound w j (by simp [hB])
  have hpend : ∀ x, pending W (store B w rest) x + (if x = j then 1 else 0) = pending W B x := by
    intro x
    have := pending_store W B w rest x hw
    rw [hB, List.count_cons] at this
    by_cases hx : x = j
    · subst hx
      simp only [beq_self_eq_true, if_true] at this ⊢
      omega
    · have hjx : ¬ j = x := fun e => hx e.symm
      simp only [beq_iff_eq, hjx, hx, if_false] at this ⊢
      omega
  have hjpos : 1 ≤ dep j := by
    have h1 := h.count j hjN
    have h2 := hpend j
    simp only [if_true] at h2
    omega
  have hjnot : j ∉ r ++ S := fun hm => by
    have := h.zero j hm
    omega
  have hS : ∀ x, x ∈ r ++ (if dep j - 1 = 0 then S ++ [j] else S) →
      x ∈ r ++ S ∨ (x = j ∧ dep j - 1 = 0) := by
    intro x hx
    by_cases hd : dep j - 1 = 0
    · simp only [hd, if_true, List.mem_append, List.mem_singleton] at hx ⊢
      tauto
    · simp only [hd, if_false] at hx
      exact Or.inl hx
  refine ⟨?_, ?_, ?_, ?_, h.order, ?_, ?_, ?_⟩
  rotate_right
  · intro k hk
    have hkw : k ≠ w := by omega
    rw [store_other _ _ _ _ hkw]
    exact h.local_idle k hk
  · by_cases hd : dep j - 1 = 0
    · simp only [hd, if_true]
      rw [← List.append_assoc, List.nodup_append]
      refine ⟨h.nodup, by simp, ?_⟩
      intro a ha hb
      simp only [List.mem_singleton] at hb
      exact hjnot (hb ▸ ha)
    · simp only [hd, if_false]
      exact h.nodup
  · intro x hx
    rcases hS x hx with hx | ⟨rfl, -⟩
    · exact h.bound x hx
    · exact hjN
  · intro x hx
    have h1 := h.count x hx
    have h2 := hpend x
    by_cases hxj : x = j
    · subst hxj
      simp only [store_same, if_true] at h2 ⊢
      omega
    · simp only [store_other _ _ _ _ hxj, hxj, if_false] at h2 ⊢
      omega
  · intro x hx
    rcases hS x hx with hx | ⟨rfl, hd⟩
    · have hxj : x ≠ j := fun e => hjnot (e ▸ hx)
      rw [store_other _ _ _ _ hxj]
      exact h.zero x hx
    · rw [store_same]
      exact hd
  · intro k x hx
    by_cases hk : k = w
    · subst hk
      rw [store_same] at hx
      exact h.local_bound k x (by rw [hB]; exact List.mem_cons_of_mem _ hx)
    · rw [store_other _ _ _ _ hk] at hx
      exact h.local_bound k x hx
  · intro k
    by_cases hk : k = w
    · subst hk
      rw [store_same]
      have := h.local_nodup k
      rw [hB] at this
      exact (List.nodup_cons.mp this).2
    · rw [store_other _ _ _ _ hk]
      exact h.local_nodup k

/-- Popping node `c` from the global queue, appending it to the result and putting its
successors in the (empty) local queue of thread `w` keeps the invariant. -/
theorem ParInv.emit {N W : Nat} {m : Nat → Nat → Int} {dep : Nat → Int}
    {r S : List Nat} {B : Nat → List Nat} {c : Nat} (h : ParInv N W m dep r (c :: S) B)
    {w : Nat} (hw : w < W) (hB : B w = []) :
    ParInv N W m dep (r ++ [c]) S (store B w (successors N m c)) := by
  have hcN : c < N := h.bound c (by simp)
  have hcr : c ∉ r := by
    have := h.nodup
    rw [List.nodup_append] at this
    exact fun hm => this.2.2 hm (List.mem_cons_self _ _)
  have hpend : ∀ x, pending W (store B w (successors N m c)) x =
      pending W B x + (if x < N ∧ m c x = 1 then 1 else 0) := by
    intro x
    have := pending_store W B w (successors N m c) x hw
    rw [hB, count_successors] at this
    simpa using this
  refine ⟨by simpa using h.nodup, ?_, ?_, ?_, ?_, ?_, ?_, ?_⟩
  rotate_right
  · intro k hk
    have hkw : k ≠ w := by omega
    rw [store_other _ _ _ _ hkw]
    exact h.local_idle k hk
  · intro x hx
    exact h.bound x (by
      simp only [List.mem_append, List.mem_cons, List.mem_singleton, List.not_mem_nil,
        or_false] at hx ⊢
      tauto)
  · intro x hx
    have h1 := h.count x hx
    have h2 := hpend x
    have h3 := open_deps_snoc N m r c x hcr hcN
    by_cases hm : m c x = 1
    · simp only [hx, hm, and_self, if_true] at h2 h3
      omega
    · simp only [hm, and_false, if_false] at h2 h3
      omega
  · intro x hx
    exact h.zero x (by
      simp only [List.mem_append, List.mem_cons, List.mem_singleton, List.not_mem_nil,
        or_false] at hx ⊢
      tauto)
  · intro a j b hab i hi hm
    rcases List.eq_nil_or_concat b with hb | ⟨b1, x, hb⟩
    · subst hb
      obtain ⟨e1, e2⟩ := List.append_inj' hab rfl
      simp only [List.cons.injEq, and_true] at e2
      subst e1 e2
      have hd := h.zero c (by simp)
      have hc := h.count c hcN
      exact open_deps_eq_zero (by omega) i hi hm
    · subst hb
      have : r ++ [c] = (a ++ j :: b1) ++ [x] := by simpa using hab
      exact h.order a j b1 (List.append_inj' this rfl).1 i hi hm
  · intro k x hx
    by_cases hk : k = w
    · subst hk
      rw [store_same] at hx
      simp only [successors, List.mem_filter, List.mem_range] at hx
      exact hx.1
    · rw [store_other _ _ _ _ hk] at hx
      exact h.local_bound k x hx
  · intro k
    by_cases hk : k = w
    · subst hk
      rw [store_same]
      exact (List.nodup_range N).filter _
    · rw [store_other _ _ _ _ hk]
      exact h.local_nodup k

/-! ## The steps of the second phase -/

theorem toNat_ofNat (j : Nat) : (Int.ofNat j).toNat = j := rfl

theorem store_self {α : Type} (f : Nat → α) (i : Nat) : store f i (f i) = f := by
  funext k
  by_cases hk : k = i <;> simp [store, hk]

theorem store_store {α : Type} (f : Nat → α) (i : Nat) (v v1 : α) :
    store (store f i v) i v1 = store f i v1 := by
  funext k
  by_cases hk : k = i <;> simp [store, hk]

theorem push_value_ok_rep {q q1 : Queue} {ws : List Int} {v r : Int} (hr : Rep q ws)
    (h : push_value q v = (r, q1)) (hne : r ≠ -1) : Rep q1 (ws ++ [v]) := by
  by_cases hroom : q.brk < q.limit
  · have := (push_value_rep v hr hroom).2.1
    rw [h] at this
    exact this
  · rw [push_value_full q v hroom] at h
    simp only [Prod.mk.injEq] at h
    exact absurd h.1.symm hne

theorem Frame.refl (s : ParState) : Frame s s := ⟨rfl, rfl, rfl, rfl, rfl, rfl, rfl, rfl⟩

/-- The locked loop over the local queue of thread `w` keeps the invariant and leaves
the local queue empty. -/
theorem flush_pending_link (w : Nat) (tq : Nat → Queue) (r : List Nat) :
    ∀ (fuel : Nat) (s : ParState) (lq : Queue) (S : List Nat) (B : Nat → List Nat)
      (s1 : ParState) (lq1 : Queue),
      flush_pending fuel s lq = Except.ok (s1, lq1) →
      w < s.threads_count → ParLink s (store tq w lq) r S B →
      ∃ S1, ParLink s1 (store tq w lq1) r S1 (store B w []) ∧ Frame s s1 := by
  intro fuel
  induction fuel with
  | zero =>
    intro s lq S B s1 lq1 h hw hl
    have hrep := hl.locals w
    rw [store_same] at hrep
    cases hB : B w with
    | nil =>
      rw [hB] at hrep
      simp only [flush_pending, Rep.head_none hrep, Except.ok.injEq, Prod.mk.injEq] at h
      obtain ⟨rfl, rfl⟩ := h
      have : store B w [] = B := by rw [← hB, store_self]
      rw [this]
      exact ⟨S, hl, Frame.refl s⟩
    | cons j rest =>
      rw [hB] at hrep
      obtain ⟨a, ha, -, -⟩ := Rep.advance hrep
      simp [flush_pending, ha] at h
  | succ fuel ih =>
    intro s lq S B s1 lq1 h hw hl
    have hrep := hl.locals w
    rw [store_same] at hrep
    cases hB : B w with
    | nil =>
      rw [hB] at hrep
      simp only [flush_pending, Rep.head_none hrep, Except.ok.injEq, Prod.mk.injEq] at h
      obtain ⟨rfl, rfl⟩ := h
      have : store B w [] = B := by rw [← hB, store_self]
      rw [this]
      exact ⟨S, hl, Frame.refl s⟩
    | cons j rest =>
      rw [hB] at hrep
      obtain ⟨a, ha, hval, hadv⟩ := Rep.advance hrep
      have hinv := hl.inv.flush_one hw hB
      have hlocals : ∀ k, Rep (store tq w
            { lq with cells := store lq.cells a none, head := (deref lq.cells a).next } k)
          ((store B w rest k).map Int.ofNat) := by
        intro k
        by_cases hk : k = w
        · subst hk
          simpa [store_same] using hadv
        · have := hl.locals k
          simpa [store_other _ _ _ _ hk] using this
      simp only [flush_pending, ha, hval, toNat_ofNat, store_same] at h
      by_cases hd : s.dependencies_matrix j - 1 = 0
      · rw [if_pos hd] at h
        rw [if_pos hd] at hinv
        cases hp : push_value s.q (Int.ofNat j) with
        | mk rc g1 =>
          simp only [hp] at h
          by_cases hrc : rc = -1
          · rw [if_pos hrc] at h
            exact absurd h (by simp)
          · rw [if_neg hrc] at h
            have hg : Rep g1 ((S ++ [j]).map Int.ofNat) := by
              simpa using push_value_ok_rep hl.shared hp hrc
            obtain ⟨S1, hl1, hf1⟩ := ih _ _ (S ++ [j]) (store B w rest) s1 lq1 h hw
              { index := hl.index
                res := hl.res
                shared := hg
                locals := hlocals
                inv := hinv }
            rw [store_store] at hl1
            exact ⟨S1, hl1, ⟨hf1.1, hf1.2, hf1.3, hf1.4, hf1.5, hf1.6, hf1.7, hf1.8⟩⟩
      · rw [if_neg hd] at h
        rw [if_neg hd] at hinv
        obtain ⟨S1, hl1, hf1⟩ := ih _ _ S (store B w rest) s1 lq1 h hw
          { index := hl.index
            res := hl.res
            shared := hl.shared
            locals := hlocals
            inv := hinv }
        rw [store_store] at hl1
        exact ⟨S1, hl1, ⟨hf1.1, hf1.2, hf1.3, hf1.4, hf1.5, hf1.6, hf1.7, hf1.8⟩⟩

theorem expand_loop_rep (s : ParState) (c : Nat) (lq lq1 : Queue) (ws : List Int)
    (hr : Rep lq ws)
    (h : for_loop (expand_body s (Int.ofNat c)) (List.range s.nodes_count) lq = Except.ok lq1) :
    Rep lq1 (ws ++ (successors s.nodes_count s.matrix c).map Int.ofNat) := by
  have := local_loop_rep (fun i => s.matrix c i = 1) (expand_body s (Int.ofNat c))
    (by
      intro lq i
      by_cases hm : s.matrix c i = 1 <;> simp [expand_body, toNat_ofNat, hm])
    (List.range s.nodes_count) lq lq1 ws hr h
  exact this

/-- One iteration of the loop of `thread_topology_calculation` by thread `w` keeps the
invariant of the second phase. -/
theorem thread_iteration_link (fuel w : Nat) (s s1 : ParState) (r S : List Nat)
    (B : Nat → List Nat) (h : thread_iteration fuel w s = Except.ok s1)
    (hw : w < s.threads_count) (hl : ParLink s s.thread_queue r S B) :
    ∃ r1 S1 B1, ParLink s1 s1.thread_queue r1 S1 B1 ∧ s1.nodes_count = s.nodes_count ∧
      s1.matrix = s.matrix ∧ s1.threads_count = s.threads_count ∧
      s1.draining = s.draining := by
  unfold thread_iteration at h
  cases hf : flush_pending fuel s (s.thread_queue w) with
  | error f => simp [hf] at h
  | ok pr =>
    obtain ⟨s2, lq2⟩ := pr
    simp only [hf] at h
    have hl0 : ParLink s (store s.thread_queue w (s.thread_queue w)) r S B := by
      rw [store_self]
      exact hl
    obtain ⟨S2, hl2, hfr⟩ := flush_pending_link w s.thread_queue r fuel s (s.thread_queue w)
      S B s2 lq2 hf hw hl0
    have hw2 : w < s2.threads_count := by rw [hfr.threads_count]; exact hw
    obtain ⟨p1, p2, -, -⟩ := pop_value_link S2 hl2.shared
    cases S2 with
    | nil =>
      simp only [List.head?_nil, Option.map_none', Option.getD_none] at p1
      simp only [p1, ne_eq, not_true_eq_false, if_false, Except.ok.injEq] at h
      subst h
      refine ⟨r, [], store B w [], ?_, hfr.nodes_count, hfr.matrix, hfr.threads_count,
        hfr.draining⟩
      exact
        { index := hl2.index
          res := hl2.res
          shared := p2
          locals := by
            intro k
            have := hl2.locals k
            simpa [hfr.thread_queue] using this
          inv := hl2.inv }
    | cons c S3 =>
      simp only [List.head?_cons, Option.map_some', Option.getD_some] at p1
      have hne : Int.ofNat c ≠ -1 := by
        intro e
        have : (0 : Int) ≤ Int.ofNat c := Int.ofNat_nonneg c
        omega
      simp only [p1, ne_eq, hne, not_false_eq_true, if_true] at h
      by_cases hidx : s2.topology_matrix_index < s2.nodes_count
      · simp only [hidx, if_true] at h
        split at h
        · exact absurd h (by simp)
        · rename_i lq3 hloop
          simp only [Except.ok.injEq] at h
          subst h
          have hlq2 : Rep lq2 [] := by
            have := hl2.locals w
            simpa [store_same] using this
          have hlq3 := expand_loop_rep _ c lq2 lq3 [] hlq2 hloop
          simp only [List.nil_append] at hlq3
          have hinv := hl2.inv.emit hw2 (store_same _ _ _)
          rw [store_store] at hinv
          refine ⟨r ++ [c], S3, store B w (successors s2.nodes_count s2.matrix c), ?_,
            hfr.nodes_count, hfr.matrix, hfr.threads_count, hfr.draining⟩
          exact
            { index := by simp [hl2.index]
              res := by
                have h1 := result_snoc s2.toState (Int.ofNat c)
                have h2 := hl2.res
                simp only [result] at h1 h2 ⊢
                rw [h1, h2]
                simp
              shared := p2
              locals := by
                intro k
                by_cases hk : k = w
                · subst hk
                  simpa [store_same] using hlq3
                · have := hl2.locals k
                  rw [store_other _ _ _ _ hk] at this
                  simpa [store_other _ _ _ _ hk, hfr.thread_queue] using this
              inv := hinv }
      · simp [hidx] at h

/-! ## The first phase -/

theorem assigned_owner {N W id x : Nat} (hid : id < W) (hx : x ∈ assigned N W id) :
    x < N ∧ owner N W x = id := by
  have hdm := Nat.div_add_mod N W
  have hmul : id * (N / W) + N / W ≤ W * (N / W) := by
    have : (id + 1) * (N / W) ≤ W * (N / W) := Nat.mul_le_mul_right _ hid
    rw [Nat.add_mul, Nat.one_mul] at this
    exact this
  simp only [assigned, List.mem_append, List.mem_range'_1] at hx
  rcases hx with ⟨h1, h2⟩ | hx
  · have hlt : x < W * (N / W) := by omega
    refine ⟨by omega, ?_⟩
    simp only [owner, hlt, if_true]
    apply Nat.div_eq_of_lt_le h1
    rw [Nat.add_mul, Nat.one_mul]
    exact h2
  · by_cases hr : id < N % W
    · simp only [hr, if_true, List.mem_singleton] at hx
      subst hx
      have hge : ¬ (N - id - 1 < W * (N / W)) := by omega
      refine ⟨by omega, ?_⟩
      simp only [owner, hge, if_false]
      omega
    · simp [hr] at hx

theorem assigned_nodup (N W id : Nat) (hid : id < W) : (assigned N W id).Nodup := by
  have hdm := Nat.div_add_mod N W
  have hmul : id * (N / W) + N / W ≤ W * (N / W) := by
    have : (id + 1) * (N / W) ≤ W * (N / W) := Nat.mul_le_mul_right _ hid
    rw [Nat.add_mul, Nat.one_mul] at this
    exact this
  unfold assigned
  rw [List.nodup_append]
  refine ⟨List.nodup_range' _ _, by split <;> simp, ?_⟩
  intro a ha hb
  by_cases hr : id < N % W
  · simp only [hr, if_true, List.mem_singleton] at hb
    simp only [List.mem_range'_1] at ha
    omega
  · simp [hr] at hb

/-- The scanning part of `initialize_queue` leaves in the local queue the assigned nodes
whose counter is zero, in scanning order. -/
theorem scan_assigned_rep (s : ParState) (id : Nat) (lq : Queue)
    (h : scan_assigned s id = Except.ok lq) :
    Rep lq (((assigned s.nodes_count s.threads_count id).filter
      (fun i => decide (s.dependencies_matrix i = 0))).map Int.ofNat) := by
  unfold scan_assigned at h
  simp only at h
  split at h
  · exact absurd h (by simp)
  · rename_i lq1 hloop
    have h1 := local_loop_rep (fun i => s.dependencies_matrix i = 0) (scan_body s)
      (by
        intro lq i
        by_cases hd : s.dependencies_matrix i = 0 <;> simp [scan_body, hd])
      _ _ lq1 [] (rep_empty_queue s.thread_limit) hloop
    simp only [List.nil_append] at h1
    by_cases hr : id < s.nodes_count % s.threads_count
    · simp only [hr, if_true] at h
      by_cases hd : s.dependencies_matrix (s.nodes_count - id - 1) = 0
      · simp only [hd, if_true] at h
        have := push_local_or_exit_rep _ h1 h
        simpa [assigned, hr, List.filter_append, hd] using this
      · simp only [hd, if_false, Except.ok.injEq] at h
        subst h
        simpa [assigned, hr, List.filter_append, hd] using h1
    · simp only [hr, if_false, Except.ok.injEq] at h
      subst h
      simpa [assigned, hr, List.filter_append] using h1

/-- The locked loop of `initialize_queue` appends the local queue to the global queue
and leaves the local queue empty. -/
theorem move_to_global_rep : ∀ (fuel : Nat) (g lq g1 lq1 : Queue) (S : List Int)
    (L : List Int), move_to_global fuel g lq = Except.ok (g1, lq1) → Rep g S → Rep lq L →
    Rep g1 (S ++ L) ∧ Rep lq1 []
  | 0, g, lq, g1, lq1, S, L, h, hg, hlq => by
    cases L with
    | nil =>
      simp only [move_to_global, Rep.head_none hlq, Except.ok.injEq, Prod.mk.injEq] at h
      obtain ⟨rfl, rfl⟩ := h
      exact ⟨by simpa using hg, hlq⟩
    | cons v vs =>
      obtain ⟨a, ha, -, -⟩ := Rep.advance hlq
      simp [move_to_global, ha] at h
  | fuel + 1, g, lq, g1, lq1, S, L, h, hg, hlq => by
    cases L with
    | nil =>
      simp only [move_to_global, Rep.head_none hlq, Except.ok.injEq, Prod.mk.injEq] at h
      obtain ⟨rfl, rfl⟩ := h
      exact ⟨by simpa using hg, hlq⟩
    | cons v vs =>
      obtain ⟨a, ha, hval, hadv⟩ := Rep.advance hlq
      simp only [move_to_global, ha, hval] at h
      cases hp : push_value g v with
      | mk rc g2 =>
        simp only [hp] at h
        by_cases hrc : rc = -1
        · rw [if_pos hrc] at h
          exact absurd h (by simp)
        · rw [if_neg hrc] at h
          have := move_to_global_rep fuel g2 _ g1 lq1 (S ++ [v]) vs h
            (push_value_ok_rep hg hp hrc) hadv
          simpa using this

/-! ## Every schedule keeps the invariant -/

theorem pending_nil (W j : Nat) : pending W (fun _ => []) j = 0 := by
  simp [pending]

theorem pending_pos {W : Nat} {B : Nat → List Nat} {w x : Nat} (hw : w < W) (hx : x ∈ B w) :
    1 ≤ pending W B x := by
  have h1 := pending_store W B w [] x hw
  have h2 : 0 < (B w).count x := List.count_pos_iff.mpr hx
  simp only [List.count_nil] at h1
  omega

theorem scan_good (s0 s s1 : ParState) (id : Nat) (lq : Queue) (hg : ParGood s0 s)
    (hid : id < s.threads_count) (hdr : s.draining = false) (hpc : s.pc id = 0)
    (hscan : scan_assigned s id = Except.ok lq)
    (h1 : s1 = { s with thread_queue := store s.thread_queue id lq, pc := store s.pc id 1 }) :
    ParGood s0 s1 := by
  obtain ⟨hn, hm, ht, hmono, hph⟩ := hg
  rcases hph with ⟨-, S, L, hi⟩ | ⟨hd, -⟩
  swap
  · rw [hdr] at hd
    exact absurd hd (by simp)
  subst h1
  refine ⟨hn, hm, ht, hmono, Or.inl ⟨hdr, S,
    store L id ((assigned s.nodes_count s.threads_count id).filter
      (fun i => decide (s.dependencies_matrix i = 0))), ?_⟩⟩
  refine ⟨hi.consistent, hi.shared, ?_, hi.nodup, ?_, ?_, ?_⟩
  · intro k
    by_cases hk : k = id
    · subst hk
      simpa [store_same] using scan_assigned_rep s k lq hscan
    · simpa [store_other _ _ _ _ hk] using hi.locals k
  · intro x hx
    obtain ⟨a, b, c⟩ := hi.shared_done x hx
    refine ⟨a, b, ?_⟩
    have hne : owner s.nodes_count s.threads_count x ≠ id := by
      intro e
      rw [e, hpc] at c
      exact absurd c (by decide)
    simpa [store_other _ _ _ _ hne] using c
  · intro k
    by_cases hk : k = id
    · subst hk
      rw [store_same]
      exact (assigned_nodup _ _ _ hid).filter _
    · rw [store_other _ _ _ _ hk]
      exact hi.local_nodup k
  · intro k x hx
    by_cases hk : k = id
    · subst hk
      rw [store_same] at hx
      simp only [List.mem_filter, decide_eq_true_eq] at hx
      obtain ⟨a, b⟩ := assigned_owner hid hx.1
      exact ⟨a, hx.2, b, by simp [store_same]⟩
    · rw [store_other _ _ _ _ hk] at hx
      obtain ⟨a, b, c, d⟩ := hi.local_own k x hx
      exact ⟨a, b, c, by simpa [store_other _ _ _ _ hk] using d⟩

theorem publish_good (fuel : Nat) (s0 s s1 : ParState) (id : Nat) (g1 lq1 : Queue)
    (hg : ParGood s0 s) (hdr : s.draining = false) (hpc : s.pc id = 1)
    (hmove : move_to_global fuel s.q (s.thread_queue id) = Except.ok (g1, lq1))
    (h1 : s1 = { s with
      q := g1, thread_queue := store s.thread_queue id lq1, pc := store s.pc id 2 }) :
    ParGood s0 s1 := by
  obtain ⟨hn, hm, ht, hmono, hph⟩ := hg
  rcases hph with ⟨-, S, L, hi⟩ | ⟨hd, -⟩
  swap
  · rw [hdr] at hd
    exact absurd hd (by simp)
  subst h1
  obtain ⟨r1, r2⟩ := move_to_global_rep fuel s.q (s.thread_queue id) g1 lq1 _ _ hmove
    hi.shared (hi.locals id)
  refine ⟨hn, hm, ht, hmono, Or.inl ⟨hdr, S ++ L id, store L id [], ?_⟩⟩
  refine ⟨hi.consistent, by simpa using r1, ?_, ?_, ?_, ?_, ?_⟩
  · intro k
    by_cases hk : k = id
    · subst hk
      simpa [store_same] using r2
    · simpa [store_other _ _ _ _ hk] using hi.locals k
  · rw [List.nodup_append]
    refine ⟨hi.nodup, hi.local_nodup id, ?_⟩
    intro x hx hy
    obtain ⟨-, -, c⟩ := hi.shared_done x hx
    obtain ⟨-, -, e, -⟩ := hi.local_own id x hy
    rw [e, hpc] at c
    exact absurd c (by decide)
  · intro x hx
    rcases List.mem_append.mp hx with hx | hx
    · obtain ⟨a, b, c⟩ := hi.shared_done x hx
      refine ⟨a, b, ?_⟩
      have hne : owner s.nodes_count s.threads_count x ≠ id := by
        intro e
        rw [e, hpc] at c
        exact absurd c (by decide)
      simpa [store_other _ _ _ _ hne] using c
    · obtain ⟨a, b, e, -⟩ := hi.local_own id x hx
      exact ⟨a, b, by simp [e, store_same]⟩
  · intro k
    by_cases hk : k = id
    · subst hk
      rw [store_same]
      exact List.nodup_nil
    · rw [store_other _ _ _ _ hk]
      exact hi.local_nodup k
  · intro k x hx
    by_cases hk : k = id
    · subst hk
      rw [store_same] at hx
      exact absurd hx (List.not_mem_nil _)
    · rw [store_other _ _ _ _ hk] at hx
      obtain ⟨a, b, c, d⟩ := hi.local_own k x hx
      exact ⟨a, b, c, by simpa [store_other _ _ _ _ hk] using d⟩

theorem start_draining_good (s0 s s1 : ParState) (hg : ParGood s0 s)
    (hdr : s.draining = false)
    (h1 : s1 = { s with
      topology_matrix_index := 0
      thread_queue := fun _ => empty_queue s.thread_limit
      draining := true }) :
    ParGood s0 s1 := by
  obtain ⟨hn, hm, ht, -, hph⟩ := hg
  rcases hph with ⟨-, S, L, hi⟩ | ⟨hd, -⟩
  swap
  · rw [hdr] at hd
    exact absurd hd (by simp)
  subst h1
  refine ⟨hn, hm, ht, fun _ => rfl, Or.inr ⟨rfl, [], S, fun _ => [], ?_⟩⟩
  refine ⟨rfl, by simp [result], hi.shared, fun _ => rep_empty_queue _, ?_⟩
  refine ⟨by simpa using hi.nodup, ?_, ?_, ?_, ?_, ?_, ?_, ?_⟩
  · intro x hx
    exact (hi.shared_done x (by simpa using hx)).1
  · intro j hj
    have := hi.consistent j hj
    rw [pending_nil, open_deps_nil]
    simpa using this
  · intro x hx
    exact (hi.shared_done x (by simpa using hx)).2.1
  · intro a j b hab
    simp at hab
  · intro w x hx
    exact absurd hx (List.not_mem_nil _)
  · intro w
    exact List.nodup_nil
  · intro w _
    rfl

/-- Every enabled action keeps the invariant of the run. -/
theorem par_step_good (fuel : Nat) (s0 s s1 : ParState) (a : Action)
    (h : par_step fuel s a = Except.ok s1) (hg : ParGood s0 s) : ParGood s0 s1 := by
  cases a with
  | scan id =>
    simp only [par_step] at h
    split at h
    · rename_i hen
      split at h
      · exact absurd h (by simp)
      · rename_i lq hscan
        simp only [Except.ok.injEq] at h
        exact scan_good s0 s s1 id lq hg hen.1 hen.2.1 hen.2.2 hscan h.symm
    · exact absurd h (by simp)
  | publish id =>
    simp only [par_step] at h
    split at h
    · rename_i hen
      split at h
      · exact absurd h (by simp)
      · rename_i g1 lq1 hmove
        simp only [Except.ok.injEq] at h
        exact publish_good fuel s0 s s1 id g1 lq1 hg hen.2.1 hen.2.2 hmove h.symm
    · exact absurd h (by simp)
  | start_draining =>
    simp only [par_step] at h
    split at h
    · rename_i hen
      simp only [Except.ok.injEq] at h
      exact start_draining_good s0 s s1 hg hen.1 h.symm
    · exact absurd h (by simp)
  | iterate id =>
    simp only [par_step] at h
    split at h
    · rename_i hen
      obtain ⟨hn, hm, ht, -, hph⟩ := hg
      rcases hph with ⟨hd, -⟩ | ⟨-, r, S, B, hl⟩
      · rw [hen.2] at hd
        exact absurd hd (by simp)
      · obtain ⟨r1, S1, B1, hl1, e1, e2, e3, e4⟩ :=
          thread_iteration_link fuel id s s1 r S B h hen.1 hl
        exact ⟨e1.trans hn, e2.trans hm, e3.trans ht, fun _ => e4.trans hen.2,
          Or.inr ⟨e4.trans hen.2, r1, S1, B1, hl1⟩⟩
    · exact absurd h (by simp)

/-- Every run of the parallel sorter keeps the invariant. -/
theorem par_run_good (fuel : Nat) (s0 : ParState) :
    ∀ (schedule : List Action) (s s1 : ParState), par_run fuel schedule s = Except.ok s1 →
      ParGood s0 s → ParGood s0 s1
  | [], s, s1, h, hg => by
    simp only [par_run, Except.ok.injEq] at h
    exact h ▸ hg
  | a :: schedule, s, s1, h, hg => by
    simp only [par_run] at h
    split at h
    · exact absurd h (by simp)
    · rename_i s2 hstep
      exact par_run_good fuel s0 schedule s2 s1 h (par_step_good fuel s0 s s2 a hstep hg)

/-! ## The parallel sorter -/

theorem seeded_good (s0 : ParState) (h : Seeded s0) : ParGood s0 s0 := by
  obtain ⟨hdr, hidx, hcons, hloc, S, hrep, hnd, hS⟩ := h
  refine ⟨rfl, rfl, rfl, fun h => h, Or.inr ⟨hdr, [], S, fun _ => [], ?_⟩⟩
  refine ⟨hidx, by simp [result, hidx], hrep, fun w => rep_of_head_none (hloc w), ?_⟩
  refine ⟨by simpa using hnd, ?_, ?_, ?_, ?_, ?_, ?_, ?_⟩
  · intro x hx
    exact ((hS x).mp (by simpa using hx)).1
  · intro j hj
    have := hcons j hj
    rw [pending_nil, open_deps_nil]
    simpa using this
  · intro x hx
    exact ((hS x).mp (by simpa using hx)).2
  · intro a j b hab
    simp at hab
  · intro w x hx
    exact absurd hx (List.not_mem_nil _)
  · intro w
    exact List.nodup_nil
  · intro w _
    rfl

theorem initial_good (s : State) (W tl : Nat) (hhead : s.q.head = none)
    (hcons : Consistent s) : ParGood (par_initial s W tl) (par_initial s W tl) := by
  refine ⟨rfl, rfl, rfl, fun h => h, Or.inl ⟨rfl, [], fun _ => [], ?_⟩⟩
  refine ⟨hcons, rep_of_head_none hhead, fun _ => rep_empty_queue _, List.nodup_nil, ?_,
    fun _ => List.nodup_nil, ?_⟩
  · intro x hx
    exact absurd hx (List.not_mem_nil _)
  · intro w x hx
    exact absurd hx (List.not_mem_nil _)

/-- In a list of distinct nodes, a node that stands before `j` has a smaller position
than `j`. -/
theorem position_lt_of_before {r a b : List Nat} {i j : Nat} (hnd : r.Nodup)
    (hab : r = a ++ j :: b) (hia : i ∈ a) :
    position (r.map Int.ofNat) i < position (r.map Int.ofNat) j ∧
      position (r.map Int.ofNat) j < (r.map Int.ofNat).length := by
  have hja : j ∉ a := by
    rw [hab, List.nodup_append] at hnd
    exact fun hm => hnd.2.2 hm (List.mem_cons_self _ _)
  have hl : r.map Int.ofNat = a.map Int.ofNat ++ Int.ofNat j :: b.map Int.ofNat := by
    rw [hab]
    simp
  have h1 : position (r.map Int.ofNat) i < a.length := by
    show List.indexOf (Int.ofNat i) (r.map Int.ofNat) < a.length
    rw [hl, List.indexOf_append_of_mem (mem_map_ofNat.mpr hia)]
    simpa using List.indexOf_lt_length.mpr (mem_map_ofNat.mpr hia)
  have h2 : position (r.map Int.ofNat) j = a.length := by
    show List.indexOf (Int.ofNat j) (r.map Int.ofNat) = a.length
    rw [hl, List.indexOf_append_of_not_mem (fun h => hja (mem_map_ofNat.mp h)),
      List.indexOf_cons_self]
    simp
  refine ⟨by omega, ?_⟩
  rw [h2, hl]
  simp

/-- C3. Parallel sorter, validity under every interleaving: from a seeded start of the
second phase, after every schedule of thread iterations (any number of threads, any
fuel) the result holds no node twice, holds node indices only, and every predecessor of
an emitted node stands in the result at a smaller position; so for an acyclic graph a
state with `topology_matrix_index = nodes_count` holds a permutation of the node
indices that is order-respecting. -/
theorem parallel_validity (s0 : ParState) (hseed : Seeded s0) (fuel : Nat)
    (schedule : List Action) (s : ParState)
    (hrun : par_run fuel schedule s0 = Except.ok s) :
    (result s.toState).Nodup ∧
    (∀ v ∈ result s.toState, ∃ j, j < s0.nodes_count ∧ v = Int.ofNat j) ∧
    (∀ i j, Edge s0.toState i j → Int.ofNat j ∈ result s.toState →
      position (result s.toState) i < position (result s.toState) j) ∧
    (Acyclic s0.toState → s.topology_matrix_index = s0.nodes_count →
      (result s.toState).Perm ((List.range s0.nodes_count).map Int.ofNat) ∧
      order_respecting s0.toState (result s.toState)) := by
  obtain ⟨hn, hm, -, hmono, hph⟩ :=
    par_run_good fuel s0 schedule s0 s hrun (seeded_good s0 hseed)
  have hdr : s.draining = true := hmono hseed.1
  rcases hph with ⟨hd, -⟩ | ⟨-, r, S, B, hl⟩
  · rw [hdr] at hd
    exact absurd hd (by simp)
  have hinv := hl.inv
  rw [hn, hm] at hinv
  have hnd : r.Nodup := (List.nodup_append.mp hinv.nodup).1
  have hbound : ∀ x ∈ r, x < s0.nodes_count :=
    fun x hx => hinv.bound x (List.mem_append_left _ hx)
  rw [hl.res]
  refine ⟨hnd.map (fun a b h => Int.ofNat.inj h), ?_, ?_, ?_⟩
  · intro v hv
    obtain ⟨j, hj, rfl⟩ := List.mem_map.mp hv
    exact ⟨j, hbound j hj, rfl⟩
  · intro i j he hj
    obtain ⟨a, b, hab⟩ := List.append_of_mem (mem_map_ofNat.mp hj)
    exact (position_lt_of_before hnd hab (hinv.order a j b hab i he.1 he.2.2)).1
  · intro hacyc hfull
    have hlen : s0.nodes_count ≤ r.length := by
      rw [← hl.index, hfull]
    have hsub : r ⊆ List.range s0.nodes_count :=
      fun x hx => List.mem_range.mpr (hbound x hx)
    have hperm : r.Perm (List.range s0.nodes_count) :=
      (List.subperm_of_subset hnd hsub).perm_of_length_le (by simpa using hlen)
    refine ⟨hperm.map _, ?_⟩
    intro i hi j hj hmat
    have hjr : j ∈ r := hperm.mem_iff.mpr (List.mem_range.mpr hj)
    obtain ⟨a, b, hab⟩ := List.append_of_mem hjr
    exact position_lt_of_before hnd hab (hinv.order a j b hab i hi hmat)

theorem observe_some {r : Except Fault ParState}
    {x : List Int × List Int × List Int × List Int} (h : observe r = some x) :
    ∃ s, r = Except.ok s ∧ x = (result s.toState, contents s.q, contents (s.thread_queue 0),
      contents (s.thread_queue 1)) := by
  cases r with
  | error f => simp [observe] at h
  | ok s =>
    simp only [observe, Option.some.injEq] at h
    exact ⟨s, rfl, h.symm⟩

theorem diamond_seeded_ok : Seeded diamond_seeded := by
  refine ⟨rfl, rfl, diamond_consistent, fun _ => rfl, [0], ?_, by simp, ?_⟩
  · have := (push_value_rep 0 (rep_empty_queue 4) (by decide)).2.1
    simpa using this
  · intro j
    constructor
    · intro hj
      simp only [List.mem_singleton] at hj
      subst hj
      exact ⟨by decide, by decide⟩
    · rintro ⟨hj, hd⟩
      have hj4 : j < 4 := hj
      have : ∀ k, k < 4 → diamond_seeded.dependencies_matrix k = 0 → k = 0 := by decide
      simp [this j hj4 hd]

/-- Witness for C3: the diamond graph with two threads, run to the end. -/
theorem parallel_validity_witness :
    Seeded diamond_seeded ∧
    ∃ s, par_run 5 drain_schedule diamond_seeded = Except.ok s ∧
      (result s.toState).Nodup ∧
      (∀ v ∈ result s.toState, ∃ j, j < diamond_seeded.nodes_count ∧ v = Int.ofNat j) ∧
      (∀ i j, Edge diamond_seeded.toState i j → Int.ofNat j ∈ result s.toState →
        position (result s.toState) i < position (result s.toState) j) ∧
      (Acyclic diamond_seeded.toState →
        s.topology_matrix_index = diamond_seeded.nodes_count →
        (result s.toState).Perm ((List.range diamond_seeded.nodes_count).map Int.ofNat) ∧
        order_respecting diamond_seeded.toState (result s.toState)) := by
  have hobs : observe (par_run 5 drain_schedule diamond_seeded) =
      some ([0, 1, 2, 3], [], [], []) := by decide
  obtain ⟨s, hs, -⟩ := observe_some hobs
  exact ⟨diamond_seeded_ok, s, hs,
    parallel_validity diamond_seeded diamond_seeded_ok 5 drain_schedule s hs⟩

/-- C9, as stated, fails in the second phase: on the diamond graph with two threads there
is a run after which node 3 waits in the local queue of thread 0 and in the local queue
of thread 1 at the same time. -/
theorem parallel_one_queue_counterexample :
    ∃ s, par_run 5 two_thread_schedule (par_initial diamond 2 4) = Except.ok s ∧
      (3 : Int) ∈ contents (s.thread_queue 0) ∧ (3 : Int) ∈ contents (s.thread_queue 1) := by
  have hobs : observe (par_run 5 two_thread_schedule (par_initial diamond 2 4)) =
      some ([0, 1, 2], [], [3], [3]) := by decide
  obtain ⟨s, hs, hx⟩ := observe_some hobs
  simp only [Prod.mk.injEq] at hx
  refine ⟨s, hs, ?_, ?_⟩
  · rw [← hx.2.2.1]
    simp
  · rw [← hx.2.2.2]
    simp

/-- C9, amended. Parallel sorter, queues: in every state of a parallel run (first and
second phase, any number of threads, any schedule) no node index occurs twice in the
global queue or twice in the local queue of one thread, no node index occurs both in the
global queue and in a local queue, and during the first phase no node index occurs in the
local queues of two threads. -/
theorem parallel_queues (s0 : State) (hhead : s0.q.head = none) (hcons : Consistent s0)
    (W tl fuel : Nat) (schedule : List Action) (s : ParState)
    (hrun : par_run fuel schedule (par_initial s0 W tl) = Except.ok s) :
    (contents s.q).Nodup ∧ (∀ w, (contents (s.thread_queue w)).Nodup) ∧
    (∀ w v, v ∈ contents (s.thread_queue w) → v ∉ contents s.q) ∧
    (s.draining = false → ∀ w w1, w ≠ w1 →
      ∀ v, v ∈ contents (s.thread_queue w) → v ∉ contents (s.thread_queue w1)) := by
  obtain ⟨-, -, -, -, hph⟩ := par_run_good fuel _ schedule _ s hrun
    (initial_good s0 W tl hhead hcons)
  have hinj : Function.Injective Int.ofNat := fun a b h => Int.ofNat.inj h
  rcases hph with ⟨hdr, S, L, hi⟩ | ⟨hdr, r, S, B, hl⟩
  · rw [hi.shared.contents_eq]
    refine ⟨hi.nodup.map hinj, ?_, ?_, ?_⟩
    · intro w
      rw [(hi.locals w).contents_eq]
      exact (hi.local_nodup w).map hinj
    · intro w v hv hvS
      rw [(hi.locals w).contents_eq] at hv
      obtain ⟨x, hx, rfl⟩ := List.mem_map.mp hv
      obtain ⟨-, -, e, hpc⟩ := hi.local_own w x hx
      obtain ⟨-, -, c⟩ := hi.shared_done x (mem_map_ofNat.mp hvS)
      rw [e, hpc] at c
      exact absurd c (by decide)
    · intro _ w w1 hne v hv hv1
      rw [(hi.locals w).contents_eq] at hv
      rw [(hi.locals w1).contents_eq] at hv1
      obtain ⟨x, hx, rfl⟩ := List.mem_map.mp hv
      obtain ⟨-, -, e, -⟩ := hi.local_own w x hx
      obtain ⟨-, -, e1, -⟩ := hi.local_own w1 x (mem_map_ofNat.mp hv1)
      exact hne (e.symm.trans e1)
  · rw [hl.shared.contents_eq]
    have hinv := hl.inv
    refine ⟨((List.nodup_append.mp hinv.nodup).2.1).map hinj, ?_, ?_, ?_⟩
    · intro w
      rw [(hl.locals w).contents_eq]
      exact (hinv.local_nodup w).map hinj
    · intro w v hv hvS
      rw [(hl.locals w).contents_eq] at hv
      obtain ⟨x, hx, rfl⟩ := List.mem_map.mp hv
      have hxS : x ∈ S := mem_map_ofNat.mp hvS
      have hw : w < s.threads_count := by
        by_contra hge
        have := hinv.local_idle w (by omega)
        rw [this] at hx
        exact absurd hx (List.not_mem_nil _)
      have hz := hinv.zero x (List.mem_append_right _ hxS)
      have hc := hinv.count x (hinv.bound x (List.mem_append_right _ hxS))
      have hp := pending_pos hw hx
      omega
    · intro hf
      rw [hdr] at hf
      exact absurd hf (by simp)

/-- Witness for C9 as amended: the diamond graph with two threads. -/
theorem parallel_queues_witness :
    diamond.q.head = none ∧ Consistent diamond ∧
    ∃ s, par_run 5 two_thread_schedule (par_initial diamond 2 4) = Except.ok s ∧
      (contents s.q).Nodup ∧ (∀ w, (contents (s.thread_queue w)).Nodup) ∧
      (∀ w v, v ∈ contents (s.thread_queue w) → v ∉ contents s.q) ∧
      (s.draining = false → ∀ w w1, w ≠ w1 →
        ∀ v, v ∈ contents (s.thread_queue w) → v ∉ contents (s.thread_queue w1)) := by
  have hobs : observe (par_run 5 two_thread_schedule (par_initial diamond 2 4)) =
      some ([0, 1, 2], [], [3], [3]) := by decide
  obtain ⟨s, hs, -⟩ := observe_some hobs
  exact ⟨rfl, diamond_consistent, s, hs,
    parallel_queues diamond rfl diamond_consistent 2 4 5 two_thread_schedule s hs⟩

/-! ## Boundary scenarios of the serial sorter -/

theorem singleton_ready : Ready singleton_graph := ⟨rfl, rfl, by decide, rfl⟩

theorem singleton_consistent : Consistent singleton_graph := by
  unfold Consistent in_degree
  decide

theorem singleton_acyclic : Acyclic singleton_graph :=
  acyclic_of_increasing singleton_graph (by decide)

/-- C11. Singleton graph: for one node and no edge the serial sorter ends with the result
sequence `[0]` and result length 1, for every fuel of at least 1. -/
theorem singleton_scenario :
    summary_of (calculate_topology 1 singleton_graph) = some ([0], 1, [0], []) ∧
    ∀ fuel, 1 ≤ fuel →
      ∃ s1, calculate_topology fuel singleton_graph = Except.ok s1 ∧ result s1 = [0] ∧
        s1.topology_matrix_index = 1 := by
  refine ⟨by decide, ?_⟩
  intro fuel hfuel
  obtain ⟨s1, r, e, hidx, hres, -, hk⟩ :=
    serial_run fuel singleton_graph singleton_ready singleton_consistent hfuel
  have hp : r.Perm [0] := hk.perm_range singleton_acyclic
  have hr : r = [0] := List.perm_singleton.mp hp
  refine ⟨s1, e, by rw [hres, hr]; rfl, by rw [hidx, hr]; rfl⟩

/-- C12. Cycle boundary: for 3 nodes and the edges 0→1, 1→2, 2→0 no node has counter
zero, the seeding scan pushes nothing and leaves the queue empty, and
`calculate_topology` ends with `topology_matrix_index = 0` and an empty result, without
running the body of its `while` loop (fuel 0 is enough). -/
theorem triangle_scenario :
    (∀ j, j < triangle.nodes_count → triangle.dependencies_matrix j ≠ 0) ∧
    summary_of (for_loop seed_body (List.range triangle.nodes_count)
      { triangle with topology_matrix_index := 0 }) = some ([], 0, [], []) ∧
    summary_of (calculate_topology 0 triangle) = some ([], 0, [], []) ∧
    ∀ fuel, summary_of (calculate_topology fuel triangle) = some ([], 0, [], []) := by
  refine ⟨by decide, by decide, by decide, ?_⟩
  intro fuel
  cases fuel with
  | zero => decide
  | succ fuel => rfl

/-! ## The drain loop, iteration by iteration -/

theorem drain_succ (fuel : Nat) (s : State) (cur : Int) :
    drain (fuel + 1) s cur =
      if cur = -1 then Except.ok s
      else
        match drain_step s cur with
        | Except.error f => Except.error f
        | Except.ok (s1, c1) => drain fuel s1 c1 := by
  by_cases hc : cur = -1
  · simp [drain, hc]
  · simp only [drain, hc, if_false, drain_step]
    cases for_loop (drain_body cur) (List.range s.nodes_count) s with
    | error f => rfl
    | ok s1 =>
      simp only
      by_cases hi : s1.topology_matrix_index < s1.nodes_count
      · simp only [hi, if_true]
      · simp only [hi, if_false]

theorem calculate_topology_entry (fuel : Nat) (s : State) :
    calculate_topology fuel s =
      match drain_entry s with
      | Except.error f => Except.error f
      | Except.ok (s1, c1) => drain fuel s1 c1 := by
  simp only [calculate_topology, drain_entry]
  cases for_loop seed_body (List.range s.nodes_count) { s with topology_matrix_index := 0 } with
  | error f => rfl
  | ok s1 => rfl

theorem kahn_step_nil (N : Nat) (m : Nat → Nat → Int) (k : KState) (h : k.P = []) :
    kahn_step N m k = k := by
  simp [kahn_step, h]

theorem kahn_iter_nil (N : Nat) (m : Nat → Nat → Int) :
    ∀ (n : Nat) (k : KState), k.P = [] → kahn_iter N m n k = k
  | 0, _, _ => rfl
  | n + 1, k, h => by
    rw [kahn_iter, kahn_step_nil N m k h]
    exact kahn_iter_nil N m n k h

theorem kahn_iter_succ (N : Nat) (m : Nat → Nat → Int) :
    ∀ (n : Nat) (k : KState), kahn_iter N m (n + 1) k = kahn_step N m (kahn_iter N m n k)
  | 0, _ => rfl
  | n + 1, k => by
    rw [kahn_iter, kahn_iter_succ N m n (kahn_step N m k)]
    rfl

theorem kahn_iter_add (N : Nat) (m : Nat → Nat → Int) (a : Nat) :
    ∀ (b : Nat) (k : KState), kahn_iter N m (a + b) k = kahn_iter N m b (kahn_iter N m a k)
  | 0, _ => rfl
  | b + 1, k => by
    rw [← Nat.add_assoc, kahn_iter_succ, kahn_iter_succ, kahn_iter_add N m a b k]

theorem Once.start (N : Nat) (dep : Nat → Int) : Once N (kahn_init N dep) where
  nodup := by simpa [kahn_init] using (List.nodup_range N).filter _
  bound := by
    intro x hx
    simp only [kahn_init, List.nil_append, List.mem_filter, List.mem_range] at hx
    exact hx.1
  pushed := by
    intro j hj
    simp only [kahn_init, List.nil_append, List.mem_filter, decide_eq_true_eq] at hj
    simp only [kahn_init]
    omega
  unpushed := by
    intro j hj hn
    simp only [kahn_init, List.nil_append, List.mem_filter, List.mem_range,
      decide_eq_true_eq, not_and] at hn
    exact hn hj

/-- One iteration keeps the invariant `Once`. -/
theorem Once.next {N : Nat} (m : Nat → Nat → Int) {k : KState} (h : Once N k) :
    Once N (kahn_step N m k) := by
  cases hP : k.P with
  | nil => rw [kahn_step_nil N m k hP]; exact h
  | cons c Q =>
    have hnd := h.nodup
    have hb := h.bound
    have hpu := h.pushed
    have hun := h.unpushed
    rw [hP] at hnd hb hpu hun
    have hdec : ∀ j, j < N →
        dec_deps m k.dep c (List.range N) j = k.dep j - (if m c j = 1 then 1 else 0) := by
      intro j hj
      by_cases hm : m c j = 1 <;> simp [dec_deps, hj, hm]
    have hdec2 : ∀ j, ¬ j < N → dec_deps m k.dep c (List.range N) j = k.dep j := by
      intro j hj
      simp [dec_deps, hj]
    have hrel : ∀ j, j ∈ released m k.dep c (List.range N) ↔
        j < N ∧ m c j = 1 ∧ k.dep j = 1 := by
      intro j
      simp only [released, List.mem_filter, List.mem_range, decide_eq_true_eq]
      constructor
      · rintro ⟨a, b, d⟩
        exact ⟨a, b, by omega⟩
      · rintro ⟨a, b, d⟩
        exact ⟨a, b, by omega⟩
    have hnew : ∀ j, j ∈ released m k.dep c (List.range N) → j ∉ k.r ++ c :: Q := by
      intro j hj hmem
      obtain ⟨-, -, d⟩ := (hrel j).mp hj
      have := hpu j hmem
      omega
    have hmem : ∀ j, j ∈ k.r ++ [c] ++ (Q ++ released m k.dep c (List.range N)) ↔
        j ∈ k.r ++ c :: Q ∨ j ∈ released m k.dep c (List.range N) := by
      intro j
      simp only [List.mem_append, List.mem_cons, List.mem_singleton, List.not_mem_nil,
        or_false]
      tauto
    simp only [kahn_step, hP]
    refine ⟨?_, ?_, ?_, ?_⟩
    · have h2 : (released m k.dep c (List.range N)).Nodup := (List.nodup_range N).filter _
      have h3 : ((k.r ++ c :: Q) ++ released m k.dep c (List.range N)).Nodup := by
        rw [List.nodup_append]
        exact ⟨hnd, h2, fun x hx hy => hnew x hy hx⟩
      simpa using h3
    · intro x hx
      rcases (hmem x).mp hx with hx | hx
      · exact hb x hx
      · exact ((hrel x).mp hx).1
    · intro j hj
      show dec_deps m k.dep c (List.range N) j ≤ 0
      rcases (hmem j).mp hj with hj | hj
      · have h1 := hpu j hj
        have h2 := hdec j (hb j hj)
        split at h2 <;> omega
      · obtain ⟨a, b, d⟩ := (hrel j).mp hj
        have h2 := hdec j a
        simp only [b, if_true] at h2
        omega
    · intro j hj hn
      show dec_deps m k.dep c (List.range N) j ≠ 0
      rw [hmem] at hn
      have h1 : j ∉ k.r ++ c :: Q := fun e => hn (Or.inl e)
      have h2 : j ∉ released m k.dep c (List.range N) := fun e => hn (Or.inr e)
      have h3 := hun j hj h1
      have h4 := hdec j hj
      by_cases hm : m c j = 1
      · simp only [hm, if_true] at h4
        intro e
        exact h2 ((hrel j).mpr ⟨hj, hm, by omega⟩)
      · simp only [hm, if_false] at h4
        omega

theorem Once.many {N : Nat} (m : Nat → Nat → Int) :
    ∀ (n : Nat) {k : KState}, Once N k → Once N (kahn_iter N m n k)
  | 0, _, h => h
  | n + 1, _, h => Once.many m n (h.next m)

/-- One run of the loop body from a state that stores the lists `k`, with a node pending,
succeeds and leads to a state that stores `kahn_step k`. -/
theorem drain_step_link {tm0 : Nat → Int} {s : State} {cur : Int} {k : KState}
    (hl : Link tm0 s cur k) (ho : Once s.nodes_count k) (hP : k.P ≠ []) :
    ∃ s1 c1, drain_step s cur = Except.ok (s1, c1) ∧ s1.nodes_count = s.nodes_count ∧
      s1.matrix = s.matrix ∧ Link tm0 s1 c1 (kahn_step s.nodes_count s.matrix k) := by
  obtain ⟨dep, r, P⟩ := k
  cases P with
  | nil => exact absurd rfl hP
  | cons c Q =>
    have hdep : s.dependencies_matrix = dep := hl.dep
    have hc : cur = Int.ofNat c := by simpa using hl.cur
    have hlen := length_le_of_nodup_bound ho.nodup ho.bound
    have ho2 := ho.next s.matrix
    simp only [kahn_step] at ho2
    have hlen2 := length_le_of_nodup_bound ho2.nodup ho2.bound
    simp only [List.length_append, List.length_cons, List.length_nil] at hlen hlen2
    have hroom := hl.room
    simp only [List.length_append, List.length_cons] at hroom
    obtain ⟨q1, e1, r1, b1, l1⟩ := drain_loop_spec c (List.range s.nodes_count) s
      (Q.map Int.ofNat) (List.nodup_range _) (by simpa using hl.queue)
      (by rw [hdep]; omega)
    rw [hdep] at e1 r1 b1
    obtain ⟨p1, p2, p3, p4⟩ := pop_value_link (q := q1)
      (Q ++ released s.matrix dep c (List.range s.nodes_count)) (by simpa using r1)
    have hidx : s.topology_matrix_index < s.nodes_count := by
      rw [hl.index]
      show r.length < s.nodes_count
      omega
    refine ⟨{ s with
        q := (pop_value q1).2
        dependencies_matrix := dec_deps s.matrix dep c (List.range s.nodes_count)
        topology_matrix := store s.topology_matrix s.topology_matrix_index (Int.ofNat c)
        topology_matrix_index := s.topology_matrix_index + 1
        push_log := s.push_log ++
          (released s.matrix dep c (List.range s.nodes_count)).map Int.ofNat },
      (pop_value q1).1, ?_, rfl, rfl, ?_⟩
    · subst hc
      simp only [drain_step]
      rw [show (Int.ofNat c) = ((c : Nat) : Int) from rfl, e1]
      simp only [hidx, if_true]
    · simp only [kahn_step]
      exact
        { dep := rfl
          index := by simp [hl.index]
          res := by
            have h1 := result_snoc s (Int.ofNat c)
            have h2 := hl.res
            simp only [result] at h1 h2 ⊢
            rw [h1, h2]
            simp
          rest := by
            intro i hi
            simp only [List.length_append, List.length_cons, List.length_nil] at hi
            have hne : i ≠ s.topology_matrix_index := by
              rw [hl.index]
              show i ≠ r.length
              omega
            simp only [store_other _ _ _ _ hne]
            exact hl.rest i (by show r.length ≤ i; omega)
          log := by simp [hl.log]
          room := by
            simp only [p3, p4, b1, l1, List.length_append, List.length_cons, List.length_nil]
            omega
          cur := p1
          queue := p2
          empty := by
            intro hnil
            have hnil2 : Q ++ released s.matrix dep c (List.range s.nodes_count) = [] := hnil
            rw [hnil2] at p2
            exact Rep.head_none p2 }

theorem Link.cur_nil {tm0 : Nat → Int} {s : State} {cur : Int} {k : KState}
    (hl : Link tm0 s cur k) (hP : k.P = []) : cur = -1 := by
  have := hl.cur
  rw [hP] at this
  simpa using this

theorem Link.cur_cons {tm0 : Nat → Int} {s : State} {cur : Int} {k : KState}
    (hl : Link tm0 s cur k) (hP : k.P ≠ []) : cur ≠ -1 := by
  have := hl.cur
  cases hk : k.P with
  | nil => exact absurd hk hP
  | cons c Q =>
    rw [hk] at this
    simp only [List.head?_cons, Option.map_some', Option.getD_some] at this
    have h0 : (0 : Int) ≤ Int.ofNat c := Int.ofNat_nonneg c
    omega

/-- The state after at most `n` iterations stores the lists after `n` iterations. -/
theorem loop_states_link {tm0 : Nat → Int} : ∀ (n : Nat) (s : State) (cur : Int) (k : KState),
    Link tm0 s cur k → Once s.nodes_count k →
    ∃ s1 c1, loop_states n s cur = Except.ok (s1, c1) ∧ s1.nodes_count = s.nodes_count ∧
      s1.matrix = s.matrix ∧ Link tm0 s1 c1 (kahn_iter s.nodes_count s.matrix n k)
  | 0, s, cur, k, hl, _ => ⟨s, cur, rfl, rfl, rfl, hl⟩
  | n + 1, s, cur, k, hl, ho => by
    by_cases hP : k.P = []
    · refine ⟨s, cur, ?_, rfl, rfl, ?_⟩
      · simp [loop_states, hl.cur_nil hP]
      · rw [kahn_iter_nil _ _ _ k hP]
        exact hl
    · obtain ⟨s1, c1, e1, hn, hm, hl1⟩ := drain_step_link hl ho hP
      have ho1 : Once s1.nodes_count (kahn_step s.nodes_count s.matrix k) := by
        rw [hn]
        exact ho.next s.matrix
      obtain ⟨s2, c2, e2, hn2, hm2, hl2⟩ := loop_states_link n s1 c1 _ hl1 ho1
      refine ⟨s2, c2, ?_, hn2.trans hn, hm2.trans hm, ?_⟩
      · simp only [loop_states, hl.cur_cons hP, if_false, e1]
        exact e2
      · rw [hn, hm] at hl2
        exact hl2

/-- The drain loop with enough fuel ends in a state that stores the lists after `fuel`
iterations, and nothing is pending then. -/
theorem drain_link {tm0 : Nat → Int} : ∀ (fuel : Nat) (s : State) (cur : Int) (k : KState),
    Link tm0 s cur k → Once s.nodes_count k → s.nodes_count ≤ fuel + k.r.length →
    ∃ s1, drain fuel s cur = Except.ok s1 ∧ s1.nodes_count = s.nodes_count ∧
      s1.matrix = s.matrix ∧ Link tm0 s1 (-1) (kahn_iter s.nodes_count s.matrix fuel k) ∧
      (kahn_iter s.nodes_count s.matrix fuel k).P = []
  | fuel, s, cur, k, hl, ho, hfuel => by
    by_cases hP : k.P = []
    · have hc := hl.cur_nil hP
      subst hc
      refine ⟨s, ?_, rfl, rfl, ?_, ?_⟩
      · cases fuel <;> simp [drain]
      · rw [kahn_iter_nil _ _ _ k hP]
        exact hl
      · rw [kahn_iter_nil _ _ _ k hP]
        exact hP
    · have hlen := length_le_of_nodup_bound ho.nodup ho.bound
      have hpos : 0 < k.P.length := List.length_pos.mpr hP
      simp only [List.length_append] at hlen
      cases fuel with
      | zero => omega
      | succ fuel =>
        obtain ⟨s1, c1, e1, hn, hm, hl1⟩ := drain_step_link hl ho hP
        have ho1 : Once s1.nodes_count (kahn_step s.nodes_count s.matrix k) := by
          rw [hn]
          exact ho.next s.matrix
        have hr1 : (kahn_step s.nodes_count s.matrix k).r.length = k.r.length + 1 := by
          cases hk : k.P with
          | nil => exact absurd hk hP
          | cons c Q => simp [kahn_step, hk]
        obtain ⟨s2, e2, hn2, hm2, hl2, hP2⟩ := drain_link fuel s1 c1 _ hl1 ho1
          (by rw [hn, hr1]; omega)
        rw [hn, hm] at hl2 hP2
        refine ⟨s2, ?_, hn2.trans hn, hm2.trans hm, hl2, hP2⟩
        rw [drain_succ]
        simp only [hl.cur_cons hP, if_false, e1]
        exact e2

/-- The entry of `calculate_topology` from a ready state succeeds and leads to a state
that stores the lists after seeding. -/
theorem drain_entry_link (s : State) (hready : Ready s) :
    ∃ s1 c1, drain_entry s = Except.ok (s1, c1) ∧ s1.nodes_count = s.nodes_count ∧
      s1.matrix = s.matrix ∧
      Link s.topology_matrix s1 c1 (kahn_init s.nodes_count s.dependencies_matrix) := by
  obtain ⟨hhead, -, hroom, hlog⟩ := hready
  have hrep : Rep s.q [] := rep_of_head_none hhead
  have hfl := List.length_filter_le (fun i => decide (s.dependencies_matrix i = 0))
    (List.range s.nodes_count)
  rw [List.length_range] at hfl
  obtain ⟨q1, e1, r1, b1, l1⟩ := seed_loop_spec (List.range s.nodes_count)
    { s with topology_matrix_index := 0 } [] hrep (by simp only; omega)
  simp only [List.nil_append] at r1
  obtain ⟨p1, p2, p3, p4⟩ := pop_value_link (q := q1) _ r1
  refine ⟨{ s with
      q := (pop_value q1).2
      topology_matrix_index := 0
      push_log := s.push_log ++
        ((List.range s.nodes_count).filter
          (fun i => decide (s.dependencies_matrix i = 0))).map Int.ofNat },
    (pop_value q1).1, ?_, rfl, rfl, ?_⟩
  · simp only [drain_entry, e1]
  · exact
      { dep := rfl
        index := rfl
        res := by simp [result, kahn_init]
        rest := fun i _ => rfl
        log := by simp [hlog, kahn_init]
        room := by
          simp only [p3, p4, b1, l1, kahn_init, List.nil_append]
          omega
        cur := p1
        queue := p2
        empty := by
          intro hnil
          have hnil2 : (List.range s.nodes_count).filter
              (fun i => decide (s.dependencies_matrix i = 0)) = [] := hnil
          rw [hnil2] at p2
          exact Rep.head_none p2 }

/-- The serial sorter from a ready state, whatever the counters: with fuel for
`nodes_count` iterations it ends without fault in a state that stores the lists after
`fuel` iterations of the loop, with nothing pending. -/
theorem general_run (fuel : Nat) (s : State) (hready : Ready s)
    (hfuel : s.nodes_count ≤ fuel) :
    ∃ s1, calculate_topology fuel s = Except.ok s1 ∧ s1.nodes_count = s.nodes_count ∧
      s1.matrix = s.matrix ∧
      Link s.topology_matrix s1 (-1)
        (kahn_iter s.nodes_count s.matrix fuel
          (kahn_init s.nodes_count s.dependencies_matrix)) ∧
      (kahn_iter s.nodes_count s.matrix fuel
        (kahn_init s.nodes_count s.dependencies_matrix)).P = [] ∧
      Once s.nodes_count (kahn_iter s.nodes_count s.matrix fuel
        (kahn_init s.nodes_count s.dependencies_matrix)) := by
  obtain ⟨s1, c1, e1, hn, hm, hl1⟩ := drain_entry_link s hready
  have ho : Once s1.nodes_count (kahn_init s.nodes_count s.dependencies_matrix) := by
    rw [hn]
    exact Once.start _ _
  obtain ⟨s2, e2, hn2, hm2, hl2, hP2⟩ := drain_link fuel s1 c1 _ hl1 ho
    (by rw [hn]; simpa [kahn_init] using hfuel)
  rw [hn, hm] at hl2 hP2
  refine ⟨s2, ?_, hn2.trans hn, hm2.trans hm, hl2, hP2, Once.many _ _ (Once.start _ _)⟩
  rw [calculate_topology_entry, e1]
  exact e2

/-! ## The output file -/

theorem foldl_read_record_frame : ∀ (records : List edge_record) (s : State),
    (records.foldl read_record s).q = s.q ∧
    (records.foldl read_record s).nodes_count = s.nodes_count ∧
    (records.foldl read_record s).topology_matrix = s.topology_matrix ∧
    (records.foldl read_record s).topology_matrix_index = s.topology_matrix_index ∧
    (records.foldl read_record s).push_log = s.push_log
  | [], _ => ⟨rfl, rfl, rfl, rfl, rfl⟩
  | e :: records, s => by
    have := foldl_read_record_frame records (read_record s e)
    simpa [read_record] using this

theorem loaded_fields (queue_limit nodes_count : Nat) (records : List edge_record) :
    (initialize_graph true queue_limit nodes_count records).2.q = empty_queue queue_limit ∧
    (initialize_graph true queue_limit nodes_count records).2.nodes_count = nodes_count ∧
    (initialize_graph true queue_limit nodes_count records).2.topology_matrix = (fun _ => 0) ∧
    (initialize_graph true queue_limit nodes_count records).2.push_log = [] := by
  simp only [initialize_graph, if_true]
  obtain ⟨h1, h2, h3, -, h5⟩ := foldl_read_record_frame records
    { q := empty_queue queue_limit
      nodes_count := nodes_count
      matrix := fun _ _ => 0
      dependencies_matrix := fun _ => 0
      topology_matrix := fun _ => 0
      topology_matrix_index := 0
      push_log := [] }
  exact ⟨h1, h2, h3, h5⟩

theorem loaded_ready (queue_limit nodes_count : Nat) (records : List edge_record)
    (hroom : nodes_count ≤ queue_limit) :
    Ready (initialize_graph true queue_limit nodes_count records).2 := by
  obtain ⟨h1, h2, -, h4⟩ := loaded_fields queue_limit nodes_count records
  refine ⟨by rw [h1]; rfl, by rw [h1]; rfl, ?_, h4⟩
  rw [h1, h2]
  simpa [empty_queue] using hroom

theorem topology_entries (s : State) (tm0 : Nat → Int) (cur : Int) (k : KState)
    (hl : Link tm0 s cur k) (hle : k.r.length ≤ s.nodes_count) :
    (List.range s.nodes_count).map s.topology_matrix =
      result s ++ (List.range (s.nodes_count - s.topology_matrix_index)).map
        (fun i => tm0 (s.topology_matrix_index + i)) := by
  have hidx := hl.index
  have hN : s.nodes_count =
      s.topology_matrix_index + (s.nodes_count - s.topology_matrix_index) := by omega
  conv_lhs => rw [hN, List.range_add, List.map_append]
  simp only [result, List.map_map]
  congr 1
  apply List.map_congr_left
  intro i _
  exact hl.rest _ (by simp only [Function.comp]; omega)

/-- C13, as stated, fails on cyclic input: for the triangle graph the computed order is
empty, but the file holds the three lines `0`, `0`, `0` between the nodes count and the
sentinel. -/
theorem output_lines_counterexample :
    ∃ s1, calculate_topology 3 triangle = Except.ok s1 ∧ result s1 = [] ∧
      write_topology_to_file s1 = "3\n0\n0\n0\n-1" ∧
      write_topology_to_file s1 ≠ output_text triangle.nodes_count (result s1) := by
  obtain ⟨s1, e, -⟩ := general_run 3 triangle ⟨rfl, rfl, by decide, rfl⟩ (by decide)
  have h1 : summary_of (calculate_topology 3 triangle) = some ([], 0, [], []) := by decide
  have h2 : text_of (calculate_topology 3 triangle) = some "3\n0\n0\n0\n-1" := by decide
  rw [e] at h1 h2
  simp only [summary_of, Option.some.injEq, Prod.mk.injEq] at h1
  simp only [text_of, Option.some.injEq] at h2
  refine ⟨s1, e, h1.1, h2, ?_⟩
  rw [h2, h1.1]
  decide

/-- The text that the serial program writes after the sort of a loaded graph: the lines
between the nodes count and the sentinel are the computed order followed by one line `0`
for each position from the result length to `nodes_count - 1`. -/
theorem serial_output_lines (queue_limit nodes_count fuel : Nat)
    (records : List edge_record)
    (hroom : nodes_count ≤ queue_limit) (hfuel : nodes_count ≤ fuel) :
    ∃ s1, calculate_topology fuel (initialize_graph true queue_limit nodes_count records).2 =
        Except.ok s1 ∧
      s1.topology_matrix_index ≤ nodes_count ∧
      write_topology_to_file s1 = output_text nodes_count
        (result s1 ++ List.replicate (nodes_count - s1.topology_matrix_index) 0) ∧
      (s1.topology_matrix_index = nodes_count →
        write_topology_to_file s1 = output_text nodes_count (result s1)) := by
  obtain ⟨-, h2, h3, -⟩ := loaded_fields queue_limit nodes_count records
  obtain ⟨s1, e, hn, -, hl, -, ho⟩ := general_run fuel
    (initialize_graph true queue_limit nodes_count records).2
    (loaded_ready queue_limit nodes_count records hroom) (by rw [h2]; exact hfuel)
  rw [h2] at hn ho hl
  have hle := length_le_of_nodup_bound (List.nodup_append.mp ho.nodup).1
    (fun x hx => ho.bound x (List.mem_append_left _ hx))
  have hent := topology_entries s1 _ _ _ hl (by rw [hn]; exact hle)
  rw [h3, hn] at hent
  have hrep : (List.range (nodes_count - s1.topology_matrix_index)).map
      (fun _ => (0 : Int)) = List.replicate (nodes_count - s1.topology_matrix_index) 0 := by
    simp
  rw [hrep] at hent
  have htext : write_topology_to_file s1 = output_text nodes_count
      (result s1 ++ List.replicate (nodes_count - s1.topology_matrix_index) 0) := by
    simp only [write_topology_to_file, output_text, hn, ← hent, List.map_map]
    rfl
  refine ⟨s1, e, by rw [hl.index]; exact hle, htext, ?_⟩
  intro hfull
  rw [htext, hfull]
  simp

/-! ## The main functions -/

/-- C14. Degenerate empty graph: when the parameters were read and the first number of
the input is read as `nodes_count = 0`, `main` of either program returns exit code 0
without a call of `initialize`, `calculate_topology` or `write_topology_to_file`, and
nothing is written to the output file (whereas for the input of the diamond graph the
three functions are called and the file is written). -/
theorem empty_graph_exit (arrays_allocated : Bool) (queue_limit thread_limit : Nat)
    (records : List edge_record) (fuel threads_count : Nat) (schedule : List Action) :
    main true 1 0 arrays_allocated queue_limit records fuel = Except.ok ⟨0, "", []⟩ ∧
    par_main true threads_count 1 0 arrays_allocated queue_limit thread_limit records fuel
      schedule = Except.ok ⟨0, "", []⟩ ∧
    main true 1 4 true 4 [⟨0, 1, 1⟩, ⟨0, 2, 1⟩, ⟨1, 3, 1⟩, ⟨2, 3, 1⟩] 4 =
      Except.ok ⟨0, "4\n0\n1\n2\n3\n-1",
        [Call.initialize_graph, Call.calculate_topology, Call.write_topology_to_file]⟩ := by
  refine ⟨?_, ?_, ?_⟩
  · simp [main]
  · simp [par_main]
  · rfl

/-! ## The locking discipline -/

theorem disciplined_append (held : Bool) : ∀ (l rest : List Event),
    (∀ e ∈ l, e.is_sync = false ∧ (held = true ∨ e.shared_update = false)) →
    disciplined held (l ++ rest) = disciplined held rest
  | [], _, _ => rfl
  | e :: l, rest, h => by
    have he := h e (List.mem_cons_self _ _)
    have ih := disciplined_append held l rest (fun x hx => h x (List.mem_cons_of_mem _ hx))
    cases e <;> cases held <;>
      simp_all [disciplined, Event.is_sync, Event.shared_update]

theorem outside_append_held : ∀ (l rest : List Event), (∀ e ∈ l, e.is_sync = false) →
    outside true (l ++ rest) = outside true rest
  | [], _, _ => rfl
  | e :: l, rest, h => by
    have he := h e (List.mem_cons_self _ _)
    have ih := outside_append_held l rest (fun x hx => h x (List.mem_cons_of_mem _ hx))
    cases e <;> simp_all [outside, Event.is_sync]

theorem outside_append_free : ∀ (l rest : List Event), (∀ e ∈ l, e.is_sync = false) →
    outside false (l ++ rest) = l ++ outside false rest
  | [], _, _ => rfl
  | e :: l, rest, h => by
    have he := h e (List.mem_cons_self _ _)
    have ih := outside_append_free l rest (fun x hx => h x (List.mem_cons_of_mem _ hx))
    cases e <;> simp_all [outside, Event.is_sync]

theorem scan_events_kind (s : ParState) : ∀ (is : List Nat), ∀ e ∈ scan_events s is,
    e.is_sync = false ∧ e.shared_update = false ∧ e.read_or_local = true
  | [], e, h => by simp [scan_events] at h
  | i :: is, e, h => by
    simp only [scan_events, List.mem_cons, List.mem_append] at h
    rcases h with rfl | h | h
    · exact ⟨rfl, rfl, rfl⟩
    · split at h
      · simp only [List.mem_singleton] at h
        subst h
        exact ⟨rfl, rfl, rfl⟩
      · simp at h
    · exact scan_events_kind s is e h

theorem expand_events_kind (s : ParState) (c : Int) : ∀ (is : List Nat),
    ∀ e ∈ expand_events s c is,
      e.is_sync = false ∧ e.shared_update = false ∧ e.read_or_local = true
  | [], e, h => by simp [expand_events] at h
  | i :: is, e, h => by
    simp only [expand_events, List.mem_cons, List.mem_append] at h
    rcases h with rfl | h | h
    · exact ⟨rfl, rfl, rfl⟩
    · split at h
      · simp only [List.mem_singleton] at h
        subst h
        exact ⟨rfl, rfl, rfl⟩
      · simp at h
    · exact expand_events_kind s c is e h

theorem move_events_kind : ∀ (vs : List Int), ∀ e ∈ move_events vs, e.is_sync = false
  | [], e, h => by simp [move_events] at h
  | v :: vs, e, h => by
    simp only [move_events, List.mem_cons] at h
    rcases h with rfl | rfl | rfl | h
    · rfl
    · rfl
    · rfl
    · exact move_events_kind vs e h

theorem flush_events_kind : ∀ (vs : List Int) (dep : Nat → Int), ∀ e ∈ flush_events dep vs,
    e.is_sync = false
  | [], dep, e, h => by simp [flush_events] at h
  | v :: vs, dep, e, h => by
    simp only [flush_events, List.mem_cons, List.mem_append] at h
    rcases h with rfl | rfl | h | rfl | h
    · rfl
    · rfl
    · split at h
      · simp only [List.mem_singleton] at h
        subst h
        rfl
      · simp at h
    · rfl
    · exact flush_events_kind vs _ e h

theorem disciplined_free (l : List Event)
    (h : ∀ e ∈ l, e.is_sync = false ∧ e.shared_update = false ∧ e.read_or_local = true)
    (rest : List Event) : disciplined false (l ++ rest) = disciplined false rest :=
  disciplined_append false l rest (fun e he => ⟨(h e he).1, Or.inr (h e he).2.1⟩)

theorem disciplined_held (l : List Event) (h : ∀ e ∈ l, e.is_sync = false)
    (rest : List Event) : disciplined true (l ++ rest) = disciplined true rest :=
  disciplined_append true l rest (fun e he => ⟨h e he, Or.inl rfl⟩)

theorem outside_free_kind (l : List Event)
    (h : ∀ e ∈ l, e.is_sync = false ∧ e.shared_update = false ∧ e.read_or_local = true) :
    ∀ e ∈ outside false l, e.read_or_local = true := by
  have := outside_append_free l [] (fun e he => (h e he).1)
  simp only [List.append_nil, outside] at this
  rw [this]
  exact fun e he => (h e he).2.2

theorem initialize_queue_tail (lq : Queue) :
    disciplined false
      (if lq.head = none then []
        else Event.lock :: (move_events (contents lq) ++ [Event.unlock])) = true ∧
    outside false
      (if lq.head = none then []
        else Event.lock :: (move_events (contents lq) ++ [Event.unlock])) = [] := by
  by_cases hh : lq.head = none
  · simp [hh, disciplined, outside]
  · simp only [hh, if_false, disciplined, outside, Bool.not_false, Bool.true_and]
    rw [disciplined_held _ (move_events_kind _), outside_append_held _ _ (move_events_kind _)]
    simp [disciplined, outside]

theorem iteration_tail (s1 : ParState) (cur : Int) :
    disciplined true
      (Event.pop_global ::
        ((if cur ≠ -1 then [Event.write_topology s1.topology_matrix_index cur] else []) ++
          Event.unlock ::
            (if cur ≠ -1 then expand_events s1 cur (List.range s1.nodes_count)
              else []))) = true ∧
    ∀ e ∈ outside true
      (Event.pop_global ::
        ((if cur ≠ -1 then [Event.write_topology s1.topology_matrix_index cur] else []) ++
          Event.unlock ::
            (if cur ≠ -1 then expand_events s1 cur (List.range s1.nodes_count)
              else []))), e.read_or_local = true := by
  by_cases hc : cur = -1
  · simp [hc, disciplined, outside, Event.shared_update]
  · have hk := expand_events_kind s1 cur (List.range s1.nodes_count)
    have h1 := disciplined_free _ hk []
    have h2 := outside_free_kind _ hk
    simp only [List.append_nil] at h1
    simp only [ne_eq, hc, not_false_eq_true, if_true, disciplined, outside, List.cons_append,
      List.nil_append, Bool.or_true, Bool.true_or, Bool.true_and, Bool.false_eq_true,
      if_false]
    exact ⟨by simpa [disciplined] using h1, h2⟩

/-- C15, as stated, fails in its last part: in an iteration of
`thread_topology_calculation` (thread 0 on the seeded diamond graph) the read of
`topology_matrix_index` in the loop test happens outside the mutex, and in
`initialize_queue` (thread 0 on the diamond graph) the read of `dependencies_matrix[0]`
happens outside the mutex; neither is a read of a matrix row or an operation on the
local queue. -/
theorem unlocked_reads_counterexample :
    Event.read_index ∈ outside false (iteration_events 5 0 diamond_seeded) ∧
    Event.read_index.row_or_local = false ∧
    Event.read_dependencies 0 ∈
      outside false (initialize_queue_events (par_initial diamond 2 4) 0) ∧
    (Event.read_dependencies 0).row_or_local = false := by
  refine ⟨?_, rfl, ?_, rfl⟩
  · simp [iteration_events, outside]
  · decide

/-- C15, amended. Locking discipline of the parallel sorter: in every call of
`initialize_queue` and in every iteration of the loop of `thread_topology_calculation`,
every decrement of `dependencies_matrix`, every push to and pop from the global queue and
every write of `topology_matrix` and `topology_matrix_index` happens while the thread
holds the mutex; outside the mutex a thread only reads matrix rows, reads
`dependencies_matrix` (the scan of `initialize_queue`), reads `topology_matrix_index`
(the loop test) and works on its local queue. -/
theorem locking_discipline (fuel id : Nat) (s : ParState) :
    disciplined false (initialize_queue_events s id) = true ∧
    disciplined false (iteration_events fuel id s) = true ∧
    (∀ e ∈ outside false (initialize_queue_events s id), e.read_or_local = true) ∧
    (∀ e ∈ outside false (iteration_events fuel id s), e.read_or_local = true) := by
  have hs1 := scan_events_kind s (List.range' (id * (s.nodes_count / s.threads_count))
    (s.nodes_count / s.threads_count))
  have hs2 : ∀ e ∈ (if id < s.nodes_count % s.threads_count then
      scan_events s [s.nodes_count - id - 1] else []),
      e.is_sync = false ∧ e.shared_update = false ∧ e.read_or_local = true := by
    intro e he
    split at he
    · exact scan_events_kind s _ e he
    · simp at he
  have hsync1 : ∀ e ∈ scan_events s (List.range' (id * (s.nodes_count / s.threads_count))
      (s.nodes_count / s.threads_count)), e.is_sync = false := fun e he => (hs1 e he).1
  have hsync2 : ∀ e ∈ (if id < s.nodes_count % s.threads_count then
      scan_events s [s.nodes_count - id - 1] else []), e.is_sync = false :=
    fun e he => (hs2 e he).1
  have hflush := flush_events_kind (contents (s.thread_queue id)) s.dependencies_matrix
  refine ⟨?_, ?_, ?_, ?_⟩
  · simp only [initialize_queue_events]
    rw [disciplined_free _ hs1, disciplined_free _ hs2]
    cases scan_assigned s id with
    | error f => simp [disciplined, Event.shared_update]
    | ok lq =>
      simp only [disciplined, Event.shared_update, Bool.not_false, Bool.or_true,
        Bool.true_and]
      exact (initialize_queue_tail lq).1
  · simp only [iteration_events, disciplined, Event.shared_update, Bool.not_false,
      Bool.or_true, Bool.true_and, Bool.true_or]
    rw [disciplined_held _ hflush]
    cases flush_pending fuel s (s.thread_queue id) with
    | error f => rfl
    | ok pr =>
      obtain ⟨s1, lq1⟩ := pr
      simp only
      cases hp : pop_value s1.q with
      | mk cur g1 => exact (iteration_tail s1 cur).1
  · simp only [initialize_queue_events]
    rw [outside_append_free _ _ hsync1, outside_append_free _ _ hsync2]
    intro e he
    simp only [List.mem_append] at he
    rcases he with he | he | he
    · exact (hs1 e he).2.2
    · exact (hs2 e he).2.2
    · cases hsa : scan_assigned s id with
      | error f =>
        rw [hsa] at he
        simp only [outside, Bool.false_eq_true, if_false, List.mem_singleton] at he
        subst he
        rfl
      | ok lq =>
        rw [hsa] at he
        simp only [outside, Bool.false_eq_true, if_false, List.mem_cons] at he
        rcases he with rfl | he
        · rfl
        · rw [(initialize_queue_tail lq).2] at he
          simp at he
  · simp only [iteration_events, outside, Bool.false_eq_true, if_false, if_true]
    rw [outside_append_held _ _ hflush]
    intro e he
    simp only [List.mem_cons] at he
    rcases he with rfl | he
    · rfl
    · cases hfp : flush_pending fuel s (s.thread_queue id) with
      | error f =>
        rw [hfp] at he
        simp [outside] at he
      | ok pr =>
        obtain ⟨s1, lq1⟩ := pr
        rw [hfp] at he
        simp only at he
        cases hp : pop_value s1.q with
        | mk cur g1 =>
          rw [hp] at he
          exact (iteration_tail s1 cur).2 e he

/-! ## The serial in-degree invariant -/

theorem Kahn.step_lists {N : Nat} {m : Nat → Nat → Int} {k : KState}
    (h : Kahn N m k.dep k.r k.P) :
    Kahn N m (kahn_step N m k).dep (kahn_step N m k).r (kahn_step N m k).P := by
  obtain ⟨dep, r, P⟩ := k
  cases P with
  | nil => exact h
  | cons c Q => exact Kahn.step h

theorem Kahn.along {N : Nat} {m : Nat → Nat → Int} :
    ∀ (n : Nat) {k : KState}, Kahn N m k.dep k.r k.P →
      Kahn N m (kahn_iter N m n k).dep (kahn_iter N m n k).r (kahn_iter N m n k).P
  | 0, _, h => h
  | n + 1, _, h => Kahn.along n h.step_lists

theorem Kahn.of_consistent (s : State) (hcons : Consistent s) :
    Kahn s.nodes_count s.matrix (kahn_init s.nodes_count s.dependencies_matrix).dep
      (kahn_init s.nodes_count s.dependencies_matrix).r
      (kahn_init s.nodes_count s.dependencies_matrix).P := by
  apply Kahn.init
  intro j hj
  rw [open_deps_nil]
  exact hcons j hj

theorem unemitted_preds_eq (s : State) (r : List Nat) (j : Nat)
    (hres : result s = r.map Int.ofNat) :
    unemitted_preds s j = open_deps s.nodes_count s.matrix r j := by
  unfold unemitted_preds open_deps
  rw [hres]
  congr 1
  apply List.filter_congr
  intro i _
  simp only [mem_map_ofNat]

/-- The state at the loop test after at most `n` iterations exists and stores the lists
after `n` iterations. -/
theorem loop_state_after_link (n : Nat) (s : State) (hready : Ready s) :
    ∃ s1 c1, loop_state_after n s = Except.ok (s1, c1) ∧ s1.nodes_count = s.nodes_count ∧
      s1.matrix = s.matrix ∧
      Link s.topology_matrix s1 c1
        (kahn_iter s.nodes_count s.matrix n
          (kahn_init s.nodes_count s.dependencies_matrix)) := by
  obtain ⟨s1, c1, e1, hn, hm, hl1⟩ := drain_entry_link s hready
  have ho : Once s1.nodes_count (kahn_init s.nodes_count s.dependencies_matrix) := by
    rw [hn]
    exact Once.start _ _
  obtain ⟨s2, c2, e2, hn2, hm2, hl2⟩ := loop_states_link n s1 c1 _ hl1 ho
  rw [hn, hm] at hl2
  refine ⟨s2, c2, ?_, hn2.trans hn, hm2.trans hm, hl2⟩
  simp only [loop_state_after, e1]
  exact e2

/-- C16. Serial in-degree invariant: from the state in which `calculate_topology` is
entered, with counters equal to the static in-degrees, the loop test of the drain loop is
reached after any number `n` of iterations (`n = 0` is the start of the loop), and in the
state reached there the counter `dependencies_matrix[j]` of every node `j` equals the
number of nodes `i` with `matrix[i][j] = 1` that are not in the result sequence. -/
theorem serial_in_degree_invariant (n : Nat) (s : State) (hready : Ready s)
    (hcons : Consistent s) :
    ∃ s1 cur, loop_state_after n s = Except.ok (s1, cur) ∧
      s1.nodes_count = s.nodes_count ∧ s1.matrix = s.matrix ∧
      ∀ j, j < s1.nodes_count → s1.dependencies_matrix j = (unemitted_preds s1 j : Int) := by
  obtain ⟨s1, c1, e1, hn, hm, hl⟩ := loop_state_after_link n s hready
  have hk := Kahn.along n (Kahn.of_consistent s hcons)
  refine ⟨s1, c1, e1, hn, hm, ?_⟩
  intro j hj
  rw [unemitted_preds_eq s1 _ j hl.res, hl.dep, hn, hm]
  exact hk.count j (hn ▸ hj)

/-- Witness for C16: the diamond graph after two iterations of the drain loop. -/
theorem serial_in_degree_invariant_witness :
    Ready diamond ∧ Consistent diamond ∧
    counters_of (loop_state_after 2 diamond) = some ([0, 0, 0, 1], [0, 0, 0, 1]) ∧
    ∃ s1 cur, loop_state_after 2 diamond = Except.ok (s1, cur) ∧
      s1.nodes_count = diamond.nodes_count ∧ s1.matrix = diamond.matrix ∧
      ∀ j, j < s1.nodes_count → s1.dependencies_matrix j = (unemitted_preds s1 j : Int) :=
  ⟨diamond_ready, diamond_consistent, by decide,
    serial_in_degree_invariant 2 diamond diamond_ready diamond_consistent⟩

/-! ## The parallel in-degree invariant -/

theorem par_counters_of_some {r : Except Fault ParState}
    {x : Bool × List Int × List Int × List Nat × List Nat}
    (h : par_counters_of r = some x) :
    ∃ s, r = Except.ok s ∧
      (s.draining, result s.toState, (List.range s.nodes_count).map s.dependencies_matrix,
        (List.range s.nodes_count).map (unemitted_preds s.toState),
        (List.range s.nodes_count).map (waiting s)) = x := by
  cases r with
  | error f => simp [par_counters_of] at h
  | ok s =>
    simp only [par_counters_of, Option.some.injEq] at h
    exact ⟨s, rfl, h⟩

theorem waiting_eq_pending (s : ParState) (B : Nat → List Nat) (j : Nat)
    (hloc : ∀ w, Rep (s.thread_queue w) ((B w).map Int.ofNat)) :
    waiting s j = pending s.threads_count B j := by
  unfold waiting pending
  congr 1
  apply List.map_congr_left
  intro w _
  rw [(hloc w).contents_eq]
  exact List.count_map_of_injective _ _ (fun a b h => Int.ofNat.inj h) _

/-- C17, as stated, fails: on the diamond graph with two threads, after the first phase
and the first iteration of thread 0 (which pops node 0, appends it to the result and
scans its row into its local queue, the mutex then being free), the counter of node 1 is
still 1 although its only predecessor, node 0, has been emitted. -/
theorem parallel_counter_counterexample :
    ∃ s, par_run 5 first_pop_schedule (par_initial diamond 2 4) = Except.ok s ∧
      s.draining = true ∧ result s.toState = [0] ∧
      s.dependencies_matrix 1 = 1 ∧ unemitted_preds s.toState 1 = 0 := by
  have hobs : par_counters_of (par_run 5 first_pop_schedule (par_initial diamond 2 4)) =
      some (true, [0], [0, 1, 1, 2], [0, 0, 0, 2], [0, 1, 1, 0]) := by decide
  obtain ⟨s, hs, hx⟩ := par_counters_of_some hobs
  simp only [Prod.mk.injEq] at hx
  obtain ⟨h1, h2, h3, h4, -⟩ := hx
  have hN : s.nodes_count = 4 := by
    have := congrArg List.length h3
    simpa using this
  rw [hN] at h3 h4
  refine ⟨s, hs, h1, h2, ?_, ?_⟩
  · have := congrArg (fun l => l.getD 1 0) h3
    simpa [List.range_succ] using this
  · have := congrArg (fun l => l.getD 1 7) h4
    simpa [List.range_succ] using this

/-- Between the iterations of the threads (every thread at the test of its loop), in
every state of the second phase the counter of `j` is the number of its unemitted
predecessors plus the number of occurrences of `j` in the local queues. -/
theorem counter_between_iterations (s0 : State) (hhead : s0.q.head = none)
    (hcons : Consistent s0) (W tl fuel : Nat) (schedule : List Action) (s : ParState)
    (hrun : par_run fuel schedule (par_initial s0 W tl) = Except.ok s)
    (hdr : s.draining = true) (j : Nat) (hj : j < s.nodes_count) :
    s.dependencies_matrix j = (unemitted_preds s.toState j : Int) + (waiting s j : Int) ∧
    (s.dependencies_matrix j = (unemitted_preds s.toState j : Int) ↔ waiting s j = 0) := by
  obtain ⟨-, -, -, -, hph⟩ := par_run_good fuel _ schedule _ s hrun
    (initial_good s0 W tl hhead hcons)
  rcases hph with ⟨hf, -⟩ | ⟨-, r, S, B, hl⟩
  · rw [hdr] at hf
    exact absurd hf (by simp)
  · have hc := hl.inv.count j hj
    have h1 : unemitted_preds s.toState j = open_deps s.nodes_count s.matrix r j :=
      unemitted_preds_eq s.toState r j hl.res
    rw [waiting_eq_pending s B j hl.locals, h1]
    constructor
    · exact hc
    · omega

/-! ## The remainder rule of the first phase -/

theorem scanned_nodes_append (a b : List Event) :
    scanned_nodes (a ++ b) = scanned_nodes a ++ scanned_nodes b := by
  simp [scanned_nodes, List.filterMap_append]

theorem scanned_nodes_scan_events (s : ParState) :
    ∀ l : List Nat, scanned_nodes (scan_events s l) = l
  | [] => rfl
  | i :: is => by
    have ih := scanned_nodes_scan_events s is
    by_cases hd : s.dependencies_matrix i = 0
    · simp only [scan_events, hd, if_true, List.singleton_append]
      simp only [scanned_nodes, List.filterMap_cons, Event.scanned] at ih ⊢
      rw [ih]
    · simp only [scan_events, hd, if_false, List.nil_append]
      simp only [scanned_nodes, List.filterMap_cons, Event.scanned] at ih ⊢
      rw [ih]

theorem scanned_nodes_move_events : ∀ l : List Int, scanned_nodes (move_events l) = []
  | [] => rfl
  | v :: vs => by
    have ih := scanned_nodes_move_events vs
    simp only [scanned_nodes, move_events, List.filterMap_cons, Event.scanned] at ih ⊢
    exact ih

/-- C18, as stated, fails: with 5 nodes and 2 threads (`r = 1`) thread 0, which is not
one of the last `r` threads, scans the extra node 4 after its block `0, 1`, and thread 1,
the last thread, scans its block `2, 3` and no extra node; on the graph without edges
the local queues after the scan are `0, 1, 4` and `2, 3`. -/
theorem remainder_rule_counterexample :
    scanned_nodes (initialize_queue_events (par_initial edgeless 2 5) 0) = [0, 1, 4] ∧
    scanned_nodes (initialize_queue_events (par_initial edgeless 2 5) 1) = [2, 3] ∧
    local_contents_of (scan_assigned (par_initial edgeless 2 5) 0) = some [0, 1, 4] ∧
    local_contents_of (scan_assigned (par_initial edgeless 2 5) 1) = some [2, 3] ∧
    extra_node 5 2 0 = some 4 ∧ spec_extra_node 5 2 0 = none ∧
    extra_node 5 2 1 = none ∧ spec_extra_node 5 2 1 = some 3 := by
  decide

/-- C18, amended. Phase 1 remainder rule: for every `N` and `W`, with `r = N mod W`, the
thread `id` scans in `initialize_queue` its block `id * (N / W) .. (id + 1) * (N / W) - 1`
and then one extra node exactly when it is one of the first `r` threads (`id < r`); that
extra node is `N - id - 1`, a node behind all blocks, and the nodes with counter zero
among the scanned ones are what the local queue holds after the scan, in scanning
order. -/
theorem remainder_rule (s : ParState) (id : Nat) :
    scanned_nodes (initialize_queue_events s id) =
      List.range' (id * (s.nodes_count / s.threads_count))
          (s.nodes_count / s.threads_count) ++
        (extra_node s.nodes_count s.threads_count id).toList ∧
    (extra_node s.nodes_count s.threads_count id ≠ none ↔
      id < s.nodes_count % s.threads_count) ∧
    (∀ x, extra_node s.nodes_count s.threads_count id = some x →
      x = s.nodes_count - id - 1 ∧ x < s.nodes_count ∧
        s.threads_count * (s.nodes_count / s.threads_count) ≤ x) ∧
    (∀ lq, scan_assigned s id = Except.ok lq →
      contents lq =
        ((List.range' (id * (s.nodes_count / s.threads_count))
            (s.nodes_count / s.threads_count) ++
          (extra_node s.nodes_count s.threads_count id).toList).filter
          (fun i => decide (s.dependencies_matrix i = 0))).map Int.ofNat) := by
  have hdm := Nat.div_add_mod s.nodes_count s.threads_count
  have hassigned : List.range' (id * (s.nodes_count / s.threads_count))
      (s.nodes_count / s.threads_count) ++
        (extra_node s.nodes_count s.threads_count id).toList =
      assigned s.nodes_count s.threads_count id := by
    unfold assigned extra_node
    split <;> rfl
  refine ⟨?_, ?_, ?_, ?_⟩
  · have htail : scanned_nodes (Event.local_queue ::
        match scan_assigned s id with
        | Except.error _ => []
        | Except.ok lq =>
          if lq.head = none then []
          else Event.lock :: (move_events (contents lq) ++ [Event.unlock])) = [] := by
      cases scan_assigned s id with
      | error f => rfl
      | ok lq =>
        by_cases hh : lq.head = none
        · simp [hh, scanned_nodes, Event.scanned]
        · have := scanned_nodes_move_events (contents lq)
          simp only [scanned_nodes] at this
          simp [hh, scanned_nodes, Event.scanned, List.filterMap_append, this]
    simp only [initialize_queue_events, scanned_nodes_append, htail, List.append_nil,
      scanned_nodes_scan_events]
    congr 1
    unfold extra_node
    split
    · simp [scanned_nodes_scan_events]
    · rfl
  · unfold extra_node
    split <;> simp [*]
  · intro x hx
    unfold extra_node at hx
    split at hx
    · simp only [Option.some.injEq] at hx
      subst hx
      refine ⟨rfl, by omega, by omega⟩
    · exact absurd hx (by simp)
  · intro lq hlq
    rw [hassigned, (scan_assigned_rep s id lq hlq).contents_eq]

/-! ## The loops of the parallel sorter return when there is room -/

theorem push_local_or_exit_total {lq : Queue} {ws : List Int} (i : Nat) (hr : Rep lq ws)
    (hroom : lq.brk < lq.limit) :
    ∃ lq1, push_local_or_exit lq i = Except.ok lq1 ∧ Rep lq1 (ws ++ [Int.ofNat i]) ∧
      lq1.brk = lq.brk + 1 ∧ lq1.limit = lq.limit := by
  obtain ⟨h1, h2, h3, h4⟩ := push_value_rep (Int.ofNat i) hr hroom
  refine ⟨(push_value lq (Int.ofNat i)).2, ?_, h2, h3, h4⟩
  unfold push_local_or_exit
  have : push_value lq (Int.ofNat i) = (0, (push_value lq (Int.ofNat i)).2) := by
    rw [← h1]
  show (match push_value lq (Int.ofNat i) with
    | (r, lq1) => if r = -1 then Except.error Fault.alloc_exit else Except.ok lq1) = _
  rw [this]
  simp

/-- A loop that pushes the selected indices to a local queue with room for them returns
and appends them in order. -/
theorem local_loop_total (sel : Nat → Prop) [DecidablePred sel]
    (body : Queue → Nat → Except Fault Queue)
    (hbody : ∀ lq i, body lq i = if sel i then push_local_or_exit lq i else Except.ok lq) :
    ∀ (is : List Nat) (lq : Queue) (ws : List Int), Rep lq ws →
      lq.brk + (is.filter (fun i => decide (sel i))).length ≤ lq.limit →
      ∃ lq1, for_loop body is lq = Except.ok lq1 ∧
        Rep lq1 (ws ++ (is.filter (fun i => decide (sel i))).map Int.ofNat) ∧
        lq1.brk = lq.brk + (is.filter (fun i => decide (sel i))).length ∧
        lq1.limit = lq.limit
  | [], lq, ws, hr, _ => ⟨lq, rfl, by simpa using hr, by simp, rfl⟩
  | i :: is, lq, ws, hr, hroom => by
    by_cases hs : sel i
    · simp only [List.filter_cons, hs, decide_True, if_true, List.length_cons] at hroom ⊢
      obtain ⟨lq2, e2, r2, b2, l2⟩ := push_local_or_exit_total i hr (by omega)
      obtain ⟨lq1, e1, r1, b1, l1⟩ := local_loop_total sel body hbody is lq2 _ r2
        (by omega)
      refine ⟨lq1, ?_, by simpa using r1, by omega, by omega⟩
      simp only [for_loop, hbody, hs, if_true, e2]
      exact e1
    · simp only [List.filter_cons, hs, decide_False, if_false] at hroom ⊢
      obtain ⟨lq1, e1, r1, b1, l1⟩ := local_loop_total sel body hbody is lq ws hr hroom
      refine ⟨lq1, ?_, r1, b1, l1⟩
      simp only [for_loop, hbody, hs, if_false]
      exact e1

/-- The scanning part of `initialize_queue` returns when the local queue has room for
the assigned nodes. -/
theorem scan_assigned_total (s : ParState) (id : Nat)
    (hroom : (assigned s.nodes_count s.threads_count id).length ≤ s.thread_limit) :
    ∃ lq, scan_assigned s id = Except.ok lq ∧
      Rep lq (((assigned s.nodes_count s.threads_count id).filter
        (fun i => decide (s.dependencies_matrix i = 0))).map Int.ofNat) := by
  have hlen : (assigned s.nodes_count s.threads_count id).length =
      s.nodes_count / s.threads_count +
        (if id < s.nodes_count % s.threads_count then 1 else 0) := by
    unfold assigned
    split <;> simp
  have hfl := List.length_filter_le (fun i => decide (s.dependencies_matrix i = 0))
    (List.range' (id * (s.nodes_count / s.threads_count)) (s.nodes_count / s.threads_count))
  rw [List.length_range'] at hfl
  obtain ⟨lq1, e1, r1, b1, l1⟩ := local_loop_total (fun i => s.dependencies_matrix i = 0)
    (scan_body s)
    (by
      intro lq i
      by_cases hd : s.dependencies_matrix i = 0 <;> simp [scan_body, hd])
    (List.range' (id * (s.nodes_count / s.threads_count)) (s.nodes_count / s.threads_count))
    (empty_queue s.thread_limit) [] (rep_empty_queue _)
    (by
      show 0 + _ ≤ s.thread_limit
      beta_reduce
      split at hlen <;> omega)
  have hb0 : (empty_queue s.thread_limit).brk = 0 := rfl
  have hl0 : (empty_queue s.thread_limit).limit = s.thread_limit := rfl
  rw [hb0] at b1
  rw [hl0] at l1
  by_cases hr : id < s.nodes_count % s.threads_count
  · rw [if_pos hr] at hlen
    by_cases hd : s.dependencies_matrix (s.nodes_count - id - 1) = 0
    · obtain ⟨lq2, e2, r2, -, -⟩ := push_local_or_exit_total (s.nodes_count - id - 1) r1
        (by omega)
      refine ⟨lq2, ?_, ?_⟩
      · simp only [scan_assigned, e1, hr, if_true, hd]
        exact e2
      · simpa [assigned, hr, List.filter_append, hd] using r2
    · refine ⟨lq1, ?_, ?_⟩
      · simp only [scan_assigned, e1, hr, if_true, hd, if_false]
      · simpa [assigned, hr, List.filter_append, hd] using r1
  · refine ⟨lq1, ?_, ?_⟩
    · simp only [scan_assigned, e1, hr, if_false]
    · simpa [assigned, hr, List.filter_append] using r1

/-- The locked loop of `initialize_queue` returns when the global queue has room and the
fuel covers the local queue. -/
theorem move_to_global_total : ∀ (fuel : Nat) (g lq : Queue) (S L : List Int),
    Rep g S → Rep lq L → L.length ≤ fuel → g.brk + L.length ≤ g.limit →
    ∃ g1 lq1, move_to_global fuel g lq = Except.ok (g1, lq1) ∧ Rep g1 (S ++ L) ∧
      Rep lq1 [] ∧ g1.brk = g.brk + L.length ∧ g1.limit = g.limit
  | 0, g, lq, S, L, hg, hlq, hfuel, _ => by
    have hL : L = [] := List.eq_nil_of_length_eq_zero (by omega)
    subst hL
    refine ⟨g, lq, ?_, by simpa using hg, hlq, rfl, rfl⟩
    simp only [move_to_global, Rep.head_none hlq]
  | fuel + 1, g, lq, S, L, hg, hlq, hfuel, hroom => by
    cases L with
    | nil =>
      refine ⟨g, lq, ?_, by simpa using hg, hlq, rfl, rfl⟩
      simp only [move_to_global, Rep.head_none hlq]
    | cons v vs =>
      obtain ⟨a, ha, hval, hadv⟩ := Rep.advance hlq
      simp only [List.length_cons] at hfuel hroom
      obtain ⟨h1, h2, h3, h4⟩ := push_value_rep v hg (by omega)
      obtain ⟨g1, lq1, e1, r1, r2, b1, l1⟩ := move_to_global_total fuel
        (push_value g v).2
        { lq with cells := store lq.cells a none, head := (deref lq.cells a).next }
        (S ++ [v]) vs h2 hadv (by omega) (by omega)
      refine ⟨g1, lq1, ?_, by simpa using r1, r2, by simp only [List.length_cons]; omega,
        by omega⟩
      have hp : push_value g v = (0, (push_value g v).2) := by
        rw [← h1]
      simp only [move_to_global, ha, hval]
      rw [hp]
      simp only [Int.reduceNeg, OfNat.zero_ne_ofNat, if_false]
      exact e1

theorem flush_dep_cons (dep : Nat → Int) (v : Nat) (vs : List Nat) (hv : v ∉ vs) :
    flush_dep (store dep v (dep v - 1)) vs = flush_dep dep (v :: vs) := by
  funext j
  by_cases hj : j = v
  · subst hj
    simp [flush_dep, hv, store]
  · by_cases hm : j ∈ vs <;> simp [flush_dep, store, hj, hm]

theorem flush_released_cons (dep : Nat → Int) (v : Nat) (vs : List Nat) (hv : v ∉ vs) :
    flush_released (store dep v (dep v - 1)) vs =
      vs.filter (fun j => decide (dep j - 1 = 0)) := by
  unfold flush_released
  apply List.filter_congr
  intro j hj
  have : j ≠ v := fun h => hv (h ▸ hj)
  simp [store, this]

/-- The locked loop of `thread_topology_calculation` over a local queue of distinct
nodes returns when the global queue has room and the fuel covers the local queue: the
counters of the nodes are decremented, and those that reach zero are appended to the
global queue. -/
theorem flush_pending_total : ∀ (fuel : Nat) (s : ParState) (lq : Queue) (S B : List Nat),
    B.Nodup → Rep s.q (S.map Int.ofNat) → Rep lq (B.map Int.ofNat) → B.length ≤ fuel →
    s.q.brk + (flush_released s.dependencies_matrix B).length ≤ s.q.limit →
    ∃ g1 lq1, flush_pending fuel s lq =
        Except.ok ({ s with
          q := g1
          dependencies_matrix := flush_dep s.dependencies_matrix B }, lq1) ∧
      Rep g1 ((S ++ flush_released s.dependencies_matrix B).map Int.ofNat) ∧
      Rep lq1 [] ∧ lq1.brk = lq.brk ∧ lq1.limit = lq.limit ∧
      g1.brk = s.q.brk + (flush_released s.dependencies_matrix B).length ∧
      g1.limit = s.q.limit
  | fuel, s, lq, S, [], _, hg, hlq, _, _ => by
    have hd : flush_dep s.dependencies_matrix [] = s.dependencies_matrix := by
      funext j
      simp [flush_dep]
    refine ⟨s.q, lq, ?_, by simpa [flush_released] using hg, hlq, rfl, rfl,
      by simp [flush_released], rfl⟩
    rw [hd]
    cases fuel <;> simp only [flush_pending, Rep.head_none hlq]
  | 0, s, lq, S, v :: vs, _, _, _, hfuel, _ => by
    simp at hfuel
  | fuel + 1, s, lq, S, v :: vs, hnd, hg, hlq, hfuel, hroom => by
    obtain ⟨a, ha, hval, hadv⟩ := Rep.advance hlq
    have hv : v ∉ vs := (List.nodup_cons.mp hnd).1
    have hnd2 : vs.Nodup := (List.nodup_cons.mp hnd).2
    simp only [List.length_cons] at hfuel
    have hc := flush_dep_cons s.dependencies_matrix v vs hv
    have hrl := flush_released_cons s.dependencies_matrix v vs hv
    by_cases hz : s.dependencies_matrix v - 1 = 0
    · have hre : flush_released s.dependencies_matrix (v :: vs) =
          v :: vs.filter (fun j => decide (s.dependencies_matrix j - 1 = 0)) := by
        simp [flush_released, List.filter_cons, hz]
      rw [hre, List.length_cons] at hroom
      obtain ⟨h1, h2, h3, h4⟩ := push_value_rep (Int.ofNat v) hg (by omega)
      have hp : push_value s.q (Int.ofNat v) = (0, (push_value s.q (Int.ofNat v)).2) := by
        rw [← h1]
      obtain ⟨g1, lq1, e1, r1, r2, b1, l1, b2, l2⟩ := flush_pending_total fuel
        { s with
          q := (push_value s.q (Int.ofNat v)).2
          dependencies_matrix :=
            store s.dependencies_matrix v (s.dependencies_matrix v - 1) }
        { lq with cells := store lq.cells a none, head := (deref lq.cells a).next }
        (S ++ [v]) vs hnd2 (by simpa using h2) hadv (by omega)
        (by
          simp only [hrl]
          omega)
      simp only [hrl, hc] at e1 r1 b2 l2
      refine ⟨g1, lq1, ?_, ?_, r2, b1, l1, ?_, ?_⟩
      · simp only [flush_pending, ha, hval, toNat_ofNat, store_same]
        rw [if_pos hz, hp]
        exact e1
      · rw [hre]
        simpa using r1
      · rw [hre, List.length_cons]
        omega
      · omega
    · have hre : flush_released s.dependencies_matrix (v :: vs) =
          vs.filter (fun j => decide (s.dependencies_matrix j - 1 = 0)) := by
        simp [flush_released, List.filter_cons, hz]
      rw [hre] at hroom
      obtain ⟨g1, lq1, e1, r1, r2, b1, l1, b2, l2⟩ := flush_pending_total fuel
        { s with
          dependencies_matrix :=
            store s.dependencies_matrix v (s.dependencies_matrix v - 1) }
        { lq with cells := store lq.cells a none, head := (deref lq.cells a).next }
        S vs hnd2 hg hadv (by omega)
        (by
          simp only [hrl]
          omega)
      simp only [hrl, hc] at e1 r1 b2 l2
      refine ⟨g1, lq1, ?_, ?_, r2, b1, l1, ?_, ?_⟩
      · simp only [flush_pending, ha, hval, toNat_ofNat, store_same]
        rw [if_neg hz]
        exact e1
      · rw [hre]
        exact r1
      · rw [hre]
        exact b2
      · exact l2

theorem flush_dep_nil (dep : Nat → Int) : flush_dep dep [] = dep := by
  funext j
  simp [flush_dep]

theorem flush_dep_successors (N : Nat) (m : Nat → Nat → Int) (dep : Nat → Int) (c : Nat) :
    flush_dep dep (successors N m c) = dec_deps m dep c (List.range N) := by
  funext j
  simp [flush_dep, dec_deps, successors, List.mem_filter]

theorem flush_released_successors (N : Nat) (m : Nat → Nat → Int) (dep : Nat → Int)
    (c : Nat) : flush_released dep (successors N m c) = released m dep c (List.range N) := by
  simp only [flush_released, released, successors, List.filter_filter]
  apply List.filter_congr
  intro j _
  by_cases h1 : m c j = 1 <;> by_cases h2 : dep j - 1 = 0 <;> simp [h1, h2]

/-- One iteration of the loop of `thread_topology_calculation` in a run with a single
thread returns and does what one iteration of the serial loop does to the lists. -/
theorem single_iteration (fuel : Nat) (s : ParState) (k : KState) (S B : List Nat)
    (h : Single s k S B) (ho : Once s.nodes_count k) (hfuel : s.nodes_count ≤ fuel) :
    ∃ s1 S1 B1, thread_iteration fuel 0 s = Except.ok s1 ∧
      s1.nodes_count = s.nodes_count ∧ s1.matrix = s.matrix ∧
      Single s1 (kahn_step s.nodes_count s.matrix k) S1 B1 := by
  obtain ⟨dep, r, P⟩ := k
  have hlen := length_le_of_nodup_bound ho.nodup ho.bound
  have hpend : P = S ++ flush_released s.dependencies_matrix B := h.pend
  have hdep : dep = flush_dep s.dependencies_matrix B := h.dep
  have hroom : s.q.brk + s.nodes_count ≤ s.q.limit + (r.length + S.length) := h.room
  have hown : (s.thread_queue 0).brk ≤ r.length * s.nodes_count := h.own_room
  have hlim := h.own_limit
  have hshort := h.short
  simp only [List.length_append] at hlen
  have hlenP : P.length = S.length + (flush_released s.dependencies_matrix B).length := by
    rw [hpend, List.length_append]
  obtain ⟨g1, lq1, e1, r1, r2, b1, l1, b2, l2⟩ := flush_pending_total fuel s
    (s.thread_queue 0) S B h.nodup h.shared h.own (by omega) (by omega)
  rw [← hpend] at r1
  rw [← hdep] at e1
  obtain ⟨p1, p2, p3, p4⟩ := pop_value_link (q := g1) P r1
  cases hp : pop_value g1 with
  | mk cur g2 =>
    simp only [hp] at p1 p2 p3 p4
    cases P with
    | nil =>
      have hc : cur = -1 := by simpa using p1
      have hS : S = [] := by
        cases S with
        | nil => rfl
        | cons a as => simp at hpend
      simp only [List.length_nil] at hlenP
      refine ⟨{ s with
          q := g2
          dependencies_matrix := dep
          thread_queue := store s.thread_queue 0 lq1 }, [], [], ?_, rfl, rfl, ?_⟩
      · simp only [thread_iteration, e1, hp, hc]
        rfl
      · exact
          { threads := h.threads
            draining := h.draining
            index := h.index
            res := h.res
            shared := p2
            own := by
              show Rep (store s.thread_queue 0 lq1 0) _
              rw [store_same]
              exact r2
            nodup := List.nodup_nil
            short := Nat.zero_le _
            dep := (flush_dep_nil dep).symm
            pend := rfl
            room := by
              show g2.brk + s.nodes_count ≤ g2.limit + (r.length + 0)
              rw [hS] at hroom
              simp only [List.length_nil] at hroom
              omega
            own_room := by
              show (store s.thread_queue 0 lq1 0).brk ≤ r.length * s.nodes_count
              rw [store_same]
              omega
            own_limit := by
              show s.nodes_count * s.nodes_count ≤ (store s.thread_queue 0 lq1 0).limit
              rw [store_same]
              omega }
    | cons c Q =>
      have hc : cur = Int.ofNat c := by simpa using p1
      have hcne : cur ≠ -1 := by
        have h0 : (0 : Int) ≤ Int.ofNat c := Int.ofNat_nonneg c
        omega
      simp only [List.length_cons] at hlen hlenP
      have hidx : s.topology_matrix_index < s.nodes_count := by
        rw [h.index]
        show r.length < s.nodes_count
        omega
      have hsl : (successors s.nodes_count s.matrix c).length ≤ s.nodes_count := by
        have := List.length_filter_le (fun i => decide (s.matrix c i = 1))
          (List.range s.nodes_count)
        rw [List.length_range] at this
        exact this
      have hmul : (r.length + 1) * s.nodes_count ≤ s.nodes_count * s.nodes_count :=
        Nat.mul_le_mul_right _ (by omega)
      rw [Nat.add_mul, Nat.one_mul] at hmul
      obtain ⟨lq2, e2, r3, b3, l3⟩ := local_loop_total (fun i => s.matrix c i = 1)
        (expand_body
          { s with
            q := g2
            dependencies_matrix := dep
            topology_matrix := store s.topology_matrix s.topology_matrix_index cur
            topology_matrix_index := s.topology_matrix_index + 1 } cur)
        (by
          intro lq i
          by_cases hm : s.matrix c i = 1 <;> simp [expand_body, hc, toNat_ofNat, hm])
        (List.range s.nodes_count) lq1 [] r2
        (by
          have : (List.filter (fun i => decide (s.matrix c i = 1))
              (List.range s.nodes_count)).length ≤ s.nodes_count := hsl
          beta_reduce
          omega)
      have hb3 : lq2.brk = lq1.brk + (successors s.nodes_count s.matrix c).length := b3
      refine ⟨{ s with
          q := g2
          dependencies_matrix := dep
          topology_matrix := store s.topology_matrix s.topology_matrix_index cur
          topology_matrix_index := s.topology_matrix_index + 1
          thread_queue := store s.thread_queue 0 lq2 }, Q,
        successors s.nodes_count s.matrix c, ?_, rfl, rfl, ?_⟩
      · simp only [thread_iteration, e1, hp, hcne, ne_eq, not_false_eq_true, if_true, hidx, e2]
      · simp only [kahn_step]
        exact
          { threads := h.threads
            draining := h.draining
            index := by
              show s.topology_matrix_index + 1 = (r ++ [c]).length
              rw [h.index]
              simp
            res := by
              have h1 := result_snoc s.toState cur
              have h2 := h.res
              simp only [result] at h1 h2 ⊢
              rw [h1, h2, hc]
              simp
            shared := p2
            own := by
              show Rep (store s.thread_queue 0 lq2 0) _
              rw [store_same]
              simpa using r3
            nodup := (List.nodup_range _).filter _
            short := hsl
            dep := (flush_dep_successors _ _ _ _).symm
            pend := by
              show Q ++ released s.matrix dep c (List.range s.nodes_count) = _
              rw [← flush_released_successors]
            room := by
              show g2.brk + s.nodes_count ≤ g2.limit + ((r ++ [c]).length + Q.length)
              simp only [List.length_append, List.length_cons, List.length_nil]
              omega
            own_room := by
              show (store s.thread_queue 0 lq2 0).brk ≤ (r ++ [c]).length * s.nodes_count
              rw [store_same]
              simp only [List.length_append, List.length_cons, List.length_nil, Nat.add_mul,
                Nat.one_mul, Nat.zero_add]
              omega
            own_limit := by
              show s.nodes_count * s.nodes_count ≤ (store s.thread_queue 0 lq2 0).limit
              rw [store_same]
              omega }

theorem par_run_append (fuel : Nat) : ∀ (a b : List Action) (s s1 : ParState),
    par_run fuel a s = Except.ok s1 → par_run fuel (a ++ b) s = par_run fuel b s1
  | [], b, s, s1, h => by
    simp only [par_run, Except.ok.injEq] at h
    subst h
    rfl
  | x :: a, b, s, s1, h => by
    simp only [par_run, List.cons_append] at h ⊢
    cases hs : par_step fuel s x with
    | error f => simp [hs] at h
    | ok s2 =>
      simp only [hs] at h ⊢
      exact par_run_append fuel a b s2 s1 h

/-- The iterations of the single thread return and follow the serial loop. -/
theorem single_run (fuel : Nat) : ∀ (n : Nat) (s : ParState) (k : KState) (S B : List Nat),
    Single s k S B → Once s.nodes_count k → s.nodes_count ≤ fuel →
    ∃ s1 S1 B1, par_run fuel (List.replicate n (Action.iterate 0)) s = Except.ok s1 ∧
      s1.nodes_count = s.nodes_count ∧ s1.matrix = s.matrix ∧
      Single s1 (kahn_iter s.nodes_count s.matrix n k) S1 B1
  | 0, s, k, S, B, h, _, _ => ⟨s, S, B, rfl, rfl, rfl, h⟩
  | n + 1, s, k, S, B, h, ho, hfuel => by
    obtain ⟨s1, S1, B1, e1, hn, hm, h1⟩ := single_iteration fuel s k S B h ho hfuel
    have ho1 : Once s1.nodes_count (kahn_step s.nodes_count s.matrix k) := by
      rw [hn]
      exact ho.next _
    obtain ⟨s2, S2, B2, e2, hn2, hm2, h2⟩ := single_run fuel n s1 _ S1 B1 h1 ho1
      (by rw [hn]; exact hfuel)
    rw [hn, hm] at h2
    refine ⟨s2, S2, B2, ?_, hn2.trans hn, hm2.trans hm, h2⟩
    have hen : 0 < s.threads_count ∧ s.draining = true := by
      rw [h.threads, h.draining]
      exact ⟨by decide, rfl⟩
    simp only [List.replicate_succ, par_run, par_step]
    rw [if_pos hen, e1]
    exact e2

theorem assigned_single (N : Nat) : assigned N 1 0 = List.range N := by
  simp [assigned, List.range_eq_range', Nat.mod_one]

/-- The first phase of a run with a single thread returns and leaves in the global queue
the nodes with counter zero in ascending order; the second phase then starts in a state
that matches the lists after the serial seeding loop. -/
theorem single_phase_one (s0 : State) (tl fuel : Nat) (hready : Ready s0)
    (htl : s0.nodes_count * s0.nodes_count ≤ tl) (hfuel : s0.nodes_count ≤ fuel) :
    ∃ sa sb, par_run fuel [Action.scan 0, Action.publish 0] (par_initial s0 1 tl) =
        Except.ok sa ∧
      contents sa.q = ((List.range s0.nodes_count).filter
        (fun i => decide (s0.dependencies_matrix i = 0))).map Int.ofNat ∧
      par_step fuel sa Action.start_draining = Except.ok sb ∧
      sb.nodes_count = s0.nodes_count ∧ sb.matrix = s0.matrix ∧
      Single sb (kahn_init s0.nodes_count s0.dependencies_matrix)
        ((List.range s0.nodes_count).filter
          (fun i => decide (s0.dependencies_matrix i = 0))) [] := by
  obtain ⟨hhead, -, hroom, -⟩ := hready
  have hN : s0.nodes_count ≤ tl := Nat.le_trans (Nat.le_mul_self _) htl
  have hfl := List.length_filter_le (fun i => decide (s0.dependencies_matrix i = 0))
    (List.range s0.nodes_count)
  rw [List.length_range] at hfl
  obtain ⟨lq, e1, r1⟩ := scan_assigned_total (par_initial s0 1 tl) 0
    (by
      show (assigned s0.nodes_count 1 0).length ≤ tl
      rw [assigned_single, List.length_range]
      exact hN)
  have r1b : Rep lq (((List.range s0.nodes_count).filter
      (fun i => decide (s0.dependencies_matrix i = 0))).map Int.ofNat) := by
    have : Rep lq (((assigned s0.nodes_count 1 0).filter
      (fun i => decide (s0.dependencies_matrix i = 0))).map Int.ofNat) := r1
    rwa [assigned_single] at this
  obtain ⟨g1, lq1, e2, r2, r3, b2, l2⟩ := move_to_global_total fuel s0.q lq [] _
    (rep_of_head_none hhead) r1b (by simp only [List.length_map]; omega)
    (by simp only [List.length_map]; omega)
  simp only [List.nil_append, List.length_map] at r2 b2
  refine ⟨{ par_initial s0 1 tl with
      q := g1
      thread_queue := store (store (fun _ => empty_queue tl) 0 lq) 0 lq1
      pc := store (store (fun _ => 0) 0 1) 0 2 },
    { par_initial s0 1 tl with
      q := g1
      topology_matrix_index := 0
      thread_queue := fun _ => empty_queue tl
      pc := store (store (fun _ => 0) 0 1) 0 2
      draining := true }, ?_, r2.contents_eq, ?_, rfl, rfl, ?_⟩
  · have hen1 : 0 < (par_initial s0 1 tl).threads_count ∧
        (par_initial s0 1 tl).draining = false ∧ (par_initial s0 1 tl).pc 0 = 0 :=
      ⟨Nat.zero_lt_one, rfl, rfl⟩
    simp only [par_run, par_step]
    rw [if_pos hen1, e1]
    simp only
    rw [if_pos]
    · have e2b : move_to_global fuel (par_initial s0 1 tl).q
          (store (par_initial s0 1 tl).thread_queue 0 lq 0) = Except.ok (g1, lq1) := by
        rw [store_same]
        exact e2
      rw [e2b]
      rfl
    · exact ⟨Nat.zero_lt_one, rfl, by simp [store]⟩
  · simp only [par_step]
    rw [if_pos]
    · rfl
    · refine ⟨rfl, ?_⟩
      intro id hid
      have hid0 : id = 0 := by
        have : id < 1 := hid
        omega
      subst hid0
      simp [store]
  · exact
      { threads := rfl
        draining := rfl
        index := rfl
        res := by simp [result, kahn_init]
        shared := r2
        own := rep_empty_queue tl
        nodup := List.nodup_nil
        short := Nat.zero_le _
        dep := (flush_dep_nil _).symm
        pend := by simp [kahn_init, flush_released]
        room := by
          show g1.brk + s0.nodes_count ≤ g1.limit + ((kahn_init _ _).r.length + _)
          simp only [kahn_init, List.length_nil]
          omega
        own_room := Nat.zero_le _
        own_limit := htl }

theorem kahn_step_extends (N : Nat) (m : Nat → Nat → Int) (k : KState) :
    k.r <+: (kahn_step N m k).r := by
  cases hP : k.P with
  | nil =>
    rw [kahn_step_nil N m k hP]
  | cons c Q =>
    simp only [kahn_step, hP]
    exact List.prefix_append _ _

theorem kahn_iter_extends (N : Nat) (m : Nat → Nat → Int) :
    ∀ (n : Nat) (k : KState), k.r <+: (kahn_iter N m n k).r
  | 0, _ => List.prefix_refl _
  | n + 1, k => (kahn_step_extends N m k).trans (kahn_iter_extends N m n (kahn_step N m k))

/-- On an acyclic graph with consistent counters every one of the first `nodes_count`
iterations of the loop emits a node. -/
theorem kahn_iter_length (s : State) (hcons : Consistent s) (hacyc : Acyclic s) :
    ∀ n, n ≤ s.nodes_count →
      (kahn_iter s.nodes_count s.matrix n
        (kahn_init s.nodes_count s.dependencies_matrix)).r.length = n
  | 0, _ => rfl
  | n + 1, hn => by
    have ih := kahn_iter_length s hcons hacyc n (by omega)
    have hk := Kahn.along n (Kahn.of_consistent s hcons)
    rw [kahn_iter_succ]
    cases hP : (kahn_iter s.nodes_count s.matrix n
        (kahn_init s.nodes_count s.dependencies_matrix)).P with
    | nil =>
      rw [hP] at hk
      have := (hk.perm_range hacyc).length_eq
      rw [List.length_range] at this
      omega
    | cons c Q =>
      simp only [kahn_step, hP, List.length_append, List.length_cons, List.length_nil]
      omega

theorem kahn_iter_done (s : State) (hcons : Consistent s) (hacyc : Acyclic s) (fuel : Nat)
    (hfuel : s.nodes_count ≤ fuel) :
    kahn_iter s.nodes_count s.matrix fuel (kahn_init s.nodes_count s.dependencies_matrix) =
      kahn_iter s.nodes_count s.matrix s.nodes_count
        (kahn_init s.nodes_count s.dependencies_matrix) := by
  have hlen := kahn_iter_length s hcons hacyc s.nodes_count (Nat.le_refl _)
  have ho := Once.many s.matrix s.nodes_count
    (Once.start s.nodes_count s.dependencies_matrix)
  have hb := length_le_of_nodup_bound ho.nodup ho.bound
  rw [List.length_append, hlen] at hb
  have hP : (kahn_iter s.nodes_count s.matrix s.nodes_count
      (kahn_init s.nodes_count s.dependencies_matrix)).P = [] :=
    List.eq_nil_of_length_eq_zero (by omega)
  have : fuel = s.nodes_count + (fuel - s.nodes_count) := by omega
  rw [this, kahn_iter_add, kahn_iter_nil _ _ _ _ hP]

/-- C20. Parity of the run with a single thread with the serial sorter: for an acyclic
graph with consistent counters (entered with an empty queue, room for `nodes_count` nodes
in the global queue and for `nodes_count * nodes_count` nodes in the local queue), the
first phase of the parallel sorter with one thread returns with the global queue holding
what the serial seeding loop leaves in the queue, the nodes with counter zero in
ascending order; the loop of `thread_topology_calculation` returns from each of its
iterations, after `n ≤ nodes_count` iterations `topology_matrix_index` is `n` and the
result is the first `n` elements of the serial result, so the loop ends after exactly
`nodes_count` iterations with the result of the serial sorter, element for element. -/
theorem single_thread_parity (s0 : State) (tl fuel : Nat) (hready : Ready s0)
    (hcons : Consistent s0) (hacyc : Acyclic s0)
    (htl : s0.nodes_count * s0.nodes_count ≤ tl) (hfuel : s0.nodes_count ≤ fuel) :
    ∃ seeded s1 sa sp,
      for_loop seed_body (List.range s0.nodes_count) { s0 with topology_matrix_index := 0 } =
        Except.ok seeded ∧
      par_run fuel [Action.scan 0, Action.publish 0] (par_initial s0 1 tl) = Except.ok sa ∧
      contents sa.q = contents seeded.q ∧
      contents seeded.q = ((List.range s0.nodes_count).filter
        (fun i => decide (s0.dependencies_matrix i = 0))).map Int.ofNat ∧
      calculate_topology fuel s0 = Except.ok s1 ∧
      s1.topology_matrix_index = s0.nodes_count ∧
      (∀ n, n ≤ s0.nodes_count →
        ∃ sn, par_run fuel (single_schedule n) (par_initial s0 1 tl) = Except.ok sn ∧
          sn.topology_matrix_index = n ∧ result sn.toState = (result s1).take n) ∧
      par_run fuel (single_schedule s0.nodes_count) (par_initial s0 1 tl) = Except.ok sp ∧
      sp.topology_matrix_index = s0.nodes_count ∧
      result sp.toState = result s1 := by
  have hfl := List.length_filter_le (fun i => decide (s0.dependencies_matrix i = 0))
    (List.range s0.nodes_count)
  rw [List.length_range] at hfl
  obtain ⟨q1, es, rs, -, -⟩ := seed_loop_spec (List.range s0.nodes_count)
    { s0 with topology_matrix_index := 0 } [] (rep_of_head_none hready.1)
    (by
      have := hready.2.2.1
      simp only
      omega)
  simp only [List.nil_append] at rs
  obtain ⟨s1, e1, -, -, hl1, -, -⟩ := general_run fuel s0 hready hfuel
  rw [kahn_iter_done s0 hcons hacyc fuel hfuel] at hl1
  have hlenN := kahn_iter_length s0 hcons hacyc s0.nodes_count (Nat.le_refl _)
  obtain ⟨sa, sb, ea, hca, eb, hnb, hmb, hsb⟩ := single_phase_one s0 tl fuel hready htl hfuel
  have hpre : par_run fuel [Action.scan 0, Action.publish 0, Action.start_draining]
      (par_initial s0 1 tl) = Except.ok sb := by
    have := par_run_append fuel [Action.scan 0, Action.publish 0] [Action.start_draining]
      _ sa ea
    simp only [List.cons_append, List.nil_append] at this
    rw [this]
    simp only [par_run, eb]
  have hob : Once sb.nodes_count (kahn_init s0.nodes_count s0.dependencies_matrix) := by
    rw [hnb]
    exact Once.start _ _
  have hall : ∀ n, n ≤ s0.nodes_count →
      ∃ sn, par_run fuel (single_schedule n) (par_initial s0 1 tl) = Except.ok sn ∧
        sn.topology_matrix_index = n ∧ result sn.toState = (result s1).take n := by
    intro n hn
    obtain ⟨sn, Sn, Bn, en, -, -, hsn⟩ := single_run fuel n sb _ _ _ hsb hob
      (by rw [hnb]; exact hfuel)
    rw [hnb, hmb] at hsn
    have hlen := kahn_iter_length s0 hcons hacyc n hn
    refine ⟨sn, ?_, ?_, ?_⟩
    · unfold single_schedule
      rw [par_run_append fuel _ _ _ sb hpre]
      exact en
    · rw [hsn.index, hlen]
    · rw [hsn.res, hl1.res, ← List.map_take]
      congr 1
      have hp : (kahn_iter s0.nodes_count s0.matrix n
          (kahn_init s0.nodes_count s0.dependencies_matrix)).r <+:
          (kahn_iter s0.nodes_count s0.matrix s0.nodes_count
            (kahn_init s0.nodes_count s0.dependencies_matrix)).r := by
        have hsplit : s0.nodes_count = n + (s0.nodes_count - n) := by omega
        have := kahn_iter_extends s0.nodes_count s0.matrix (s0.nodes_count - n)
          (kahn_iter s0.nodes_count s0.matrix n
            (kahn_init s0.nodes_count s0.dependencies_matrix))
        rw [← kahn_iter_add, ← hsplit] at this
        exact this
      have := List.prefix_iff_eq_take.mp hp
      rw [hlen] at this
      exact this
  obtain ⟨sp, ep, hip, hrp⟩ := hall s0.nodes_count (Nat.le_refl _)
  refine ⟨_, s1, sa, sp, es, ea, ?_, rs.contents_eq, e1, ?_, hall, ep, hip, ?_⟩
  · rw [hca]
    exact rs.contents_eq.symm
  · rw [hl1.index, hlenN]
  · rw [hrp]
    apply List.take_of_length_le
    rw [hl1.res, List.length_map, hlenN]

/-- Witness for C20: the diamond graph, with room for 16 nodes in the local queue. -/
theorem single_thread_parity_witness :
    Ready diamond ∧ Consistent diamond ∧ Acyclic diamond ∧
    diamond.nodes_count * diamond.nodes_count ≤ 16 ∧ diamond.nodes_count ≤ 4 ∧
    result_of (calculate_topology 4 diamond) = some [0, 1, 2, 3] ∧
    par_summary_of (par_run 4 [Action.scan 0, Action.publish 0] (par_initial diamond 1 16)) =
      some ([], 0, [0]) ∧
    par_summary_of (par_run 4 (single_schedule 2) (par_initial diamond 1 16)) =
      some ([0, 1], 2, [2]) ∧
    par_summary_of (par_run 4 (single_schedule 4) (par_initial diamond 1 16)) =
      some ([0, 1, 2, 3], 4, []) ∧
    ∃ seeded s1 sa sp,
      for_loop seed_body (List.range diamond.nodes_count)
        { diamond with topology_matrix_index := 0 } = Except.ok seeded ∧
      par_run 4 [Action.scan 0, Action.publish 0] (par_initial diamond 1 16) =
        Except.ok sa ∧
      contents sa.q = contents seeded.q ∧
      contents seeded.q = ((List.range diamond.nodes_count).filter
        (fun i => decide (diamond.dependencies_matrix i = 0))).map Int.ofNat ∧
      calculate_topology 4 diamond = Except.ok s1 ∧
      s1.topology_matrix_index = diamond.nodes_count ∧
      (∀ n, n ≤ diamond.nodes_count →
        ∃ sn, par_run 4 (single_schedule n) (par_initial diamond 1 16) = Except.ok sn ∧
          sn.topology_matrix_index = n ∧ result sn.toState = (result s1).take n) ∧
      par_run 4 (single_schedule diamond.nodes_count) (par_initial diamond 1 16) =
        Except.ok sp ∧
      sp.topology_matrix_index = diamond.nodes_count ∧
      result sp.toState = result s1 :=
  ⟨diamond_ready, diamond_consistent, diamond_acyclic, by decide, by decide, by decide,
    by decide, by decide, by decide,
    single_thread_parity diamond 16 4 diamond_ready diamond_consistent diamond_acyclic
      (by decide) (by decide)⟩

/-! ## The first phase covers the range exactly once -/

theorem owner_assigned {N W x : Nat} (hW : 0 < W) (hx : x < N) :
    owner N W x < W ∧ x ∈ assigned N W (owner N W x) := by
  have hdm := Nat.div_add_mod N W
  have hr : N % W < W := Nat.mod_lt _ hW
  by_cases hlt : x < W * (N / W)
  · have hiv : 0 < N / W := by
      rcases Nat.eq_zero_or_pos (N / W) with h0 | h0
      · rw [h0] at hlt
        simp at hlt
      · exact h0
    have h1 : x / (N / W) < W := by
      apply Nat.div_lt_of_lt_mul
      rw [Nat.mul_comm]
      exact hlt
    have h2 := Nat.div_add_mod x (N / W)
    have h3 := Nat.mod_lt x hiv
    simp only [owner, hlt, if_true, assigned, List.mem_append, List.mem_range'_1]
    refine ⟨h1, Or.inl ⟨?_, ?_⟩⟩
    · rw [Nat.mul_comm]
      omega
    · rw [Nat.mul_comm]
      omega
  · simp only [owner, hlt, if_false, assigned, List.mem_append]
    have hid : N - 1 - x < N % W := by omega
    refine ⟨by omega, Or.inr ?_⟩
    rw [if_pos hid]
    simp only [List.mem_singleton]
    omega

theorem assigned_pairwise (N W id : Nat) (hid : id < W) :
    (assigned N W id).Pairwise (fun a b => a < b) := by
  have hdm := Nat.div_add_mod N W
  have hmul : id * (N / W) + N / W ≤ W * (N / W) := by
    have : (id + 1) * (N / W) ≤ W * (N / W) := Nat.mul_le_mul_right _ hid
    rw [Nat.add_mul, Nat.one_mul] at this
    exact this
  unfold assigned
  rw [List.pairwise_append]
  refine ⟨List.pairwise_lt_range' _ _, by split <;> simp, ?_⟩
  intro a ha b hb
  by_cases hr : id < N % W
  · simp only [hr, if_true, List.mem_singleton] at hb
    simp only [List.mem_range'_1] at ha
    omega
  · simp [hr] at hb

theorem assigned_length_le (N W id : Nat) (hid : id < W) : (assigned N W id).length ≤ N :=
  length_le_of_nodup_bound (assigned_nodup N W id hid)
    (fun _ hx => (assigned_owner hid hx).1)

theorem mem_contribution {N W : Nat} {dep : Nat → Int} {id x : Nat} :
    x ∈ contribution N W dep id ↔ x ∈ assigned N W id ∧ dep x = 0 := by
  simp [contribution, List.mem_filter]

theorem contribution_flat_nodup (N W : Nat) (dep : Nat → Int) (done : List Nat)
    (hnd : done.Nodup) (hb : ∀ w ∈ done, w < W) :
    (done.flatMap (contribution N W dep)).Nodup := by
  rw [List.nodup_flatMap]
  refine ⟨fun w hw => (assigned_nodup N W w (hb w hw)).filter _, ?_⟩
  refine List.Pairwise.imp_of_mem ?_ hnd
  intro a b ha hb2 hne x hxa hxb
  have h1 := (assigned_owner (hb a ha) (mem_contribution.mp hxa).1).2
  have h2 := (assigned_owner (hb b hb2) (mem_contribution.mp hxb).1).2
  exact hne (h1.symm.trans h2)

theorem contribution_flat_bound (N W : Nat) (dep : Nat → Int) (done : List Nat)
    (hb : ∀ w ∈ done, w < W) : ∀ x ∈ done.flatMap (contribution N W dep), x < N := by
  intro x hx
  obtain ⟨w, hw, hxw⟩ := List.mem_flatMap.mp hx
  exact (assigned_owner (hb w hw) (mem_contribution.mp hxw).1).1

theorem contribution_length_le (N W : Nat) (dep : Nat → Int) (id : Nat) (hid : id < W) :
    (contribution N W dep id).length ≤ N :=
  Nat.le_trans (List.length_filter_le _ _) (assigned_length_le N W id hid)

theorem scanned_nodes_initialize_queue (s : ParState) (id : Nat) :
    scanned_nodes (initialize_queue_events s id) =
      assigned s.nodes_count s.threads_count id := by
  have htail : scanned_nodes (Event.local_queue ::
      match scan_assigned s id with
      | Except.error _ => []
      | Except.ok lq =>
        if lq.head = none then []
        else Event.lock :: (move_events (contents lq) ++ [Event.unlock])) = [] := by
    cases scan_assigned s id with
    | error f => rfl
    | ok lq =>
      by_cases hh : lq.head = none
      · simp [hh, scanned_nodes, Event.scanned]
      · have := scanned_nodes_move_events (contents lq)
        simp only [scanned_nodes] at this
        simp [hh, scanned_nodes, Event.scanned, List.filterMap_append, this]
  simp only [initialize_queue_events, scanned_nodes_append, htail, List.append_nil,
    scanned_nodes_scan_events, assigned]
  congr 1
  split
  · simp [scanned_nodes_scan_events]
  · rfl

theorem seed_order_initial (s0 : State) (W tl : Nat) (hready : Ready s0)
    (htl : s0.nodes_count ≤ tl) :
    SeedOrder s0.nodes_count W s0.dependencies_matrix (par_initial s0 W tl) [] where
  nodes := rfl
  threads := rfl
  deps := rfl
  shared := rep_of_head_none hready.1
  locals := fun _ => rep_empty_queue tl
  nodup := List.nodup_nil
  done_iff := by
    intro w
    show w ∈ [] ↔ (0 : Nat) = 2
    simp
  started := fun w h => absurd rfl h
  room := by
    have := hready.2.2.1
    show s0.q.brk + s0.nodes_count ≤ s0.q.limit + 0
    omega
  local_room := htl

theorem seed_order_scan {N W : Nat} {dep : Nat → Int} {s : ParState} {done : List Nat}
    (id : Nat) (lq : Queue) (hd : SeedOrder N W dep s done) (hid : id < s.threads_count)
    (hpc : s.pc id = 0) (hscan : scan_assigned s id = Except.ok lq) :
    SeedOrder N W dep
      { s with thread_queue := store s.thread_queue id lq, pc := store s.pc id 1 } done where
  nodes := hd.nodes
  threads := hd.threads
  deps := hd.deps
  shared := hd.shared
  locals := by
    intro w
    show Rep (store s.thread_queue id lq w)
      ((if store s.pc id 1 w = 1 then contribution N W dep w else []).map Int.ofNat)
    by_cases hw : w = id
    · subst hw
      rw [store_same, store_same, if_pos rfl]
      have := scan_assigned_rep s w lq hscan
      rw [hd.nodes, hd.threads, hd.deps] at this
      exact this
    · rw [store_other _ _ _ _ hw, store_other _ _ _ _ hw]
      exact hd.locals w
  nodup := hd.nodup
  done_iff := by
    intro w
    show w ∈ done ↔ store s.pc id 1 w = 2
    by_cases hw : w = id
    · subst hw
      rw [store_same, hd.done_iff, hpc]
      simp
    · rw [store_other _ _ _ _ hw]
      exact hd.done_iff w
  started := by
    intro w
    show store s.pc id 1 w ≠ 0 → w < W
    by_cases hw : w = id
    · subst hw
      intro _
      rw [← hd.threads]
      exact hid
    · rw [store_other _ _ _ _ hw]
      exact hd.started w
  room := hd.room
  local_room := hd.local_room

theorem seed_order_publish {N W : Nat} {dep : Nat → Int} {s : ParState} {done : List Nat}
    (fuel id : Nat) (g1 lq1 : Queue) (hd : SeedOrder N W dep s done) (hfuel : N ≤ fuel)
    (hid : id < s.threads_count) (hpc : s.pc id = 1)
    (hmove : move_to_global fuel s.q (s.thread_queue id) = Except.ok (g1, lq1)) :
    SeedOrder N W dep
      { s with q := g1, thread_queue := store s.thread_queue id lq1, pc := store s.pc id 2 }
      (done ++ [id]) := by
  have hidW : id < W := hd.threads ▸ hid
  have hnot : id ∉ done := by
    rw [hd.done_iff, hpc]
    decide
  have hnd2 : (done ++ [id]).Nodup := by
    rw [List.nodup_append]
    refine ⟨hd.nodup, List.nodup_singleton _, ?_⟩
    intro a ha hb
    rw [List.mem_singleton] at hb
    exact hnot (hb ▸ ha)
  have hb2 : ∀ w ∈ done ++ [id], w < W := by
    intro w hw
    rw [List.mem_append, List.mem_singleton] at hw
    rcases hw with hw | hw
    · exact hd.started w (by rw [(hd.done_iff w).mp hw]; decide)
    · exact hw ▸ hidW
  have hflat : (done ++ [id]).flatMap (contribution N W dep) =
      done.flatMap (contribution N W dep) ++ contribution N W dep id := by
    simp [List.flatMap_append]
  have hlen := length_le_of_nodup_bound (contribution_flat_nodup N W dep _ hnd2 hb2)
    (contribution_flat_bound N W dep _ hb2)
  rw [hflat, List.length_append] at hlen
  have hloc := hd.locals id
  rw [if_pos hpc] at hloc
  have hroom := hd.room
  obtain ⟨g2, lq2, e2, r1, r2, b1, l1⟩ := move_to_global_total fuel s.q (s.thread_queue id)
    _ _ hd.shared hloc (by simp only [List.length_map]; omega)
    (by simp only [List.length_map]; omega)
  rw [hmove] at e2
  simp only [Except.ok.injEq, Prod.mk.injEq] at e2
  obtain ⟨rfl, rfl⟩ := e2
  simp only [List.length_map] at b1
  exact
    { nodes := hd.nodes
      threads := hd.threads
      deps := hd.deps
      shared := by
        rw [hflat, List.map_append]
        exact r1
      locals := by
        intro w
        show Rep (store s.thread_queue id lq1 w)
          ((if store s.pc id 2 w = 1 then contribution N W dep w else []).map Int.ofNat)
        by_cases hw : w = id
        · subst hw
          rw [store_same, store_same, if_neg (by decide)]
          exact r2
        · rw [store_other _ _ _ _ hw, store_other _ _ _ _ hw]
          exact hd.locals w
      nodup := hnd2
      done_iff := by
        intro w
        show w ∈ done ++ [id] ↔ store s.pc id 2 w = 2
        by_cases hw : w = id
        · subst hw
          rw [store_same]
          simp
        · rw [store_other _ _ _ _ hw, List.mem_append, List.mem_singleton]
          constructor
          · rintro (h | h)
            · exact (hd.done_iff w).mp h
            · exact absurd h hw
          · intro h
            exact Or.inl ((hd.done_iff w).mpr h)
      started := by
        intro w
        show store s.pc id 2 w ≠ 0 → w < W
        by_cases hw : w = id
        · subst hw
          intro _
          exact hidW
        · rw [store_other _ _ _ _ hw]
          exact hd.started w
      room := by
        rw [hflat, List.length_append]
        show g1.brk + N ≤ g1.limit + _
        omega
      local_room := hd.local_room }

/-- One step of a run keeps the ordered invariant of the first phase. -/
theorem seed_order_step (fuel N W : Nat) (dep : Nat → Int) (s s1 : ParState) (a : Action)
    (h : par_step fuel s a = Except.ok s1) (hfuel : N ≤ fuel)
    (hmono : s.draining = true → s1.draining = true)
    (ho : s.draining = false → ∃ done, SeedOrder N W dep s done) :
    s1.draining = false → ∃ done, SeedOrder N W dep s1 done := by
  intro hdr1
  cases a with
  | scan id =>
    simp only [par_step] at h
    split at h
    · rename_i hen
      split at h
      · exact absurd h (by simp)
      · rename_i lq hscan
        simp only [Except.ok.injEq] at h
        subst h
        obtain ⟨done, hd⟩ := ho hen.2.1
        exact ⟨done, seed_order_scan id lq hd hen.1 hen.2.2 hscan⟩
    · exact absurd h (by simp)
  | publish id =>
    simp only [par_step] at h
    split at h
    · rename_i hen
      split at h
      · exact absurd h (by simp)
      · rename_i g1 lq1 hmove
        simp only [Except.ok.injEq] at h
        subst h
        obtain ⟨done, hd⟩ := ho hen.2.1
        exact ⟨done ++ [id], seed_order_publish fuel id g1 lq1 hd hfuel hen.1 hen.2.2 hmove⟩
    · exact absurd h (by simp)
  | start_draining =>
    simp only [par_step] at h
    split at h
    · simp only [Except.ok.injEq] at h
      subst h
      exact absurd hdr1 (by simp)
    · exact absurd h (by simp)
  | iterate id =>
    simp only [par_step] at h
    split at h
    · rename_i hen
      rw [hmono hen.2] at hdr1
      exact absurd hdr1 (by simp)
    · exact absurd h (by simp)

/-- Every run keeps the ordered invariant of the first phase, as long as the second phase
has not started. -/
theorem seed_order_run (fuel N W : Nat) (dep : Nat → Int) (s0 : ParState) (hfuel : N ≤ fuel) :
    ∀ (schedule : List Action) (s s1 : ParState), par_run fuel schedule s = Except.ok s1 →
      ParGood s0 s → (s.draining = false → ∃ done, SeedOrder N W dep s done) →
      s1.draining = false → ∃ done, SeedOrder N W dep s1 done
  | [], s, s1, h, _, ho => by
    simp only [par_run, Except.ok.injEq] at h
    exact h ▸ ho
  | a :: schedule, s, s1, h, hg, ho => by
    simp only [par_run] at h
    split at h
    · exact absurd h (by simp)
    · rename_i s2 hstep
      have hg2 := par_step_good fuel s0 s s2 a hstep hg
      have hself : ParGood s s := ⟨rfl, rfl, rfl, fun h => h, hg.2.2.2.2⟩
      have hmono := (par_step_good fuel s s s2 a hstep hself).2.2.2.1
      exact seed_order_run fuel N W dep s0 hfuel schedule s2 s1 h hg2
        (seed_order_step fuel N W dep s s2 a hstep hfuel hmono ho)

theorem seed_order_publish_room {N W : Nat} {dep : Nat → Int} {s : ParState}
    {done : List Nat} (id : Nat) (hd : SeedOrder N W dep s done) (hid : id < W)
    (hpc : s.pc id = 1) :
    s.q.brk + (contribution N W dep id).length ≤ s.q.limit ∧
      (contribution N W dep id).length ≤ N := by
  have hnot : id ∉ done := by
    rw [hd.done_iff, hpc]
    decide
  have hnd2 : (done ++ [id]).Nodup := by
    rw [List.nodup_append]
    refine ⟨hd.nodup, List.nodup_singleton _, ?_⟩
    intro a ha hb
    rw [List.mem_singleton] at hb
    exact hnot (hb ▸ ha)
  have hb2 : ∀ w ∈ done ++ [id], w < W := by
    intro w hw
    rw [List.mem_append, List.mem_singleton] at hw
    rcases hw with hw | hw
    · exact hd.started w (by rw [(hd.done_iff w).mp hw]; decide)
    · exact hw ▸ hid
  have hflat : (done ++ [id]).flatMap (contribution N W dep) =
      done.flatMap (contribution N W dep) ++ contribution N W dep id := by
    simp [List.flatMap_append]
  have hlen := length_le_of_nodup_bound (contribution_flat_nodup N W dep _ hnd2 hb2)
    (contribution_flat_bound N W dep _ hb2)
  rw [hflat, List.length_append] at hlen
  have hroom := hd.room
  constructor <;> omega

theorem edgeless_ready : Ready edgeless := ⟨rfl, rfl, by decide, rfl⟩

theorem edgeless_consistent : Consistent edgeless := by
  unfold Consistent in_degree
  decide

theorem seeds_of_some {r : Except Fault ParState} {x : List Int × Nat × Nat × Bool}
    (h : seeds_of r = some x) :
    ∃ s, r = Except.ok s ∧ (contents s.q, s.pc 0, s.pc 1, s.draining) = x := by
  cases r with
  | error f => simp [seeds_of] at h
  | ok s =>
    simp only [seeds_of, Option.some.injEq] at h
    exact ⟨s, rfl, h⟩

/-- C19. Phase 1 covers the range exactly once: for every graph with consistent counters
and every number `W ≥ 1` of threads, in every state that a run reaches before the second
phase starts (any schedule, with room for `nodes_count` nodes in the global queue and in
each local queue), every node index below `nodes_count` is scanned by `initialize_queue`
of exactly one thread, each thread scans in ascending order and only node indices below
`nodes_count`, and a thread that has not scanned yet can scan and one that has scanned
can run its locked loop, both without fault; when all threads have returned, the global
queue is the concatenation, in the order `done` in which the threads ran their locked
loops, of the scanned nodes with counter zero of each thread in scanning order, so it
holds exactly the nodes with in-degree zero, each once. -/
theorem phase_one_cover (s0 : State) (W tl fuel : Nat) (hready : Ready s0)
    (hcons : Consistent s0) (hW : 0 < W) (htl : s0.nodes_count ≤ tl)
    (hfuel : s0.nodes_count ≤ fuel) (schedule : List Action) (s : ParState)
    (hrun : par_run fuel schedule (par_initial s0 W tl) = Except.ok s)
    (hphase : s.draining = false) :
    (∀ x, x < s0.nodes_count →
      ∃! id, id < W ∧ x ∈ scanned_nodes (initialize_queue_events s id)) ∧
    (∀ id, id < W →
      (scanned_nodes (initialize_queue_events s id)).Pairwise (fun a b => a < b) ∧
      ∀ x ∈ scanned_nodes (initialize_queue_events s id), x < s0.nodes_count) ∧
    (∀ id, id < W →
      (s.pc id = 0 → ∃ s1, par_step fuel s (Action.scan id) = Except.ok s1) ∧
      (s.pc id = 1 → ∃ s1, par_step fuel s (Action.publish id) = Except.ok s1)) ∧
    ((∀ id, id < W → s.pc id = 2) →
      (∃ done : List Nat, done.Perm (List.range W) ∧
        contents s.q = (done.flatMap (fun id =>
          (scanned_nodes (initialize_queue_events s id)).filter
            (fun i => decide (s0.dependencies_matrix i = 0)))).map Int.ofNat) ∧
      (contents s.q).Nodup ∧
      (∀ j, Int.ofNat j ∈ contents s.q ↔ j < s0.nodes_count ∧ in_degree s0 j = 0)) := by
  have hg0 := initial_good s0 W tl hready.1 hcons
  obtain ⟨done, hd⟩ := seed_order_run fuel s0.nodes_count W s0.dependencies_matrix
    (par_initial s0 W tl) hfuel schedule _ s hrun hg0
    (fun _ => ⟨[], seed_order_initial s0 W tl hready htl⟩) hphase
  have hsc : ∀ id, scanned_nodes (initialize_queue_events s id) =
      assigned s0.nodes_count W id := by
    intro id
    rw [scanned_nodes_initialize_queue, hd.nodes, hd.threads]
  refine ⟨?_, ?_, ?_, ?_⟩
  · intro x hx
    obtain ⟨h1, h2⟩ := owner_assigned hW hx
    refine ⟨owner s0.nodes_count W x, ⟨h1, by rw [hsc]; exact h2⟩, ?_⟩
    rintro id ⟨hid, hmem⟩
    rw [hsc] at hmem
    exact (assigned_owner hid hmem).2.symm
  · intro id hid
    rw [hsc]
    exact ⟨assigned_pairwise _ _ _ hid, fun x hx => (assigned_owner hid hx).1⟩
  · intro id hid
    have hidt : id < s.threads_count := by
      rw [hd.threads]
      exact hid
    constructor
    · intro hpc
      obtain ⟨lq, e, -⟩ := scan_assigned_total s id (by
        rw [hd.nodes, hd.threads]
        exact Nat.le_trans (assigned_length_le _ _ _ hid) hd.local_room)
      refine ⟨{ s with thread_queue := store s.thread_queue id lq, pc := store s.pc id 1 }, ?_⟩
      simp only [par_step]
      rw [if_pos ⟨hidt, hphase, hpc⟩, e]
    · intro hpc
      obtain ⟨hr1, hr2⟩ := seed_order_publish_room id hd hid hpc
      have hloc := hd.locals id
      rw [if_pos hpc] at hloc
      obtain ⟨g1, lq1, e, -⟩ := move_to_global_total fuel s.q (s.thread_queue id) _ _
        hd.shared hloc (by simp only [List.length_map]; omega)
        (by simp only [List.length_map]; omega)
      refine ⟨{ s with
        q := g1
        thread_queue := store s.thread_queue id lq1
        pc := store s.pc id 2 }, ?_⟩
      simp only [par_step]
      rw [if_pos ⟨hidt, hphase, hpc⟩, e]
  · intro hall
    have hb : ∀ w ∈ done, w < W := by
      intro w hw
      exact hd.started w (by rw [(hd.done_iff w).mp hw]; decide)
    have hfun : (fun id => (scanned_nodes (initialize_queue_events s id)).filter
        (fun i => decide (s0.dependencies_matrix i = 0))) =
        contribution s0.nodes_count W s0.dependencies_matrix := by
      funext id
      rw [hsc]
      rfl
    have hperm : done.Perm (List.range W) := by
      rw [List.perm_ext_iff_of_nodup hd.nodup (List.nodup_range W)]
      intro w
      rw [hd.done_iff, List.mem_range]
      constructor
      · intro h
        exact hd.started w (by rw [h]; decide)
      · exact hall w
    have hinj : Function.Injective Int.ofNat := fun a b h => Int.ofNat.inj h
    rw [hfun, hd.shared.contents_eq]
    refine ⟨⟨done, hperm, rfl⟩,
      (contribution_flat_nodup _ _ _ done hd.nodup hb).map hinj, ?_⟩
    intro j
    rw [mem_map_ofNat, List.mem_flatMap]
    constructor
    · rintro ⟨w, hw, hx⟩
      obtain ⟨ha, hz⟩ := mem_contribution.mp hx
      have hj := (assigned_owner (hb w hw) ha).1
      have hc := hcons j hj
      rw [hz] at hc
      exact ⟨hj, by exact_mod_cast hc.symm⟩
    · rintro ⟨hj, hz⟩
      obtain ⟨h1, h2⟩ := owner_assigned hW hj
      have hc := hcons j hj
      rw [hz] at hc
      exact ⟨owner s0.nodes_count W j, (hd.done_iff _).mpr (hall _ h1),
        mem_contribution.mpr ⟨h2, by simpa using hc⟩⟩

/-- Witness for C19: the graph with 5 nodes and no edge with two threads, thread 1
running its locked loop first. -/
theorem phase_one_cover_witness :
    Ready edgeless ∧ Consistent edgeless ∧ 0 < 2 ∧ edgeless.nodes_count ≤ 5 ∧
    seeds_of (par_run 5 seed_schedule (par_initial edgeless 2 5)) =
      some ([2, 3, 0, 1, 4], 2, 2, false) ∧
    ∃ s, par_run 5 seed_schedule (par_initial edgeless 2 5) = Except.ok s ∧
      s.draining = false ∧
      (∀ x, x < edgeless.nodes_count →
        ∃! id, id < 2 ∧ x ∈ scanned_nodes (initialize_queue_events s id)) ∧
      (∀ id, id < 2 →
        (scanned_nodes (initialize_queue_events s id)).Pairwise (fun a b => a < b) ∧
        ∀ x ∈ scanned_nodes (initialize_queue_events s id), x < edgeless.nodes_count) ∧
      (∀ id, id < 2 →
        (s.pc id = 0 → ∃ s1, par_step 5 s (Action.scan id) = Except.ok s1) ∧
        (s.pc id = 1 → ∃ s1, par_step 5 s (Action.publish id) = Except.ok s1)) ∧
      ((∀ id, id < 2 → s.pc id = 2) →
        (∃ done : List Nat, done.Perm (List.range 2) ∧
          contents s.q = (done.flatMap (fun id =>
            (scanned_nodes (initialize_queue_events s id)).filter
              (fun i => decide (edgeless.dependencies_matrix i = 0)))).map Int.ofNat) ∧
        (contents s.q).Nodup ∧
        (∀ j, Int.ofNat j ∈ contents s.q ↔
          j < edgeless.nodes_count ∧ in_degree edgeless j = 0)) := by
  have hobs : seeds_of (par_run 5 seed_schedule (par_initial edgeless 2 5)) =
      some ([2, 3, 0, 1, 4], 2, 2, false) := by decide
  obtain ⟨s, hs, hx⟩ := seeds_of_some hobs
  simp only [Prod.mk.injEq] at hx
  exact ⟨edgeless_ready, edgeless_consistent, by decide, by decide, hobs, s, hs, hx.2.2.2,
    phase_one_cover edgeless 2 5 5 edgeless_ready edgeless_consistent (by decide)
      (by decide) (by decide) seed_schedule s hs hx.2.2.2⟩

/-! ## The set of emitted nodes -/

theorem lasso_with_source_ready : Ready lasso_with_source := ⟨rfl, rfl, by decide, rfl⟩

theorem lasso_with_source_consistent : Consistent lasso_with_source := by
  unfold Consistent in_degree
  decide

theorem lasso_with_source_cycle : OnCycle lasso_with_source 1 := by
  have e10 : Edge lasso_with_source 1 0 := ⟨by decide, by decide, by decide⟩
  have e01 : Edge lasso_with_source 0 1 := ⟨by decide, by decide, by decide⟩
  exact Relation.TransGen.tail (Relation.TransGen.single e10) e01

theorem lasso_with_source_two : ¬ OnCycle lasso_with_source 2 := by
  intro h
  obtain ⟨b, he, -⟩ := Relation.TransGen.head'_iff.mp h
  have hb : b < 4 := he.2.1
  have hm : lasso_with_source.matrix 2 b = 1 := he.2.2
  have : ∀ b, b < 4 → lasso_with_source.matrix 2 b ≠ 1 := by decide
  exact this b hb hm

/-- C22. Exact set emitted by the serial sorter: for every graph with consistent
counters, acyclic or not, `calculate_topology` ends without fault for every fuel of at
least `nodes_count`; its result holds node indices only, a node index is in the result
if and only if it neither lies on a directed cycle nor can be reached from a node that
lies on one (so a node behind a cycle is omitted although it is on no cycle), and every
predecessor of an emitted node is in the result at a smaller position. -/
theorem serial_emitted_set (fuel : Nat) (s : State) (hready : Ready s)
    (hcons : Consistent s) (hfuel : s.nodes_count ≤ fuel) :
    ∃ s1, calculate_topology fuel s = Except.ok s1 ∧
      (∀ v ∈ result s1, ∃ j, j < s.nodes_count ∧ v = Int.ofNat j) ∧
      (∀ j, Int.ofNat j ∈ result s1 ↔
        (j < s.nodes_count ∧ ¬ OnCycle s j ∧
          ¬ ∃ c, OnCycle s c ∧ Relation.ReflTransGen (Edge s) c j)) ∧
      (∀ j, j < s.nodes_count → ¬ OnCycle s j →
        (∃ c, OnCycle s c ∧ Relation.ReflTransGen (Edge s) c j) →
        Int.ofNat j ∉ result s1) ∧
      (∀ i j, Edge s i j → Int.ofNat j ∈ result s1 →
        Int.ofNat i ∈ result s1 ∧ position (result s1) i < position (result s1) j) := by
  obtain ⟨s1, r, e, -, hres, -, hk⟩ := serial_run fuel s hready hcons hfuel
  have hnd : r.Nodup := by simpa using hk.nodup
  have hdown : ∀ j, j ∈ r → ¬ ∃ c, OnCycle s c ∧ Relation.ReflTransGen (Edge s) c j := by
    rintro j hj ⟨c, hc, hreach⟩
    rcases Relation.reflTransGen_iff_eq_or_transGen.mp hreach with heq | hp
    · exact hk.not_on_cycle hc (heq ▸ hj)
    · obtain ⟨a, b, hab⟩ := List.append_of_mem hj
      have hca : c ∈ a := hk.before hp a b hab
      exact hk.not_on_cycle hc (by rw [hab]; exact List.mem_append_left _ hca)
  refine ⟨s1, e, ?_, ?_, ?_, ?_⟩
  · intro v hv
    rw [hres] at hv
    obtain ⟨j, hj, rfl⟩ := List.mem_map.mp hv
    exact ⟨j, hk.bound j (by simpa using hj), rfl⟩
  · intro j
    rw [hres, mem_map_ofNat]
    constructor
    · intro hj
      exact ⟨hk.bound j (by simpa using hj), fun hc => hk.not_on_cycle hc hj, hdown j hj⟩
    · rintro ⟨hj, -, hno⟩
      by_contra hjr
      obtain ⟨c, -, hcyc, hreach⟩ := hk.missing_from_cycle hj hjr
      exact hno ⟨c, hcyc, hreach⟩
  · intro j _ _ hreach hj
    rw [hres, mem_map_ofNat] at hj
    exact hdown j hj hreach
  · intro i j he hj
    rw [hres, mem_map_ofNat] at hj
    obtain ⟨a, b, hab⟩ := List.append_of_mem hj
    have hia : i ∈ a := hk.order a j b hab i he.1 he.2.2
    rw [hres]
    refine ⟨mem_map_ofNat.mpr (by rw [hab]; exact List.mem_append_left _ hia), ?_⟩
    exact (position_lt_of_before hnd hab hia).1

/-- Witness for C22: the cycle through 0 and 1 with node 2 behind it and the source 3;
the result is `[3]`, and node 2 is omitted although it lies on no cycle. -/
theorem serial_emitted_set_witness :
    Ready lasso_with_source ∧ Consistent lasso_with_source ∧
    lasso_with_source.nodes_count ≤ 4 ∧
    result_of (calculate_topology 4 lasso_with_source) = some [3] ∧
    OnCycle lasso_with_source 1 ∧ ¬ OnCycle lasso_with_source 2 ∧
    Edge lasso_with_source 1 2 ∧
    ∃ s1, calculate_topology 4 lasso_with_source = Except.ok s1 ∧
      (∀ v ∈ result s1, ∃ j, j < lasso_with_source.nodes_count ∧ v = Int.ofNat j) ∧
      (∀ j, Int.ofNat j ∈ result s1 ↔
        (j < lasso_with_source.nodes_count ∧ ¬ OnCycle lasso_with_source j ∧
          ¬ ∃ c, OnCycle lasso_with_source c ∧
            Relation.ReflTransGen (Edge lasso_with_source) c j)) ∧
      (∀ j, j < lasso_with_source.nodes_count → ¬ OnCycle lasso_with_source j →
        (∃ c, OnCycle lasso_with_source c ∧
          Relation.ReflTransGen (Edge lasso_with_source) c j) →
        Int.ofNat j ∉ result s1) ∧
      (∀ i j, Edge lasso_with_source i j → Int.ofNat j ∈ result s1 →
        Int.ofNat i ∈ result s1 ∧ position (result s1) i < position (result s1) j) :=
  ⟨lasso_with_source_ready, lasso_with_source_consistent, by decide, by decide,
    lasso_with_source_cycle, lasso_with_source_two, ⟨by decide, by decide, by decide⟩,
    serial_emitted_set 4 lasso_with_source lasso_with_source_ready
      lasso_with_source_consistent (by decide)⟩

/-! ## The parallel sorter on a graph with a cycle -/

/-- When every node stands in `r` behind all its predecessors, every node from which a
node of `r` can be reached stands before it. -/
theorem order_before {N : Nat} {m : Nat → Nat → Int} {r : List Nat}
    (horder : ∀ a j b, r = a ++ j :: b → ∀ i, i < N → m i j = 1 → i ∈ a) {i j : Nat}
    (hp : Relation.TransGen (fun a b => a < N ∧ b < N ∧ m a b = 1) i j) :
    ∀ a b, r = a ++ j :: b → i ∈ a := by
  induction hp with
  | single he => exact fun a b hab => horder a _ b hab i he.1 he.2.2
  | @tail k l _ he ih =>
    intro a b hab
    have hk := horder a l b hab k he.1 he.2.2
    obtain ⟨a1, a2, ha⟩ := List.append_of_mem hk
    have := ih a1 (a2 ++ l :: b) (by rw [hab, ha]; simp)
    rw [ha]
    exact List.mem_append_left _ this

theorem order_not_on_cycle {N : Nat} {m : Nat → Nat → Int} {r : List Nat}
    (horder : ∀ a j b, r = a ++ j :: b → ∀ i, i < N → m i j = 1 → i ∈ a) (hnd : r.Nodup)
    {c : Nat} (hp : Relation.TransGen (fun a b => a < N ∧ b < N ∧ m a b = 1) c c) :
    c ∉ r := by
  intro hc
  obtain ⟨a, b, hab⟩ := List.append_of_mem hc
  have hca := order_before horder hp a b hab
  rw [hab, List.nodup_append] at hnd
  exact hnd.2.2 hca (List.mem_cons_self _ _)

theorem length_lt_of_missing {r : List Nat} {N c : Nat} (hnd : r.Nodup)
    (hb : ∀ x ∈ r, x < N) (hc : c < N) (hcr : c ∉ r) : r.length < N := by
  have hsub : r ⊆ (List.range N).erase c := by
    intro x hx
    have hxc : x ≠ c := fun e => hcr (e ▸ hx)
    rw [List.mem_erase_of_ne hxc]
    exact List.mem_range.mpr (hb x hx)
  have hle := (List.subperm_of_subset hnd hsub).length_le
  rw [List.length_erase_of_mem (List.mem_range.mpr hc), List.length_range] at hle
  omega

/-- In the second phase the result of a graph with a node on a cycle is shorter than
`nodes_count`. -/
theorem ParLink.index_lt {s : ParState} {tq : Nat → Queue} {r S : List Nat}
    {B : Nat → List Nat} (hl : ParLink s tq r S B) {c : Nat} (hcyc : OnCycle s.toState c) :
    s.topology_matrix_index < s.nodes_count := by
  have hcN : c < s.nodes_count := by
    obtain ⟨b, he, -⟩ := Relation.TransGen.head'_iff.mp hcyc
    exact he.1
  have hnd : r.Nodup := (List.nodup_append.mp hl.inv.nodup).1
  have hcr : c ∉ r := order_not_on_cycle hl.inv.order hnd hcyc
  rw [hl.index]
  exact length_lt_of_missing hnd (fun x hx => hl.inv.bound x (List.mem_append_left _ hx))
    hcN hcr

/-- The locked loop over the local queue of thread `w` returns when the global queue has
room for `nodes_count` nodes in all and the fuel covers the local queue; it keeps the
invariant and the room. -/
theorem flush_pending_progress (w : Nat) (tq : Nat → Queue) (r : List Nat) :
    ∀ (fuel : Nat) (s : ParState) (lq : Queue) (S : List Nat) (B : Nat → List Nat),
      w < s.threads_count → ParLink s (store tq w lq) r S B → (B w).length ≤ fuel →
      s.q.brk + s.nodes_count ≤ s.q.limit + (r.length + S.length) →
      ∃ s1 lq1 S1, flush_pending fuel s lq = Except.ok (s1, lq1) ∧
        ParLink s1 (store tq w lq1) r S1 (store B w []) ∧ Frame s s1 ∧
        s1.q.brk + s1.nodes_count ≤ s1.q.limit + (r.length + S1.length) ∧
        lq1.brk = lq.brk ∧ lq1.limit = lq.limit := by
  intro fuel
  induction fuel with
  | zero =>
    intro s lq S B hw hl hfuel hroom
    have hrep := hl.locals w
    rw [store_same] at hrep
    have hB : B w = [] := List.eq_nil_of_length_eq_zero (by omega)
    rw [hB] at hrep
    refine ⟨s, lq, S, ?_, ?_, Frame.refl s, hroom, rfl, rfl⟩
    · simp only [flush_pending, Rep.head_none hrep]
    · have : store B w [] = B := by rw [← hB, store_self]
      rw [this]
      exact hl
  | succ fuel ih =>
    intro s lq S B hw hl hfuel hroom
    have hrep := hl.locals w
    rw [store_same] at hrep
    cases hB : B w with
    | nil =>
      rw [hB] at hrep
      refine ⟨s, lq, S, ?_, ?_, Frame.refl s, hroom, rfl, rfl⟩
      · simp only [flush_pending, Rep.head_none hrep]
      · have : store B w [] = B := by rw [← hB, store_self]
        rw [this]
        exact hl
    | cons j rest =>
      rw [hB] at hrep hfuel
      simp only [List.length_cons] at hfuel
      obtain ⟨a, ha, hval, hadv⟩ := Rep.advance hrep
      have hinv := hl.inv.flush_one hw hB
      have hlocals : ∀ k, Rep (store tq w
            { lq with cells := store lq.cells a none, head := (deref lq.cells a).next } k)
          ((store B w rest k).map Int.ofNat) := by
        intro k
        by_cases hk : k = w
        · subst hk
          simpa [store_same] using hadv
        · have := hl.locals k
          simpa [store_other _ _ _ _ hk] using this
      have hrest : (store B w rest w).length ≤ fuel := by
        rw [store_same]
        omega
      by_cases hd : s.dependencies_matrix j - 1 = 0
      · rw [if_pos hd] at hinv
        have hlen := length_le_of_nodup_bound hinv.nodup hinv.bound
        simp only [List.length_append, List.length_cons, List.length_nil] at hlen
        obtain ⟨h1, h2, h3, h4⟩ := push_value_rep (Int.ofNat j) hl.shared (by omega)
        have hp : push_value s.q (Int.ofNat j) = (0, (push_value s.q (Int.ofNat j)).2) := by
          rw [← h1]
        obtain ⟨s1, lq1, S1, e1, hl1, hf1, hr1, hb1, hlim1⟩ := ih
          { s with
            q := (push_value s.q (Int.ofNat j)).2
            dependencies_matrix :=
              store s.dependencies_matrix j (s.dependencies_matrix j - 1) }
          { lq with cells := store lq.cells a none, head := (deref lq.cells a).next }
          (S ++ [j]) (store B w rest) hw
          { index := hl.index
            res := hl.res
            shared := by simpa using h2
            locals := hlocals
            inv := hinv }
          hrest
          (by
            show (push_value s.q (Int.ofNat j)).2.brk + s.nodes_count ≤
              (push_value s.q (Int.ofNat j)).2.limit + (r.length + (S ++ [j]).length)
            simp only [List.length_append, List.length_cons, List.length_nil]
            omega)
        rw [store_store] at hl1
        refine ⟨s1, lq1, S1, ?_, hl1,
          ⟨hf1.1, hf1.2, hf1.3, hf1.4, hf1.5, hf1.6, hf1.7, hf1.8⟩, hr1, hb1, hlim1⟩
        simp only [flush_pending, ha, hval, toNat_ofNat, store_same]
        rw [if_pos hd, hp]
        exact e1
      · rw [if_neg hd] at hinv
        obtain ⟨s1, lq1, S1, e1, hl1, hf1, hr1, hb1, hlim1⟩ := ih
          { s with
            dependencies_matrix :=
              store s.dependencies_matrix j (s.dependencies_matrix j - 1) }
          { lq with cells := store lq.cells a none, head := (deref lq.cells a).next }
          S (store B w rest) hw
          { index := hl.index
            res := hl.res
            shared := hl.shared
            locals := hlocals
            inv := hinv }
          hrest hroom
        rw [store_store] at hl1
        refine ⟨s1, lq1, S1, ?_, hl1,
          ⟨hf1.1, hf1.2, hf1.3, hf1.4, hf1.5, hf1.6, hf1.7, hf1.8⟩, hr1, hb1, hlim1⟩
        simp only [flush_pending, ha, hval, toNat_ofNat, store_same]
        rw [if_neg hd]
        exact e1

/-- One iteration of the loop of `thread_topology_calculation` by thread `w` returns in
every state of the second phase with room, and keeps the invariant and the room. -/
theorem thread_iteration_progress (fuel w : Nat) (s : ParState) (r S : List Nat)
    (B : Nat → List Nat) (hw : w < s.threads_count) (hl : ParLink s s.thread_queue r S B)
    (hroom : ParRoom s r S) (hfuel : s.nodes_count ≤ fuel) :
    ∃ s1 r1 S1 B1, thread_iteration fuel w s = Except.ok s1 ∧
      ParLink s1 s1.thread_queue r1 S1 B1 ∧ ParRoom s1 r1 S1 ∧
      s1.draining = s.draining := by
  have hBlen : (B w).length ≤ s.nodes_count :=
    length_le_of_nodup_bound (hl.inv.local_nodup w) (fun x hx => hl.inv.local_bound w x hx)
  have hl0 : ParLink s (store s.thread_queue w (s.thread_queue w)) r S B := by
    rw [store_self]
    exact hl
  obtain ⟨s2, lq2, S2, e2, hl2, hfr, hr2, hb2, hlim2⟩ := flush_pending_progress w
    s.thread_queue r fuel s (s.thread_queue w) S B hw hl0 (by omega) hroom.shared
  have hw2 : w < s2.threads_count := by rw [hfr.threads_count]; exact hw
  have hN2 : s2.nodes_count = s.nodes_count := hfr.nodes_count
  have hlw := (hroom.locals w).1
  have hlimw := (hroom.locals w).2
  have hlq2 : Rep lq2 [] := by
    have := hl2.locals w
    simpa [store_same] using this
  have hlen2 := length_le_of_nodup_bound hl2.inv.nodup hl2.inv.bound
  obtain ⟨p1, p2, p3, p4⟩ := pop_value_link S2 hl2.shared
  cases hp : pop_value s2.q with
  | mk cur g2 =>
    simp only [hp] at p1 p2 p3 p4
    cases S2 with
    | nil =>
      have hc : cur = -1 := by simpa using p1
      simp only [List.length_nil] at hr2
      refine ⟨{ s2 with q := g2, thread_queue := store s2.thread_queue w lq2 }, r, [],
        store B w [], ?_, ?_, ?_, hfr.draining⟩
      · simp only [thread_iteration, e2, hp, hc]
        rfl
      · exact
          { index := hl2.index
            res := hl2.res
            shared := p2
            locals := by
              intro k
              have := hl2.locals k
              simpa [hfr.thread_queue] using this
            inv := hl2.inv }
      · exact
          { shared := by
              show g2.brk + s2.nodes_count ≤ g2.limit + (r.length + 0)
              omega
            locals := by
              intro k
              show (store s2.thread_queue w lq2 k).brk ≤ r.length * s2.nodes_count ∧
                s2.nodes_count * s2.nodes_count ≤ (store s2.thread_queue w lq2 k).limit
              rw [hN2]
              by_cases hk : k = w
              · subst hk
                rw [store_same]
                exact ⟨by omega, by omega⟩
              · rw [store_other _ _ _ _ hk, hfr.thread_queue]
                exact hroom.locals k }
    | cons c S3 =>
      have hc : cur = Int.ofNat c := by simpa using p1
      have hcne : cur ≠ -1 := by
        have h0 : (0 : Int) ≤ Int.ofNat c := Int.ofNat_nonneg c
        omega
      simp only [List.length_append, List.length_cons] at hlen2 hr2
      have hidx : s2.topology_matrix_index < s2.nodes_count := by
        rw [hl2.index]
        omega
      have hsl : (successors s2.nodes_count s2.matrix c).length ≤ s2.nodes_count := by
        have := List.length_filter_le (fun i => decide (s2.matrix c i = 1))
          (List.range s2.nodes_count)
        rw [List.length_range] at this
        exact this
      have hmul : (r.length + 1) * s.nodes_count ≤ s.nodes_count * s.nodes_count :=
        Nat.mul_le_mul_right _ (by omega)
      rw [Nat.add_mul, Nat.one_mul] at hmul
      obtain ⟨lq3, e3, r3, b3, l3⟩ := local_loop_total (fun i => s2.matrix c i = 1)
        (expand_body
          { s2 with
            q := g2
            topology_matrix := store s2.topology_matrix s2.topology_matrix_index cur
            topology_matrix_index := s2.topology_matrix_index + 1 } cur)
        (by
          intro lq i
          by_cases hm : s2.matrix c i = 1 <;> simp [expand_body, hc, toNat_ofNat, hm])
        (List.range s2.nodes_count) lq2 [] hlq2
        (by
          have : (List.filter (fun i => decide (s2.matrix c i = 1))
              (List.range s2.nodes_count)).length ≤ s2.nodes_count := hsl
          beta_reduce
          omega)
      have hb3 : lq3.brk = lq2.brk + (successors s2.nodes_count s2.matrix c).length := b3
      have hinv := hl2.inv.emit hw2 (store_same _ _ _)
      rw [store_store] at hinv
      refine ⟨{ s2 with
          q := g2
          topology_matrix := store s2.topology_matrix s2.topology_matrix_index cur
          topology_matrix_index := s2.topology_matrix_index + 1
          thread_queue := store s2.thread_queue w lq3 }, r ++ [c], S3,
        store B w (successors s2.nodes_count s2.matrix c), ?_, ?_, ?_, hfr.draining⟩
      · simp only [thread_iteration, e2, hp, hcne, ne_eq, not_false_eq_true, if_true, hidx, e3]
      · exact
          { index := by
              show s2.topology_matrix_index + 1 = (r ++ [c]).length
              rw [hl2.index]
              simp
            res := by
              have h1 := result_snoc s2.toState cur
              have h2 := hl2.res
              simp only [result] at h1 h2 ⊢
              rw [h1, h2, hc]
              simp
            shared := p2
            locals := by
              intro k
              show Rep (store s2.thread_queue w lq3 k) _
              by_cases hk : k = w
              · subst hk
                rw [store_same, store_same]
                simpa using r3
              · have := hl2.locals k
                rw [store_other _ _ _ _ hk, store_other _ _ _ _ hk] at this
                rw [store_other _ _ _ _ hk, store_other _ _ _ _ hk, hfr.thread_queue]
                exact this
            inv := hinv }
      · exact
          { shared := by
              show g2.brk + s2.nodes_count ≤ g2.limit + ((r ++ [c]).length + S3.length)
              simp only [List.length_append, List.length_cons, List.length_nil]
              omega
            locals := by
              intro k
              show (store s2.thread_queue w lq3 k).brk ≤ (r ++ [c]).length * s2.nodes_count ∧
                s2.nodes_count * s2.nodes_count ≤ (store s2.thread_queue w lq3 k).limit
              simp only [List.length_append, List.length_cons, List.length_nil, Nat.add_mul,
                Nat.one_mul, Nat.zero_add]
              rw [hN2] at hsl hb3 ⊢
              by_cases hk : k = w
              · subst hk
                rw [store_same]
                exact ⟨by omega, by omega⟩
              · rw [store_other _ _ _ _ hk, hfr.thread_queue]
                have := hroom.locals k
                exact ⟨by omega, this.2⟩ }

theorem room_initial (s0 : State) (W tl : Nat) : RoomGood tl (par_initial s0 W tl) :=
  ⟨fun _ => rfl, fun h => absurd h (by simp [par_initial])⟩

/-- One step of a run with room keeps the room. -/
theorem room_step (fuel W tl : Nat) (dep : Nat → Int) (p0 s s1 : ParState) (a : Action)
    (h : par_step fuel s a = Except.ok s1) (hfuel : s.nodes_count ≤ fuel)
    (htl : s.nodes_count * s.nodes_count ≤ tl) (hg1 : ParGood p0 s1)
    (ho : s.draining = false → ∃ done, SeedOrder s.nodes_count W dep s done)
    (hr : RoomGood tl s) : RoomGood tl s1 := by
  cases a with
  | scan id =>
    simp only [par_step] at h
    split at h
    · rename_i hen
      split at h
      · exact absurd h (by simp)
      · simp only [Except.ok.injEq] at h
        subst h
        exact ⟨fun _ => hr.1 hen.2.1, fun hd => absurd (hen.2.1.symm.trans hd) (by simp)⟩
    · exact absurd h (by simp)
  | publish id =>
    simp only [par_step] at h
    split at h
    · rename_i hen
      split at h
      · exact absurd h (by simp)
      · simp only [Except.ok.injEq] at h
        subst h
        exact ⟨fun _ => hr.1 hen.2.1, fun hd => absurd (hen.2.1.symm.trans hd) (by simp)⟩
    · exact absurd h (by simp)
  | start_draining =>
    simp only [par_step] at h
    split at h
    · rename_i hen
      simp only [Except.ok.injEq] at h
      subst h
      refine ⟨fun hd => absurd hd (by simp), fun _ => ?_⟩
      obtain ⟨-, -, -, -, hph⟩ := hg1
      rcases hph with ⟨hd, -⟩ | ⟨-, r, S, B, hl⟩
      · exact absurd hd (by simp)
      · obtain ⟨done, hd⟩ := ho hen.1
        have hr0 : r.length = 0 := hl.index.symm
        have hS : S.length = (done.flatMap (contribution s.nodes_count W dep)).length := by
          have h1 : contents s.q = S.map Int.ofNat := hl.shared.contents_eq
          have h2 := hd.shared.contents_eq
          have := congrArg List.length (h1.symm.trans h2)
          simpa using this
        have hroom := hd.room
        have hlim := hr.1 hen.1
        refine ⟨r, S, B, hl, ?_, ?_⟩
        · show s.q.brk + s.nodes_count ≤ s.q.limit + (r.length + S.length)
          omega
        · intro w
          show (empty_queue s.thread_limit).brk ≤ r.length * s.nodes_count ∧
            s.nodes_count * s.nodes_count ≤ (empty_queue s.thread_limit).limit
          have hb : (empty_queue s.thread_limit).brk = 0 := rfl
          have hl2 : (empty_queue s.thread_limit).limit = s.thread_limit := rfl
          rw [hb, hl2, hlim]
          exact ⟨Nat.zero_le _, htl⟩
    · exact absurd h (by simp)
  | iterate id =>
    simp only [par_step] at h
    split at h
    · rename_i hen
      obtain ⟨r, S, B, hl, hroom⟩ := hr.2 hen.2
      obtain ⟨s2, r1, S1, B1, e, hl1, hroom1, hdr1⟩ :=
        thread_iteration_progress fuel id s r S B hen.1 hl hroom hfuel
      rw [h] at e
      simp only [Except.ok.injEq] at e
      subst e
      refine ⟨fun hd => ?_, fun _ => ⟨r1, S1, B1, hl1, hroom1⟩⟩
      rw [hdr1, hen.2] at hd
      exact absurd hd (by simp)
    · exact absurd h (by simp)

/-- Every run with room keeps the room. -/
theorem room_run (fuel W tl : Nat) (dep : Nat → Int) (p0 : ParState)
    (hfuel : p0.nodes_count ≤ fuel) (htl : p0.nodes_count * p0.nodes_count ≤ tl) :
    ∀ (schedule : List Action) (s s1 : ParState), par_run fuel schedule s = Except.ok s1 →
      ParGood p0 s → (s.draining = false → ∃ done, SeedOrder p0.nodes_count W dep s done) →
      RoomGood tl s → RoomGood tl s1
  | [], s, s1, h, _, _, hr => by
    simp only [par_run, Except.ok.injEq] at h
    exact h ▸ hr
  | a :: schedule, s, s1, h, hg, ho, hr => by
    simp only [par_run] at h
    split at h
    · exact absurd h (by simp)
    · rename_i s2 hstep
      have hg2 := par_step_good fuel p0 s s2 a hstep hg
      have hself : ParGood s s := ⟨rfl, rfl, rfl, fun h => h, hg.2.2.2.2⟩
      have hmono := (par_step_good fuel s s s2 a hstep hself).2.2.2.1
      have hN : s.nodes_count = p0.nodes_count := hg.1
      exact room_run fuel W tl dep p0 hfuel htl schedule s2 s1 h hg2
        (seed_order_step fuel _ W dep s s2 a hstep hfuel hmono ho)
        (room_step fuel W tl dep p0 s s2 a hstep (by rw [hN]; exact hfuel)
          (by rw [hN]; exact htl) hg2 (by rw [hN]; exact ho) hr)

/-- C21. Parallel sorter on cyclic input never completes: for every graph with
consistent counters that has a node on a directed cycle, every number of threads and
every schedule, every state of the second phase that a run reaches has
`topology_matrix_index < nodes_count`, so the test `topology_matrix_index != nodes_count`
of the loop of `thread_topology_calculation` is true there; and when there is room for
the queues (`nodes_count` nodes in the global queue, `nodes_count * nodes_count` in each
local queue) every thread returns from its next iteration without fault, again in a
state in which the test is true, so the threads iterate without end. -/
theorem parallel_cyclic_never_completes (s0 : State) (hhead : s0.q.head = none)
    (hcons : Consistent s0) (c : Nat) (hcyc : OnCycle s0 c) (W tl fuel : Nat)
    (schedule : List Action) (s : ParState)
    (hrun : par_run fuel schedule (par_initial s0 W tl) = Except.ok s)
    (hdr : s.draining = true) :
    s.nodes_count = s0.nodes_count ∧
    s.topology_matrix_index < s.nodes_count ∧
    s.topology_matrix_index ≠ s.nodes_count ∧
    (Ready s0 → s0.nodes_count * s0.nodes_count ≤ tl → s0.nodes_count ≤ fuel →
      ∀ id, id < W →
        ∃ s1, par_step fuel s (Action.iterate id) = Except.ok s1 ∧ s1.draining = true ∧
          s1.topology_matrix_index ≠ s1.nodes_count) := by
  have hg0 := initial_good s0 W tl hhead hcons
  have key : ∀ (sched : List Action) (t : ParState),
      par_run fuel sched (par_initial s0 W tl) = Except.ok t → t.draining = true →
      t.nodes_count = s0.nodes_count ∧ t.topology_matrix_index < t.nodes_count := by
    intro sched t ht hdt
    obtain ⟨hn, hm, -, -, hph⟩ := par_run_good fuel _ sched _ t ht hg0
    rcases hph with ⟨hf, -⟩ | ⟨-, r, S, B, hl⟩
    · rw [hdt] at hf
      exact absurd hf (by simp)
    · have hc : OnCycle t.toState c := by
        show Relation.TransGen
          (fun a b => a < t.nodes_count ∧ b < t.nodes_count ∧ t.matrix a b = 1) c c
        rw [hn, hm]
        exact hcyc
      exact ⟨hn, hl.index_lt hc⟩
  obtain ⟨hn, hlt⟩ := key schedule s hrun hdr
  refine ⟨hn, hlt, by omega, ?_⟩
  intro hready htl hfuel id hid
  have hroom := room_run fuel W tl s0.dependencies_matrix (par_initial s0 W tl) hfuel htl
    schedule _ s hrun hg0
    (fun _ => ⟨[], seed_order_initial s0 W tl hready
      (Nat.le_trans (Nat.le_mul_self _) htl)⟩)
    (room_initial s0 W tl)
  obtain ⟨r, S, B, hl, hrm⟩ := hroom.2 hdr
  obtain ⟨-, -, ht, -, -⟩ := par_run_good fuel _ schedule _ s hrun hg0
  have hidt : id < s.threads_count := by
    rw [ht]
    exact hid
  obtain ⟨s1, r1, S1, B1, e, -, -, hdr1⟩ :=
    thread_iteration_progress fuel id s r S B hidt hl hrm (by rw [hn]; exact hfuel)
  have hstep : par_step fuel s (Action.iterate id) = Except.ok s1 := by
    simp only [par_step]
    rw [if_pos ⟨hidt, hdr⟩]
    exact e
  have hd1 : s1.draining = true := hdr1.trans hdr
  have hrun1 : par_run fuel (schedule ++ [Action.iterate id]) (par_initial s0 W tl) =
      Except.ok s1 := by
    rw [par_run_append fuel schedule [Action.iterate id] _ s hrun]
    simp only [par_run, hstep]
  have := (key _ s1 hrun1 hd1).2
  exact ⟨s1, hstep, hd1, by omega⟩

/-- Witness for C21: the cycle through 0 and 1 with node 2 behind it and the source 3,
with two threads; after four iterations in the second phase the result is `[3]`. -/
theorem parallel_cyclic_never_completes_witness :
    lasso_with_source.q.head = none ∧ Consistent lasso_with_source ∧
    OnCycle lasso_with_source 1 ∧ Ready lasso_with_source ∧
    lasso_with_source.nodes_count * lasso_with_source.nodes_count ≤ 16 ∧
    lasso_with_source.nodes_count ≤ 4 ∧
    par_counters_of (par_run 4 spin_schedule (par_initial lasso_with_source 2 16)) =
      some (true, [3], [1, 1, 1, 0], [1, 1, 1, 0], [0, 0, 0, 0]) ∧
    ∃ s, par_run 4 spin_schedule (par_initial lasso_with_source 2 16) = Except.ok s ∧
      s.draining = true ∧
      s.nodes_count = lasso_with_source.nodes_count ∧
      s.topology_matrix_index < s.nodes_count ∧
      s.topology_matrix_index ≠ s.nodes_count ∧
      ∀ id, id < 2 →
        ∃ s1, par_step 4 s (Action.iterate id) = Except.ok s1 ∧ s1.draining = true ∧
          s1.topology_matrix_index ≠ s1.nodes_count := by
  have hobs : par_counters_of (par_run 4 spin_schedule (par_initial lasso_with_source 2 16)) =
      some (true, [3], [1, 1, 1, 0], [1, 1, 1, 0], [0, 0, 0, 0]) := by decide
  obtain ⟨s, hs, hx⟩ := par_counters_of_some hobs
  simp only [Prod.mk.injEq] at hx
  obtain ⟨h1, h2, h3, h4⟩ := parallel_cyclic_never_completes lasso_with_source rfl
    lasso_with_source_consistent 1 lasso_with_source_cycle 2 16 4 spin_schedule s hs hx.1
  exact ⟨rfl, lasso_with_source_consistent, lasso_with_source_cycle,
    lasso_with_source_ready, by decide, by decide, hobs, s, hs, hx.1, h1, h2, h3,
    h4 lasso_with_source_ready (by decide) (by decide)⟩

/-! ## Runs that push and write -/

/-- Witness for C8: the diamond graph, an acyclic graph on which `push_value` is called
four times and four result entries are written, and the graph with the cycle through 0
and 1, node 2 behind it and the source 3, on which node 3 is pushed and written. -/
theorem serial_enqueue_once_witness :
    Ready diamond ∧ Consistent diamond ∧ diamond.nodes_count ≤ 4 ∧
    summary_of (calculate_topology 4 diamond) = some ([0, 1, 2, 3], 4, [0, 1, 2, 3], []) ∧
    (∃ s1, calculate_topology 4 diamond = Except.ok s1 ∧
      calculate_topology 4 diamond ≠ Except.error Fault.out_of_bounds ∧
      s1.push_log.Nodup ∧
      (∀ v ∈ s1.push_log, ∃ i, i < diamond.nodes_count ∧ v = Int.ofNat i) ∧
      (result s1).Nodup ∧ s1.topology_matrix_index ≤ diamond.nodes_count) ∧
    Ready lasso_with_source ∧ Consistent lasso_with_source ∧
    lasso_with_source.nodes_count ≤ 4 ∧
    summary_of (calculate_topology 4 lasso_with_source) = some ([3], 1, [3], []) ∧
    ∃ s1, calculate_topology 4 lasso_with_source = Except.ok s1 ∧
      calculate_topology 4 lasso_with_source ≠ Except.error Fault.out_of_bounds ∧
      s1.push_log.Nodup ∧
      (∀ v ∈ s1.push_log, ∃ i, i < lasso_with_source.nodes_count ∧ v = Int.ofNat i) ∧
      (result s1).Nodup ∧ s1.topology_matrix_index ≤ lasso_with_source.nodes_count :=
  ⟨diamond_ready, diamond_consistent, by decide, by decide,
    serial_enqueue_once 4 diamond diamond_ready diamond_consistent (by decide),
    lasso_with_source_ready, lasso_with_source_consistent, by decide, by decide,
    serial_enqueue_once 4 lasso_with_source lasso_with_source_ready
      lasso_with_source_consistent (by decide)⟩

/-- Witness for C7 as amended: the lasso graph, where the result is empty and node 2 is
missing behind the cycle through 0 and 1, and the same graph with the source 3, where
node 3 is pushed, dequeued and written and the nodes 0, 1 and 2 are missing. -/
theorem serial_done_state_witness :
    Ready lasso ∧ Consistent lasso ∧ lasso.nodes_count ≤ 3 ∧
    (∃ s1, calculate_topology 3 lasso = Except.ok s1 ∧
      result s1 = s1.push_log ∧ s1.topology_matrix_index = s1.push_log.length ∧
      ∀ j, j < lasso.nodes_count → Int.ofNat j ∉ result s1 →
        ∃ c, c < lasso.nodes_count ∧ Int.ofNat c ∉ result s1 ∧ OnCycle lasso c ∧
          Relation.ReflTransGen (Edge lasso) c j) ∧
    Ready lasso_with_source ∧ Consistent lasso_with_source ∧
    lasso_with_source.nodes_count ≤ 4 ∧
    summary_of (calculate_topology 4 lasso_with_source) = some ([3], 1, [3], []) ∧
    ∃ s1, calculate_topology 4 lasso_with_source = Except.ok s1 ∧
      result s1 = s1.push_log ∧ s1.topology_matrix_index = s1.push_log.length ∧
      ∀ j, j < lasso_with_source.nodes_count → Int.ofNat j ∉ result s1 →
        ∃ c, c < lasso_with_source.nodes_count ∧ Int.ofNat c ∉ result s1 ∧
          OnCycle lasso_with_source c ∧
          Relation.ReflTransGen (Edge lasso_with_source) c j :=
  ⟨lasso_ready, lasso_consistent, by decide,
    serial_done_state 3 lasso lasso_ready lasso_consistent (by decide),
    lasso_with_source_ready, lasso_with_source_consistent, by decide, by decide,
    serial_done_state 4 lasso_with_source lasso_with_source_ready
      lasso_with_source_consistent (by decide)⟩

/-! ## The output file of both programs -/

theorem flush_pending_nodes_count : ∀ (fuel : Nat) (s : ParState) (lq : Queue)
    (s1 : ParState) (lq1 : Queue), flush_pending fuel s lq = Except.ok (s1, lq1) →
    s1.nodes_count = s.nodes_count
  | 0, s, lq, s1, lq1, h => by
    simp only [flush_pending] at h
    split at h
    · simp only [Except.ok.injEq, Prod.mk.injEq] at h
      rw [← h.1]
    · exact absurd h (by simp)
  | fuel + 1, s, lq, s1, lq1, h => by
    simp only [flush_pending] at h
    split at h
    · simp only [Except.ok.injEq, Prod.mk.injEq] at h
      rw [← h.1]
    · split at h
      · split at h
        · exact absurd h (by simp)
        · have := flush_pending_nodes_count fuel _ _ s1 lq1 h
          exact this
      · have := flush_pending_nodes_count fuel _ _ s1 lq1 h
        exact this

theorem thread_iteration_nodes_count (fuel id : Nat) (s s1 : ParState)
    (h : thread_iteration fuel id s = Except.ok s1) : s1.nodes_count = s.nodes_count := by
  unfold thread_iteration at h
  cases hf : flush_pending fuel s (s.thread_queue id) with
  | error f => simp [hf] at h
  | ok pr =>
    obtain ⟨s2, lq2⟩ := pr
    have hn := flush_pending_nodes_count fuel s _ s2 lq2 hf
    simp only [hf] at h
    split at h
    · split at h
      · split at h
        · exact absurd h (by simp)
        · simp only [Except.ok.injEq] at h
          rw [← h]
          exact hn
      · exact absurd h (by simp)
    · simp only [Except.ok.injEq] at h
      rw [← h]
      exact hn

theorem par_step_nodes_count (fuel : Nat) (s s1 : ParState) (a : Action)
    (h : par_step fuel s a = Except.ok s1) : s1.nodes_count = s.nodes_count := by
  cases a with
  | scan id =>
    simp only [par_step] at h
    split at h
    · split at h
      · exact absurd h (by simp)
      · simp only [Except.ok.injEq] at h
        rw [← h]
    · exact absurd h (by simp)
  | publish id =>
    simp only [par_step] at h
    split at h
    · split at h
      · exact absurd h (by simp)
      · simp only [Except.ok.injEq] at h
        rw [← h]
    · exact absurd h (by simp)
  | start_draining =>
    simp only [par_step] at h
    split at h
    · simp only [Except.ok.injEq] at h
      rw [← h]
    · exact absurd h (by simp)
  | iterate id =>
    simp only [par_step] at h
    split at h
    · exact thread_iteration_nodes_count fuel id s s1 h
    · exact absurd h (by simp)

theorem par_run_nodes_count (fuel : Nat) : ∀ (schedule : List Action) (s s1 : ParState),
    par_run fuel schedule s = Except.ok s1 → s1.nodes_count = s.nodes_count
  | [], s, s1, h => by
    simp only [par_run, Except.ok.injEq] at h
    rw [← h]
  | a :: schedule, s, s1, h => by
    simp only [par_run] at h
    split at h
    · exact absurd h (by simp)
    · rename_i s2 hstep
      exact (par_run_nodes_count fuel schedule s2 s1 h).trans
        (par_step_nodes_count fuel s s2 a hstep)

/-- With all `nodes_count` result entries written, the text of the output file is the
nodes count, the result, one node per line, and the sentinel. -/
theorem full_output_text (s : State) (h : s.topology_matrix_index = s.nodes_count) :
    write_topology_to_file s = output_text s.nodes_count (result s) ∧
      (result s).length = s.nodes_count := by
  constructor
  · simp only [write_topology_to_file, output_text, result, h, List.map_map]
    rfl
  · simp [result, h]

/-- On an acyclic graph with consistent counters the run with a single thread whose loop
makes `nodes_count` iterations returns with all nodes emitted. -/
theorem single_complete (s0 : State) (tl fuel : Nat) (hready : Ready s0)
    (hcons : Consistent s0) (hacyc : Acyclic s0)
    (htl : s0.nodes_count * s0.nodes_count ≤ tl) (hfuel : s0.nodes_count ≤ fuel) :
    ∃ s2, par_run fuel (single_schedule s0.nodes_count) (par_initial s0 1 tl) =
        Except.ok s2 ∧
      s2.draining = true ∧ s2.topology_matrix_index = s2.nodes_count := by
  obtain ⟨sa, sb, ea, -, eb, hnb, hmb, hsb⟩ := single_phase_one s0 tl fuel hready htl hfuel
  have hpre : par_run fuel [Action.scan 0, Action.publish 0, Action.start_draining]
      (par_initial s0 1 tl) = Except.ok sb := by
    have := par_run_append fuel [Action.scan 0, Action.publish 0] [Action.start_draining]
      _ sa ea
    simp only [List.cons_append, List.nil_append] at this
    rw [this]
    simp only [par_run, eb]
  have hob : Once sb.nodes_count (kahn_init s0.nodes_count s0.dependencies_matrix) := by
    rw [hnb]
    exact Once.start _ _
  obtain ⟨sn, Sn, Bn, en, hnn, -, hsn⟩ := single_run fuel s0.nodes_count sb _ _ _ hsb hob
    (by rw [hnb]; exact hfuel)
  rw [hnb, hmb] at hsn
  have hlen := kahn_iter_length s0 hcons hacyc s0.nodes_count (Nat.le_refl _)
  refine ⟨sn, ?_, hsn.draining, ?_⟩
  · unfold single_schedule
    rw [par_run_append fuel _ _ _ sb hpre]
    exact en
  · rw [hsn.index, hlen, hnn, hnb]

/-- C13, amended. Output format of both programs, for every graph loaded by `initialize`
on `nodes_count` nodes when no allocation fails. Serial program: the sort ends (for every
fuel of at least `nodes_count`) and `write_topology_to_file` emits the decimal
`nodes_count` and a newline, then exactly `nodes_count` lines, then `-1` without a
newline; the lines are the node indices of the computed order followed by one line `0`
for each position from the result length to `nodes_count - 1`, so they are exactly the
computed order when it has `nodes_count` entries; for `nodes_count > 0` this is the text
that `main` writes. Parallel program: the threads return only with
`topology_matrix_index = nodes_count`; in every such state of the second phase reached
by a run (any number of threads, any schedule) the computed order has `nodes_count`
entries and `write_topology_to_file` emits the decimal `nodes_count` and a newline, the
computed order, one node per line, and `-1` without a newline, which for
`nodes_count > 0` is the text that `main` writes; and for an acyclic graph with
consistent counters such a state is reached by the run with one thread. -/
theorem output_format (queue_limit nodes_count fuel : Nat) (records : List edge_record)
    (hroom : nodes_count ≤ queue_limit) (hfuel : nodes_count ≤ fuel) :
    (∃ s1, calculate_topology fuel (initialize_graph true queue_limit nodes_count records).2 =
        Except.ok s1 ∧
      s1.topology_matrix_index ≤ nodes_count ∧
      write_topology_to_file s1 = output_text nodes_count
        (result s1 ++ List.replicate (nodes_count - s1.topology_matrix_index) 0) ∧
      (s1.topology_matrix_index = nodes_count →
        write_topology_to_file s1 = output_text nodes_count (result s1)) ∧
      (0 < nodes_count →
        main true 1 nodes_count true queue_limit records fuel =
          Except.ok ⟨0, write_topology_to_file s1,
            [Call.initialize_graph, Call.calculate_topology,
              Call.write_topology_to_file]⟩)) ∧
    (∀ (threads_count thread_limit par_fuel : Nat) (schedule : List Action) (s2 : ParState),
      par_run par_fuel schedule
        (par_initial (initialize_graph true queue_limit nodes_count records).2
          threads_count thread_limit) = Except.ok s2 →
      s2.draining = true → s2.topology_matrix_index = s2.nodes_count →
      s2.nodes_count = nodes_count ∧ (result s2.toState).length = nodes_count ∧
      write_topology_to_file s2.toState = output_text nodes_count (result s2.toState) ∧
      (0 < nodes_count →
        par_main true threads_count 1 nodes_count true queue_limit thread_limit records
          par_fuel schedule =
          Except.ok ⟨0, output_text nodes_count (result s2.toState),
            [Call.initialize_graph, Call.calculate_topology,
              Call.write_topology_to_file]⟩)) ∧
    (Consistent (initialize_graph true queue_limit nodes_count records).2 →
      Acyclic (initialize_graph true queue_limit nodes_count records).2 →
      ∀ thread_limit, nodes_count * nodes_count ≤ thread_limit →
        ∃ s2, par_run fuel (single_schedule nodes_count)
            (par_initial (initialize_graph true queue_limit nodes_count records).2 1
              thread_limit) = Except.ok s2 ∧
          s2.draining = true ∧ s2.topology_matrix_index = s2.nodes_count) := by
  obtain ⟨-, h2, -, -⟩ := loaded_fields queue_limit nodes_count records
  have hfst : (initialize_graph true queue_limit nodes_count records).1 = 1 := rfl
  refine ⟨?_, ?_, ?_⟩
  · obtain ⟨s1, e, hle, htext, hfull⟩ :=
      serial_output_lines queue_limit nodes_count fuel records hroom hfuel
    refine ⟨s1, e, hle, htext, hfull, ?_⟩
    intro hpos
    have hN : ¬ (True ∧ nodes_count = 0) := by omega
    simp only [main]
    rw [if_neg (by decide), if_neg hN, if_neg (by rw [hfst]; decide), e]
  · intro threads_count thread_limit par_fuel schedule s2 hrun hdr hidx
    have hn : s2.nodes_count = nodes_count :=
      (par_run_nodes_count par_fuel schedule _ s2 hrun).trans h2
    obtain ⟨ht, hl⟩ := full_output_text s2.toState hidx
    have hn2 : s2.toState.nodes_count = nodes_count := hn
    rw [hn2] at ht hl
    refine ⟨hn, hl, ht, ?_⟩
    intro hpos
    have hN : ¬ (True ∧ nodes_count = 0) := by omega
    simp only [par_main]
    rw [if_neg (by decide), if_neg hN, if_neg (by rw [hfst]; decide), hrun]
    simp only
    rw [if_pos ⟨hdr, hidx⟩, ht]
  · intro hcons hacyc thread_limit htl
    have := single_complete (initialize_graph true queue_limit nodes_count records).2
      thread_limit fuel (loaded_ready queue_limit nodes_count records hroom) hcons hacyc
      (by rw [h2]; exact htl) (by rw [h2]; exact hfuel)
    rw [h2] at this
    exact this

/-- Witness for C13 as amended: the diamond graph, whose computed order has all four
nodes (serial program, parallel program with two threads and with one thread), and the
graph with the cycle through 0 and 1, node 2 behind it and the source 3, whose computed
order is `[3]` and whose file has three lines `0` after the line `3`. -/
theorem output_format_witness :
    (4 : Nat) ≤ 4 ∧
    text_of (calculate_topology 4
      (initialize_graph true 4 4 [⟨0, 1, 1⟩, ⟨0, 2, 1⟩, ⟨1, 3, 1⟩, ⟨2, 3, 1⟩]).2) =
      some "4\n0\n1\n2\n3\n-1" ∧
    result_of (calculate_topology 4
      (initialize_graph true 4 4 [⟨0, 1, 1⟩, ⟨0, 2, 1⟩, ⟨1, 3, 1⟩, ⟨2, 3, 1⟩]).2) =
      some [0, 1, 2, 3] ∧
    text_of (calculate_topology 4
      (initialize_graph true 4 4 [⟨0, 1, 1⟩, ⟨1, 0, 1⟩, ⟨1, 2, 1⟩, ⟨3, 2, 1⟩]).2) =
      some "4\n3\n0\n0\n0\n-1" ∧
    result_of (calculate_topology 4
      (initialize_graph true 4 4 [⟨0, 1, 1⟩, ⟨1, 0, 1⟩, ⟨1, 2, 1⟩, ⟨3, 2, 1⟩]).2) =
      some [3] ∧
    par_main true 2 1 4 true 4 4 [⟨0, 1, 1⟩, ⟨0, 2, 1⟩, ⟨1, 3, 1⟩, ⟨2, 3, 1⟩] 5
      full_schedule =
      Except.ok ⟨0, "4\n0\n1\n2\n3\n-1",
        [Call.initialize_graph, Call.calculate_topology, Call.write_topology_to_file]⟩ ∧
    (∃ s1, calculate_topology 4
        (initialize_graph true 4 4 [⟨0, 1, 1⟩, ⟨0, 2, 1⟩, ⟨1, 3, 1⟩, ⟨2, 3, 1⟩]).2 =
        Except.ok s1 ∧
      s1.topology_matrix_index ≤ 4 ∧
      write_topology_to_file s1 = output_text 4
        (result s1 ++ List.replicate (4 - s1.topology_matrix_index) 0) ∧
      (s1.topology_matrix_index = 4 →
        write_topology_to_file s1 = output_text 4 (result s1)) ∧
      (0 < 4 →
        main true 1 4 true 4 [⟨0, 1, 1⟩, ⟨0, 2, 1⟩, ⟨1, 3, 1⟩, ⟨2, 3, 1⟩] 4 =
          Except.ok ⟨0, write_topology_to_file s1,
            [Call.initialize_graph, Call.calculate_topology,
              Call.write_topology_to_file]⟩)) ∧
    (∃ s2, par_run 5 full_schedule
        (par_initial (initialize_graph true 4 4
          [⟨0, 1, 1⟩, ⟨0, 2, 1⟩, ⟨1, 3, 1⟩, ⟨2, 3, 1⟩]).2 2 4) = Except.ok s2 ∧
      s2.draining = true ∧ s2.topology_matrix_index = s2.nodes_count ∧
      result s2.toState = [0, 1, 2, 3] ∧
      s2.nodes_count = 4 ∧ (result s2.toState).length = 4 ∧
      write_topology_to_file s2.toState = output_text 4 (result s2.toState) ∧
      par_main true 2 1 4 true 4 4 [⟨0, 1, 1⟩, ⟨0, 2, 1⟩, ⟨1, 3, 1⟩, ⟨2, 3, 1⟩] 5
        full_schedule =
        Except.ok ⟨0, output_text 4 (result s2.toState),
          [Call.initialize_graph, Call.calculate_topology,
            Call.write_topology_to_file]⟩) ∧
    (∃ s2, par_run 4 (single_schedule 4)
        (par_initial (initialize_graph true 4 4
          [⟨0, 1, 1⟩, ⟨0, 2, 1⟩, ⟨1, 3, 1⟩, ⟨2, 3, 1⟩]).2 1 16) = Except.ok s2 ∧
      s2.draining = true ∧ s2.topology_matrix_index = s2.nodes_count) ∧
    ∃ s1, calculate_topology 4
        (initialize_graph true 4 4 [⟨0, 1, 1⟩, ⟨1, 0, 1⟩, ⟨1, 2, 1⟩, ⟨3, 2, 1⟩]).2 =
        Except.ok s1 ∧
      s1.topology_matrix_index ≤ 4 ∧
      write_topology_to_file s1 = output_text 4
        (result s1 ++ List.replicate (4 - s1.topology_matrix_index) 0) ∧
      (s1.topology_matrix_index = 4 →
        write_topology_to_file s1 = output_text 4 (result s1)) ∧
      (0 < 4 →
        main true 1 4 true 4 [⟨0, 1, 1⟩, ⟨1, 0, 1⟩, ⟨1, 2, 1⟩, ⟨3, 2, 1⟩] 4 =
          Except.ok ⟨0, write_topology_to_file s1,
            [Call.initialize_graph, Call.calculate_topology,
              Call.write_topology_to_file]⟩) := by
  have hthm := output_format 4 4 4 [⟨0, 1, 1⟩, ⟨0, 2, 1⟩, ⟨1, 3, 1⟩, ⟨2, 3, 1⟩]
    (le_refl 4) (le_refl 4)
  have hobs : par_counters_of (par_run 5 full_schedule
      (par_initial (initialize_graph true 4 4
        [⟨0, 1, 1⟩, ⟨0, 2, 1⟩, ⟨1, 3, 1⟩, ⟨2, 3, 1⟩]).2 2 4)) =
      some (true, [0, 1, 2, 3], [0, 0, 0, 0], [0, 0, 0, 0], [0, 0, 0, 0]) := by decide
  obtain ⟨s2, hs, hx⟩ := par_counters_of_some hobs
  simp only [Prod.mk.injEq] at hx
  have hN : s2.nodes_count = 4 := by
    have := congrArg List.length hx.2.2.1
    simpa using this
  have hidx : s2.topology_matrix_index = s2.nodes_count := by
    have := congrArg List.length hx.2.1
    rw [hN]
    simpa [result] using this
  obtain ⟨b1, b2, b3, b4⟩ := hthm.2.1 2 4 5 full_schedule s2 hs hx.1 hidx
  exact ⟨le_refl 4, by decide, by decide, by decide, by decide, rfl, hthm.1,
    ⟨s2, hs, hx.1, hidx, hx.2.1, b1, b2, b3, b4 (by decide)⟩,
    hthm.2.2 diamond_consistent diamond_acyclic 16 (by decide),
    (output_format 4 4 4 [⟨0, 1, 1⟩, ⟨1, 0, 1⟩, ⟨1, 2, 1⟩, ⟨3, 2, 1⟩] (le_refl 4)
      (le_refl 4)).1⟩

/-! ## The in-degree invariant, statement by statement -/

theorem rep_extend : ∀ (vs : List Int) (q : Queue) (ws : List Int), Rep q ws →
    q.brk + vs.length ≤ q.limit → ∃ q1, Rep q1 (ws ++ vs)
  | [], q, ws, hr, _ => ⟨q, by simpa using hr⟩
  | v :: vs, q, ws, hr, hroom => by
    simp only [List.length_cons] at hroom
    obtain ⟨-, h2, h3, h4⟩ := push_value_rep v hr (by omega)
    obtain ⟨q1, h⟩ := rep_extend vs (push_value q v).2 (ws ++ [v]) h2 (by omega)
    exact ⟨q1, by simpa using h⟩

/-- Every list is the content of some queue. -/
theorem exists_rep (vs : List Int) : ∃ q, Rep q vs := by
  obtain ⟨q, h⟩ := rep_extend vs (empty_queue vs.length) [] (rep_empty_queue _)
    (by simp [empty_queue])
  exact ⟨q, by simpa using h⟩

theorem count_rest_of_row (s : FineState) (w j : Nat) :
    (rest_of_row s w).count j =
      if s.current_node_index w ≠ -1 ∧ s.column w ≤ j ∧ j < s.nodes_count ∧
        s.matrix (s.current_node_index w).toNat j = 1 then 1 else 0 := by
  unfold rest_of_row
  by_cases hc : s.current_node_index w ≠ -1
  · rw [if_pos hc]
    have hnd : ((List.range' (s.column w) (s.nodes_count - s.column w)).filter
        (fun i => decide (s.matrix (s.current_node_index w).toNat i = 1))).Nodup :=
      (List.nodup_range' _ _).filter _
    by_cases h : s.column w ≤ j ∧ j < s.nodes_count ∧
        s.matrix (s.current_node_index w).toNat j = 1
    · have hmem : j ∈ (List.range' (s.column w) (s.nodes_count - s.column w)).filter
          (fun i => decide (s.matrix (s.current_node_index w).toNat i = 1)) := by
        simp only [List.mem_filter, List.mem_range'_1, decide_eq_true_eq]
        exact ⟨⟨h.1, by omega⟩, h.2.2⟩
      rw [List.count_eq_one_of_mem hnd hmem, if_pos ⟨hc, h⟩]
    · have hmem : j ∉ (List.range' (s.column w) (s.nodes_count - s.column w)).filter
          (fun i => decide (s.matrix (s.current_node_index w).toNat i = 1)) := by
        simp only [List.mem_filter, List.mem_range'_1, decide_eq_true_eq]
        rintro ⟨⟨h1, h2⟩, h3⟩
        exact h ⟨h1, by omega, h3⟩
      rw [List.count_eq_zero_of_not_mem hmem, if_neg (fun hh => h hh.2)]
  · rw [if_neg hc, if_neg (fun hh => hc hh.1)]
    rfl

theorem sum_map_add_indicator (f : Nat → Nat) (p : Nat → Prop) [DecidablePred p] :
    ∀ l : List Nat, (l.map (fun w => f w + if p w then 1 else 0)).sum =
      (l.map f).sum + (l.filter (fun w => decide (p w))).length
  | [] => rfl
  | k :: l => by
    have ih := sum_map_add_indicator f p l
    by_cases hk : p k
    · simp only [List.map_cons, List.sum_cons, ih, List.filter_cons, hk, decide_True, if_true,
        List.length_cons]
      omega
    · simp only [List.map_cons, List.sum_cons, ih, List.filter_cons, hk, decide_False, if_false,
        Bool.false_eq_true]
      omega

/-- The occurrences of `j` in the completed local queues are those in the local queues
and one for each `for` loop that has still to reach `j`. -/
theorem pending_completion (s : FineState) (B : Nat → List Nat) (j : Nat) :
    pending s.threads_count (fun w => B w ++ rest_of_row s w) j =
      pending s.threads_count B j + in_flight s j := by
  unfold pending in_flight
  rw [← sum_map_add_indicator]
  congr 1
  apply List.map_congr_left
  intro w _
  rw [List.count_append, count_rest_of_row]

theorem rest_of_row_idle (s : FineState) (w : Nat)
    (h : s.current_node_index w = -1 ∨ s.nodes_count ≤ s.column w) :
    rest_of_row s w = [] := by
  unfold rest_of_row
  rcases h with h | h
  · simp [h]
  · have : s.nodes_count - s.column w = 0 := by omega
    simp [this]

theorem rest_of_row_congr (s s1 : FineState) (w : Nat)
    (h1 : s1.current_node_index w = s.current_node_index w) (h2 : s1.column w = s.column w)
    (h3 : s1.nodes_count = s.nodes_count) (h4 : s1.matrix = s.matrix) :
    rest_of_row s1 w = rest_of_row s w := by
  unfold rest_of_row
  rw [h1, h2, h3, h4]

theorem par_step_first_enabled (fuel : Nat) (s s1 : ParState) (a : Action)
    (ha : ∀ id, a ≠ Action.iterate id) (h : par_step fuel s a = Except.ok s1) :
    s.draining = false := by
  cases a with
  | scan id =>
    simp only [par_step] at h
    split at h
    · rename_i hen
      exact hen.2.1
    · exact absurd h (by simp)
  | publish id =>
    simp only [par_step] at h
    split at h
    · rename_i hen
      exact hen.2.1
    · exact absurd h (by simp)
  | start_draining =>
    simp only [par_step] at h
    split at h
    · rename_i hen
      exact hen.1
    · exact absurd h (by simp)
  | iterate id => exact absurd rfl (ha id)

/-- An action of the first phase or of the main thread keeps the invariant. -/
theorem fine_first_good (fuel : Nat) (s s1 : FineState) (a : Action)
    (ha : ∀ id, a ≠ Action.iterate id) (h : fine_first fuel s a = Except.ok s1)
    (hg : FineGood s) : FineGood s1 := by
  unfold fine_first at h
  cases hp : par_step fuel s.toParState a with
  | error f => simp [hp] at h
  | ok p1 =>
    simp only [hp, Except.ok.injEq] at h
    subst h
    have hdr := par_step_first_enabled fuel s.toParState p1 a ha hp
    rcases hg with ⟨-, hcur, S, L, hi⟩ | ⟨hd, -⟩
    swap
    · rw [hdr] at hd
      exact absurd hd (by simp)
    have hself : ParGood s.toParState s.toParState :=
      ⟨rfl, rfl, rfl, fun h => h, Or.inl ⟨hdr, S, L, hi⟩⟩
    obtain ⟨-, -, -, -, hph⟩ := par_step_good fuel s.toParState s.toParState p1 a hp hself
    rcases hph with ⟨hd1, S1, L1, hi1⟩ | ⟨hd1, r, S1, B, hl⟩
    · exact Or.inl ⟨hd1, hcur, S1, L1, hi1⟩
    · refine Or.inr ⟨hd1, r, S1, B, ?_⟩
      have hfun : (fun w => B w ++ rest_of_row
          { toParState := p1, current_node_index := s.current_node_index,
            column := s.column } w) = B := by
        funext w
        have hrow : rest_of_row
            { toParState := p1, current_node_index := s.current_node_index,
              column := s.column } w = [] :=
          rest_of_row_idle _ w (Or.inl (hcur w))
        rw [hrow, List.append_nil]
      exact
        { index := hl.index
          res := hl.res
          shared := hl.shared
          locals := hl.locals
          inv := by
            rw [hfun]
            exact hl.inv }

/-- The critical section of a thread that stands at the test of its loop keeps the
invariant. -/
theorem enter_good (fuel id : Nat) (s : FineState) (p1 : ParState) (cur : Int)
    (r S : List Nat) (B : Nat → List Nat) (hid : id < s.threads_count)
    (hidle : s.current_node_index id = -1 ∨ s.nodes_count ≤ s.column id)
    (h : critical_section fuel id s.toParState = Except.ok (p1, cur))
    (hl : FineLink s r S B) :
    p1.draining = s.draining ∧
    ∃ r1 S1 B1, FineLink
      { toParState := p1
        current_node_index := store s.current_node_index id cur
        column := store s.column id 0 } r1 S1 B1 := by
  have hrow : rest_of_row s id = [] := rest_of_row_idle s id hidle
  choose tq htq using fun k => exists_rep ((B k ++ rest_of_row s k).map Int.ofNat)
  have hl0 : ParLink s.toParState (store tq id (s.thread_queue id)) r S
      (fun w => B w ++ rest_of_row s w) :=
    { index := hl.index
      res := hl.res
      shared := hl.shared
      locals := by
        intro k
        by_cases hk : k = id
        · subst hk
          rw [store_same]
          simpa [hrow] using hl.locals k
        · rw [store_other _ _ _ _ hk]
          exact htq k
      inv := hl.inv }
  unfold critical_section at h
  cases hf : flush_pending fuel s.toParState (s.thread_queue id) with
  | error f => simp [hf] at h
  | ok pr =>
    obtain ⟨s2, lq2⟩ := pr
    simp only [hf] at h
    obtain ⟨S2, hl2, hfr⟩ := flush_pending_link id tq r fuel s.toParState
      (s.thread_queue id) S _ s2 lq2 hf hid hl0
    have hw2 : id < s2.threads_count := by rw [hfr.threads_count]; exact hid
    obtain ⟨q1, q2, -, -⟩ := pop_value_link S2 hl2.shared
    have hlq2 : Rep lq2 [] := by
      have := hl2.locals id
      simpa [store_same] using this
    have hlocals : ∀ (lqx : Queue) (L : List Nat), Rep lqx (L.map Int.ofNat) →
        ∀ k, Rep (store s2.thread_queue id lqx k) ((store B id L k).map Int.ofNat) := by
      intro lqx L hx k
      by_cases hk : k = id
      · subst hk
        rw [store_same, store_same]
        exact hx
      · rw [store_other _ _ _ _ hk, store_other _ _ _ _ hk, hfr.thread_queue]
        exact hl.locals k
    cases S2 with
    | nil =>
      simp only [List.head?_nil, Option.map_none', Option.getD_none] at q1
      simp only [q1, ne_eq, not_true_eq_false, if_false, Except.ok.injEq, Prod.mk.injEq] at h
      obtain ⟨rfl, rfl⟩ := h
      refine ⟨hfr.draining, r, [], store B id [], ?_⟩
      have hfun : (fun w => store B id [] w ++ rest_of_row
          { toParState :=
              { s2 with q := (pop_value s2.q).2, thread_queue := store s2.thread_queue id lq2 }
            current_node_index := store s.current_node_index id (-1)
            column := store s.column id 0 } w) =
          store (fun w => B w ++ rest_of_row s w) id [] := by
        funext w
        by_cases hw : w = id
        · subst hw
          rw [store_same, store_same, rest_of_row_idle _ w (Or.inl (store_same _ _ _))]
          rfl
        · rw [store_other _ _ _ _ hw, store_other _ _ _ _ hw]
          rw [rest_of_row_congr s _ w (store_other _ _ _ _ hw) (store_other _ _ _ _ hw)
            hfr.nodes_count hfr.matrix]
      exact
        { index := hl2.index
          res := hl2.res
          shared := q2
          locals := hlocals lq2 [] hlq2
          inv := by
            rw [hfun]
            exact hl2.inv }
    | cons c S3 =>
      simp only [List.head?_cons, Option.map_some', Option.getD_some] at q1
      have hne : Int.ofNat c ≠ -1 := by
        intro e
        have : (0 : Int) ≤ Int.ofNat c := Int.ofNat_nonneg c
        omega
      simp only [q1, ne_eq, hne, not_false_eq_true, if_true] at h
      by_cases hidx : s2.topology_matrix_index < s2.nodes_count
      · simp only [hidx, if_true, Except.ok.injEq, Prod.mk.injEq] at h
        obtain ⟨rfl, rfl⟩ := h
        refine ⟨hfr.draining, r ++ [c], S3, store B id [], ?_⟩
        have hinv := hl2.inv.emit hw2 (store_same _ _ _)
        rw [store_store] at hinv
        have hfun : (fun w => store B id [] w ++ rest_of_row
            { toParState :=
                { s2 with
                  q := (pop_value s2.q).2
                  topology_matrix :=
                    store s2.topology_matrix s2.topology_matrix_index (Int.ofNat c)
                  topology_matrix_index := s2.topology_matrix_index + 1
                  thread_queue := store s2.thread_queue id lq2 }
              current_node_index := store s.current_node_index id (Int.ofNat c)
              column := store s.column id 0 } w) =
            store (fun w => B w ++ rest_of_row s w) id
              (successors s2.nodes_count s2.matrix c) := by
          funext w
          by_cases hw : w = id
          · subst hw
            rw [store_same, store_same]
            simp only [rest_of_row, store_same, ne_eq, hne, not_false_eq_true, if_true,
              toNat_ofNat, Nat.sub_zero, List.nil_append, successors, List.range_eq_range']
          · rw [store_other _ _ _ _ hw, store_other _ _ _ _ hw]
            rw [rest_of_row_congr s _ w (store_other _ _ _ _ hw) (store_other _ _ _ _ hw)
              hfr.nodes_count hfr.matrix]
        exact
          { index := by
              show s2.topology_matrix_index + 1 = (r ++ [c]).length
              rw [hl2.index]
              simp
            res := by
              have h1 := result_snoc s2.toState (Int.ofNat c)
              have h2 := hl2.res
              simp only [result] at h1 h2 ⊢
              rw [h1, h2]
              simp
            shared := q2
            locals := hlocals lq2 [] hlq2
            inv := by
              rw [hfun]
              exact hinv }
      · simp [hidx] at h

/-- One run of the body of the last `for` loop keeps the invariant. -/
theorem column_good (id : Nat) (s : FineState) (lq : Queue) (r S : List Nat)
    (B : Nat → List Nat) (hcur : s.current_node_index id ≠ -1)
    (hcol : s.column id < s.nodes_count)
    (h : expand_body s.toParState (s.current_node_index id) (s.thread_queue id)
      (s.column id) = Except.ok lq)
    (hl : FineLink s r S B) :
    ∃ B1, FineLink
      { s with
        thread_queue := store s.thread_queue id lq
        column := store s.column id (s.column id + 1) } r S B1 := by
  have hrange : List.range' (s.column id) (s.nodes_count - s.column id) =
      s.column id :: List.range' (s.column id + 1) (s.nodes_count - (s.column id + 1)) := by
    have : s.nodes_count - s.column id = (s.nodes_count - (s.column id + 1)) + 1 := by omega
    rw [this, List.range'_succ]
  have hother : ∀ (L : List Nat) (w : Nat), w ≠ id →
      store B id L w ++ rest_of_row
        { s with
          thread_queue := store s.thread_queue id lq
          column := store s.column id (s.column id + 1) } w = B w ++ rest_of_row s w := by
    intro L w hw
    rw [store_other _ _ _ _ hw]
    congr 1
    apply rest_of_row_congr
    · rfl
    · exact store_other _ _ _ _ hw
    · rfl
    · rfl
  have hlocals : ∀ (L : List Nat), Rep lq (L.map Int.ofNat) →
      ∀ k, Rep (store s.thread_queue id lq k) ((store B id L k).map Int.ofNat) := by
    intro L hx k
    by_cases hk : k = id
    · subst hk
      rw [store_same, store_same]
      exact hx
    · rw [store_other _ _ _ _ hk, store_other _ _ _ _ hk]
      exact hl.locals k
  by_cases hm : s.matrix (s.current_node_index id).toNat (s.column id) = 1
  · simp only [expand_body, hm, ne_eq, not_true_eq_false, if_false] at h
    have hrep := push_local_or_exit_rep (s.column id) (hl.locals id) h
    refine ⟨store B id (B id ++ [s.column id]), ?_⟩
    have hfun : (fun w => store B id (B id ++ [s.column id]) w ++ rest_of_row
        { s with
          thread_queue := store s.thread_queue id lq
          column := store s.column id (s.column id + 1) } w) =
        fun w => B w ++ rest_of_row s w := by
      funext w
      by_cases hw : w = id
      · subst hw
        rw [store_same]
        simp only [rest_of_row, store_same, hcur, ne_eq, not_false_eq_true, if_true, hrange,
          List.filter_cons, hm, decide_True, List.append_assoc, List.singleton_append]
      · exact hother _ w hw
    exact
      { index := hl.index
        res := hl.res
        shared := hl.shared
        locals := hlocals _ (by simpa using hrep)
        inv := by
          rw [hfun]
          exact hl.inv }
  · simp only [expand_body, hm, ne_eq, not_false_eq_true, if_true, Except.ok.injEq] at h
    subst h
    refine ⟨store B id (B id), ?_⟩
    have hfun : (fun w => store B id (B id) w ++ rest_of_row
        { s with
          thread_queue := store s.thread_queue id (s.thread_queue id)
          column := store s.column id (s.column id + 1) } w) =
        fun w => B w ++ rest_of_row s w := by
      funext w
      by_cases hw : w = id
      · subst hw
        rw [store_same]
        simp only [rest_of_row, store_same, hcur, ne_eq, not_false_eq_true, if_true, hrange,
          List.filter_cons, hm, decide_False, Bool.false_eq_true, if_false]
      · exact hother _ w hw
    exact
      { index := hl.index
        res := hl.res
        shared := hl.shared
        locals := hlocals _ (hl.locals id)
        inv := by
          rw [hfun]
          exact hl.inv }

/-- One step of a run, statement by statement, keeps the invariant. -/
theorem fine_step_good (fuel : Nat) (s s1 : FineState) (a : FineAction)
    (h : fine_step fuel s a = Except.ok s1) (hg : FineGood s) : FineGood s1 := by
  cases a with
  | scan id =>
    exact fine_first_good fuel s s1 (Action.scan id) (fun i e => by cases e) h hg
  | publish id =>
    exact fine_first_good fuel s s1 (Action.publish id) (fun i e => by cases e) h hg
  | start_draining =>
    exact fine_first_good fuel s s1 Action.start_draining (fun i e => by cases e) h hg
  | enter id =>
    simp only [fine_step] at h
    split at h
    · rename_i hen
      cases hc : critical_section fuel id s.toParState with
      | error f => simp [hc] at h
      | ok pr =>
        obtain ⟨p1, cur⟩ := pr
        simp only [hc, Except.ok.injEq] at h
        subst h
        rcases hg with ⟨hd, -⟩ | ⟨-, r, S, B, hl⟩
        · rw [hen.2.1] at hd
          exact absurd hd (by simp)
        · obtain ⟨hdr, r1, S1, B1, hl1⟩ := enter_good fuel id s p1 cur r S B hen.1 hen.2.2 hc hl
          exact Or.inr ⟨hdr.trans hen.2.1, r1, S1, B1, hl1⟩
    · exact absurd h (by simp)
  | column id =>
    simp only [fine_step] at h
    split at h
    · rename_i hen
      cases hc : expand_body s.toParState (s.current_node_index id) (s.thread_queue id)
          (s.column id) with
      | error f => simp [hc] at h
      | ok lq =>
        simp only [hc, Except.ok.injEq] at h
        subst h
        rcases hg with ⟨hd, -⟩ | ⟨-, r, S, B, hl⟩
        · rw [hen.2.1] at hd
          exact absurd hd (by simp)
        · obtain ⟨B1, hl1⟩ := column_good id s lq r S B hen.2.2.1 hen.2.2.2 hc hl
          exact Or.inr ⟨hen.2.1, r, S, B1, hl1⟩
    · exact absurd h (by simp)

/-- Every run, statement by statement, keeps the invariant. -/
theorem fine_run_good (fuel : Nat) : ∀ (schedule : List FineAction) (s s1 : FineState),
    fine_run fuel schedule s = Except.ok s1 → FineGood s → FineGood s1
  | [], s, s1, h, hg => by
    simp only [fine_run, Except.ok.injEq] at h
    exact h ▸ hg
  | a :: schedule, s, s1, h, hg => by
    simp only [fine_run] at h
    split at h
    · exact absurd h (by simp)
    · rename_i s2 hstep
      exact fine_run_good fuel schedule s2 s1 h (fine_step_good fuel s s2 a hstep hg)

theorem fine_initial_good (s0 : State) (W tl : Nat) (hhead : s0.q.head = none)
    (hcons : Consistent s0) : FineGood (fine_initial s0 W tl) := by
  obtain ⟨-, -, -, -, hph⟩ := initial_good s0 W tl hhead hcons
  rcases hph with ⟨hd, S, L, hi⟩ | ⟨hd, -⟩
  · exact Or.inl ⟨hd, fun _ => rfl, S, L, hi⟩
  · exact absurd hd (by simp [par_initial])

theorem fine_counters_of_some {r : Except Fault FineState}
    {x : Bool × List Int × List Int × List Nat × List Nat × List Nat}
    (h : fine_counters_of r = some x) :
    ∃ s, r = Except.ok s ∧
      (s.draining, result s.toState, (List.range s.nodes_count).map s.dependencies_matrix,
        (List.range s.nodes_count).map (unemitted_preds s.toState),
        (List.range s.nodes_count).map (waiting s.toParState),
        (List.range s.nodes_count).map (in_flight s)) = x := by
  cases r with
  | error f => simp [fine_counters_of] at h
  | ok s =>
    simp only [fine_counters_of, Option.some.injEq] at h
    exact ⟨s, rfl, h⟩

/-- C17, amended. Parallel in-degree invariant, for a graph whose counters initially
equal the in-degrees (`Consistent`): in every state of the second phase that a run
reaches with the mutex free (any number of threads, any schedule of critical sections
and of single runs of the body of the last `for` loop), for every node `j` the counter
`dependencies_matrix[j]` equals the number of nodes `i` with `matrix[i][j] = 1` that are
not in the result sequence, plus the number of occurrences of `j` in the local queues of
the threads, plus the number of threads that have popped a node `i` with
`matrix[i][j] = 1` and whose last `for` loop has not yet reached `j`; so the counter
equals the number of unemitted predecessors exactly when `j` waits in no local queue and
no such loop has still to reach it. -/
theorem parallel_in_degree_invariant (s0 : State) (hhead : s0.q.head = none)
    (hcons : Consistent s0) (W tl fuel : Nat) (schedule : List FineAction) (s : FineState)
    (hrun : fine_run fuel schedule (fine_initial s0 W tl) = Except.ok s)
    (hdr : s.draining = true) (j : Nat) (hj : j < s.nodes_count) :
    s.dependencies_matrix j =
      (unemitted_preds s.toState j : Int) + (waiting s.toParState j : Int) +
        (in_flight s j : Int) ∧
    (s.dependencies_matrix j = (unemitted_preds s.toState j : Int) ↔
      waiting s.toParState j = 0 ∧ in_flight s j = 0) := by
  have hg := fine_run_good fuel schedule _ s hrun (fine_initial_good s0 W tl hhead hcons)
  rcases hg with ⟨hf, -⟩ | ⟨-, r, S, B, hl⟩
  · rw [hdr] at hf
    exact absurd hf (by simp)
  · have hc := hl.inv.count j hj
    have h1 : unemitted_preds s.toState j = open_deps s.nodes_count s.matrix r j :=
      unemitted_preds_eq s.toState r j hl.res
    have h2 := pending_completion s B j
    have h3 := waiting_eq_pending s.toParState B j hl.locals
    rw [h2] at hc
    rw [h1, h3]
    constructor
    · rw [hc]
      push_cast
      ring
    · constructor
      · intro h
        omega
      · intro h
        omega

/-- Witness for C17 as amended: the diamond graph with two threads; thread 0 has popped
and emitted node 0 and has run the body of its last `for` loop for the columns 0 and 1,
so node 1 waits in its local queue and the loop has still to reach node 2. -/
theorem parallel_in_degree_invariant_witness :
    diamond.q.head = none ∧ Consistent diamond ∧
    fine_counters_of (fine_run 5 unlock_schedule (fine_initial diamond 2 4)) =
      some (true, [0], [0, 1, 1, 2], [0, 0, 0, 2], [0, 0, 0, 0], [0, 1, 1, 0]) ∧
    fine_counters_of (fine_run 5 mid_scan_schedule (fine_initial diamond 2 4)) =
      some (true, [0], [0, 1, 1, 2], [0, 0, 0, 2], [0, 1, 0, 0], [0, 0, 1, 0]) ∧
    ∃ s, fine_run 5 mid_scan_schedule (fine_initial diamond 2 4) = Except.ok s ∧
      s.draining = true ∧ 2 < s.nodes_count ∧
      (s.dependencies_matrix 1 =
          (unemitted_preds s.toState 1 : Int) + (waiting s.toParState 1 : Int) +
            (in_flight s 1 : Int) ∧
        (s.dependencies_matrix 1 = (unemitted_preds s.toState 1 : Int) ↔
          waiting s.toParState 1 = 0 ∧ in_flight s 1 = 0)) ∧
      s.dependencies_matrix 2 =
          (unemitted_preds s.toState 2 : Int) + (waiting s.toParState 2 : Int) +
            (in_flight s 2 : Int) ∧
        (s.dependencies_matrix 2 = (unemitted_preds s.toState 2 : Int) ↔
          waiting s.toParState 2 = 0 ∧ in_flight s 2 = 0) := by
  have hobs : fine_counters_of (fine_run 5 mid_scan_schedule (fine_initial diamond 2 4)) =
      some (true, [0], [0, 1, 1, 2], [0, 0, 0, 2], [0, 1, 0, 0], [0, 0, 1, 0]) := rfl
  obtain ⟨s, hs, hx⟩ := fine_counters_of_some hobs
  simp only [Prod.mk.injEq] at hx
  have hN : s.nodes_count = 4 := by
    have := congrArg List.length hx.2.2.1
    simpa using this
  exact ⟨rfl, diamond_consistent, rfl, hobs, s, hs, hx.1, by omega,
    parallel_in_degree_invariant diamond rfl diamond_consistent 2 4 5 mid_scan_schedule s
      hs hx.1 1 (by omega),
    parallel_in_degree_invariant diamond rfl diamond_consistent 2 4 5 mid_scan_schedule s
      hs hx.1 2 (by omega)⟩

end TopologyShorting
